import Mathlib

/-!
# RenjuBot: move-selection engine of `rendju_bot.cpp`

Shallow embedding of the class `RenjuBot` (board, win detection, threat scan,
minimax, move selection) and proofs of its specified properties.

Conventions of the embedding
* C++ `int` values are `Int`; board cells are `Char` (`'.'` Empty, `'B'`, `'W'`).
* `board_` is a 31 x 31 grid.  Indexing it outside `[0,31) x [0,31)` is undefined
  behaviour in C++; here every board access goes through `Board.read` /
  `Board.write`, which return `none` for such an index, and every function that
  touches the board returns an `Option`: `none` means "an out-of-range index was
  used".
* Mutable members (`board_`, `evaluation_cache`) are passed explicitly; the
  steady clock is an arbitrary oracle `late : Nat → Bool`, whose `k`-th value is
  the outcome of the `k`-th evaluation of `now() - start_time > MOVE_TIMEOUT`.
-/

namespace Renju

/-! ## Constants -/

def BOARD_SIZE : Int := 31
def WIN_LENGTH : Int := 5
def MAX_DEPTH : Int := 1
def INT_MIN : Int := -2147483648
def INT_MAX : Int := 2147483647

/-! ## Board -/

/-- The member `board_`: `BOARD_SIZE` rows of `BOARD_SIZE` cells. -/
@[ext] structure Board where
  cell : Fin 31 → Fin 31 → Char

/-- The index pair lies inside the board. -/
def in_range (x y : Int) : Prop := 0 ≤ x ∧ x < 31 ∧ 0 ≤ y ∧ y < 31

instance (x y : Int) : Decidable (in_range x y) := by
  unfold in_range; infer_instance

/-- Reading `board_[x][y]`; `none` when the index is out of range. -/
def Board.read (b : Board) (x y : Int) : Option Char :=
  if h : in_range x y then
    some (b.cell ⟨x.toNat, by unfold in_range at h; omega⟩ ⟨y.toNat, by unfold in_range at h; omega⟩)
  else none

/-- The grid after the cell `(x, y)` has been overwritten with `c`. -/
def Board.set (b : Board) (x y : Int) (c : Char) : Board :=
  ⟨fun i j => if (i.val : Int) = x ∧ (j.val : Int) = y then c else b.cell i j⟩

/-- The assignment `board_[x][y] = c`; `none` when the index is out of range. -/
def Board.write (b : Board) (x y : Int) (c : Char) : Option Board :=
  if in_range x y then some (b.set x y c) else none

/-- The board built by `initialize_board`: every cell is `'.'`. -/
def empty_board : Board := ⟨fun _ _ => '.'⟩

/-! ## Scan orders of the `for` loops -/

/-- The values of `for (int v = lo; v <= hi; ++v)`. -/
def int_range (lo hi : Int) : List Int :=
  (List.range (hi + 1 - lo).toNat).map (fun (k : Nat) => lo + (k : Int))

/-- The cells visited by `for x = x0..x1 { for y = y0..y1 { .. } }`, in visiting order. -/
def grid (x0 x1 y0 y1 : Int) : List (Int × Int) :=
  (int_range x0 x1).flatMap (fun x => (int_range y0 y1).map (fun y => (x, y)))

/-- The scan `for x in [0,BOARD_SIZE) { for y in [0,BOARD_SIZE) { .. } }`: row-major, x outer. -/
def all_cells : List (Int × Int) := grid 0 (BOARD_SIZE - 1) 0 (BOARD_SIZE - 1)

/-! ## `is_valid_move` -/

/-- The test `x >= 0 && x < BOARD_SIZE && y >= 0 && y < BOARD_SIZE && board_[x][y] == '.'`:
the board is read only when the four comparisons hold (short-circuit `&&`). -/
def is_valid_move (b : Board) (x y : Int) : Option Bool :=
  if x ≥ 0 ∧ x < BOARD_SIZE ∧ y ≥ 0 ∧ y < BOARD_SIZE then do
    let c ← b.read x y
    pure (c == '.')
  else pure false

/-! ## `check_win` -/

/-- One of the two inner loops of `check_win`:
`for (step ..) { if (in range && board_[nx][ny] == player) count++; else break; }`
over the given steps, with `nx = x + dx*step`, `ny = y + dy*step`; the result is the
number of increments of `count`.  The second loop (`x - dx*step`) is this one at
`(-dx, -dy)`. -/
def count_run (b : Board) (x y dx dy : Int) (player : Char) : List Int → Option Int
  | [] => pure 0
  | step :: rest =>
    let nx := x + dx * step
    let ny := y + dy * step
    if nx ≥ 0 ∧ nx < BOARD_SIZE ∧ ny ≥ 0 ∧ ny < BOARD_SIZE then do
      let c ← b.read nx ny
      if c = player then do
        let k ← count_run b x y dx dy player rest
        pure (k + 1)
      else pure 0
    else pure 0

/-- The values of `step` in `for (int step = 1; step < WIN_LENGTH; ++step)`. -/
def steps : List Int := int_range 1 (WIN_LENGTH - 1)

/-- The pairs `(dx, dy)` of the loops `for dx = -1..1 { for dy = -1..1 { .. } }`. -/
def directions : List (Int × Int) := grid (-1) 1 (-1) 1

/-- The body of the direction loops of `check_win`, over the remaining directions. -/
def check_win_loop (b : Board) (x y : Int) (player : Char) : List (Int × Int) → Option Bool
  | [] => pure false
  | (dx, dy) :: rest =>
    if dx = 0 ∧ dy = 0 then check_win_loop b x y player rest
    else do
      let fwd ← count_run b x y dx dy player steps
      let bwd ← count_run b x y (-dx) (-dy) player steps
      let count := 1 + fwd + bwd
      if count ≥ WIN_LENGTH then pure true
      else check_win_loop b x y player rest

/-- Embedding of `RenjuBot::check_win`. -/
def check_win (b : Board) (x y : Int) (player : Char) : Option Bool :=
  check_win_loop b x y player directions

/-! ## `find_first_valid_move` -/

/-- The scan of `find_first_valid_move` over the remaining cells.  The inner `Option` is the
C++ result: `some (x, y)` for `true` with `best_x = x, best_y = y`, `none` for `false`
(the references are left untouched). -/
def find_first_valid_move_loop (b : Board) : List (Int × Int) → Option (Option (Int × Int))
  | [] => pure none
  | (x, y) :: rest => do
    if (← is_valid_move b x y) then pure (some (x, y))
    else find_first_valid_move_loop b rest

/-- Embedding of `RenjuBot::find_first_valid_move`. -/
def find_first_valid_move (b : Board) : Option (Option (Int × Int)) :=
  find_first_valid_move_loop b all_cells

/-! ## `find_blocking_move` -/

/-- The scan of `find_blocking_move` over the remaining cells; the board is threaded through
the speculative placement and its undoing. -/
def find_blocking_move_loop (opponent : Char) :
    List (Int × Int) → Board → Option (Option (Int × Int) × Board)
  | [], b => pure (none, b)
  | (x, y) :: rest, b => do
    if !(← is_valid_move b x y) then find_blocking_move_loop opponent rest b
    else do
      let b1 ← b.write x y opponent
      if (← check_win b1 x y opponent) then do
        let b2 ← b1.write x y '.'
        if (← is_valid_move b2 x y) then pure (some (x, y), b2)
        else do
          let b3 ← b2.write x y '.'
          find_blocking_move_loop opponent rest b3
      else do
        let b3 ← b1.write x y '.'
        find_blocking_move_loop opponent rest b3

/-- Embedding of `RenjuBot::find_blocking_move`; the result pairs the C++ return value (`some (x, y)` for
`true` with `best_x = x, best_y = y`) with the board at return. -/
def find_blocking_move (b : Board) (_player opponent : Char) :
    Option (Option (Int × Int) × Board) :=
  find_blocking_move_loop opponent all_cells b

/-! ## State of the engine -/

/-- The member `evaluation_cache`: a finite map from board serialisations to scores. -/
abbrev Cache := String → Option Int

/-- The mutable members of `RenjuBot` used by the move selection, and the number of clock
readings made so far. -/
structure RenjuBot where
  board_ : Board
  is_black_turn : Bool
  evaluation_cache : Cache
  clock_reads : Nat

/-- Embedding of `RenjuBot::board_to_string`: the cells of all rows, in order. -/
def board_to_string (b : Board) : String :=
  String.mk ((List.finRange 31).flatMap (fun i => (List.finRange 31).map (fun j => b.cell i j)))

/-! ## `evaluate_position` -/

/-- The function `std::abs` on `int`. -/
def int_abs (a : Int) : Int := if a < 0 then -a else a

/-- The loops over `i`, `j` of `evaluate_position`, updating `min_distance`. -/
def min_distance_loop (b : Board) (x y : Int) : List (Int × Int) → Int → Option Int
  | [], min_distance => pure min_distance
  | (i, j) :: rest, min_distance => do
    let c ← b.read i j
    if c ≠ '.' then
      let dist := int_abs (x - i) + int_abs (y - j)
      min_distance_loop b x y rest (min min_distance dist)
    else min_distance_loop b x y rest min_distance

/-- The loops over `x`, `y` of `evaluate_position`, accumulating `score`. -/
def score_loop (b : Board) : List (Int × Int) → Int → Option Int
  | [], score => pure score
  | (x, y) :: rest, score => do
    let c ← b.read x y
    if c ≠ '.' then score_loop b rest score
    else do
      let center := BOARD_SIZE / 2
      let center_bonus := 10 - (int_abs (x - center) + int_abs (y - center))
      let min_distance ← min_distance_loop b x y all_cells BOARD_SIZE
      score_loop b rest (score + (center_bonus + (if min_distance > 2 then 5 else 0)))

/-- Embedding of `RenjuBot::evaluate_position`. -/
def evaluate_position (_player _opponent : Char) (s : RenjuBot) : Option (Int × RenjuBot) :=
  let board_state := board_to_string s.board_
  match s.evaluation_cache board_state with
  | some v => pure (v, s)
  | none => do
    let score ← score_loop s.board_ all_cells 0
    pure (score, { s with evaluation_cache :=
      fun k => if k = board_state then some score else s.evaluation_cache k })

/-! ## `minimax` -/

/-- The immediate-win scan of `minimax` (first pair of loops) over the remaining cells: the
flag tells whether the `return` inside the loops was taken. -/
def minimax_win_loop (stone : Char) : List (Int × Int) → Board → Option (Bool × Board)
  | [], b => pure (false, b)
  | (x, y) :: rest, b => do
    if !(← is_valid_move b x y) then minimax_win_loop stone rest b
    else do
      let b1 ← b.write x y stone
      if (← check_win b1 x y stone) then do
        let b2 ← b1.write x y '.'
        pure (true, b2)
      else do
        let b2 ← b1.write x y '.'
        minimax_win_loop stone rest b2

/-- The loops `if (is_valid_move(x, y)) moves.emplace_back(x, y)` over the given cells. -/
def collect_moves (b : Board) : List (Int × Int) → Option (List (Int × Int))
  | [] => pure []
  | (x, y) :: rest => do
    let v ← is_valid_move b x y
    let tail ← collect_moves b rest
    pure (if v then (x, y) :: tail else tail)

/-- The loop over `moves` of `minimax`; `recurse alpha beta s` is the call
`minimax(depth - 1, alpha, beta, !maximizing, player, opponent)` in state `s`. -/
def minimax_moves (recurse : Int → Int → RenjuBot → Option (Int × RenjuBot))
    (maximizing : Bool) (stone : Char) :
    List (Int × Int) → Int → Int → Int → RenjuBot → Option (Int × RenjuBot)
  | [], _, _, best_score, s => pure (best_score, s)
  | (x, y) :: rest, alpha, beta, best_score, s => do
    let b1 ← s.board_.write x y stone
    let (score, s1) ← recurse alpha beta { s with board_ := b1 }
    let b2 ← s1.board_.write x y '.'
    let s2 := { s1 with board_ := b2 }
    let best_score := if maximizing then max best_score score else min best_score score
    let alpha := if maximizing then max alpha best_score else alpha
    let beta := if maximizing then beta else min beta best_score
    if beta ≤ alpha then pure (best_score, s2)
    else minimax_moves recurse maximizing stone rest alpha beta best_score s2

/-- Embedding of `RenjuBot::minimax` for a depth `depth ≥ 0`, by recursion on `depth`; `late k` is the
outcome of the `k`-th reading of the clock. -/
def minimax_nat (late : Nat → Bool) :
    Nat → Int → Int → Bool → Char → Char → RenjuBot → Option (Int × RenjuBot)
  | depth, alpha, beta, maximizing, player, opponent, s =>
    let s0 := { s with clock_reads := s.clock_reads + 1 }
    if late s.clock_reads then pure (0, s0)
    else do
      let stone := if maximizing then player else opponent
      let (won, b1) ← minimax_win_loop stone all_cells s0.board_
      let s1 := { s0 with board_ := b1 }
      if won then
        pure (if maximizing then 1000000 - (depth : Int) else -1000000 + (depth : Int), s1)
      else
        match depth with
        | 0 => evaluate_position player opponent s1
        | d + 1 => do
          let moves ← collect_moves s1.board_ all_cells
          if moves.isEmpty then pure (0, s1)
          else
            minimax_moves
              (fun a b t => minimax_nat late d a b (!maximizing) player opponent t)
              maximizing stone moves alpha beta (if maximizing then INT_MIN else INT_MAX) s1

/-- Embedding of `RenjuBot::minimax`.  The clock is read first; with `depth < 0` the result is 0 whatever
the clock says. -/
def minimax (late : Nat → Bool) (depth alpha beta : Int) (maximizing : Bool)
    (player opponent : Char) (s : RenjuBot) : Option (Int × RenjuBot) :=
  if depth < 0 then pure (0, { s with clock_reads := s.clock_reads + 1 })
  else minimax_nat late depth.toNat alpha beta maximizing player opponent s

/-! ## `find_best_move` -/

/-- Two's-complement wrap-around of a 32-bit `int` result. -/
def wrap32 (v : Int) : Int := (v + 2147483648) % 4294967296 - 2147483648

/-- The loop over `best_moves` of `find_best_move`.  The result is `(best_x, best_y)`, a flag
telling whether the `return` inside the loop (immediate win) was taken, and the state. -/
def candidate_loop (late : Nat → Bool) (player opponent : Char) :
    List (Int × Int) → Int → Int × Int → RenjuBot → Option ((Int × Int) × Bool × RenjuBot)
  | [], _, best, s => pure (best, false, s)
  | (x, y) :: rest, best_score, best, s => do
    let b1 ← s.board_.write x y player
    if (← check_win b1 x y player) then do
      let b2 ← b1.write x y '.'
      pure ((x, y), true, { s with board_ := b2 })
    else do
      let (score, s1) ←
        minimax late (MAX_DEPTH - 1) INT_MIN INT_MAX false player opponent { s with board_ := b1 }
      let b2 ← s1.board_.write x y '.'
      let s2 := { s1 with board_ := b2 }
      let best_score' := if score > best_score then score else best_score
      let best' := if score > best_score then (x, y) else best
      let s3 := { s2 with clock_reads := s2.clock_reads + 1 }
      if late s2.clock_reads then pure (best', false, s3)
      else candidate_loop late player opponent rest best_score' best' s3

/-- The construction of `best_moves` in `find_best_move`: the Empty cells of the window of
`search_range = 4` around the opponent's move, or all Empty cells when that window has none. -/
def collect_best_moves (b : Board) (opponent_x opponent_y : Int) :
    Option (List (Int × Int)) := do
  let search_range : Int := 4
  let start_x := max 0 (wrap32 (opponent_x - search_range))
  let end_x := min (BOARD_SIZE - 1) (wrap32 (opponent_x + search_range))
  let start_y := max 0 (wrap32 (opponent_y - search_range))
  let end_y := min (BOARD_SIZE - 1) (wrap32 (opponent_y + search_range))
  let window ← collect_moves b (grid start_x end_x start_y end_y)
  if window.isEmpty then collect_moves b all_cells else pure window

/-- The last statement of `find_best_move`:
`if (best_x == -1 || best_y == -1 || !is_valid_move(best_x, best_y))` fall back to the first
valid move, or to `(-1, -1)`. -/
def final_check (best : Int × Int) (s : RenjuBot) : Option ((Int × Int) × RenjuBot) := do
  let invalid ←
    if best.1 = -1 ∨ best.2 = -1 then pure true
    else do pure (!(← is_valid_move s.board_ best.1 best.2))
  if invalid then do
    match (← find_first_valid_move s.board_) with
    | some m => pure (m, s)
    | none => pure ((-1, -1), s)
  else pure (best, s)

/-- The part of `find_best_move` after the threat response: candidate window, search and
fallback (priority 2). -/
def windowed_search (late : Nat → Bool) (opponent_x opponent_y : Int) (player opponent : Char)
    (s : RenjuBot) : Option ((Int × Int) × RenjuBot) := do
  let best_moves ← collect_best_moves s.board_ opponent_x opponent_y
  let first ← if best_moves.isEmpty then find_first_valid_move s.board_ else pure none
  match first with
  | some m => pure (m, s)
  | none => do
    let (best, returned, s1) ← candidate_loop late player opponent best_moves INT_MIN (-1, -1) s
    if returned then pure (best, s1)
    else final_check best s1

/-- Embedding of `RenjuBot::find_best_move`; the result is `(best_x, best_y)` with the state at return.
`start_time = now()` starts the clock the oracle `late` refers to. -/
def find_best_move (late : Nat → Bool) (opponent_x opponent_y : Int) (is_first_move : Bool)
    (s : RenjuBot) : Option ((Int × Int) × RenjuBot) := do
  let opening ←
    if is_first_move && s.is_black_turn then do
      if (← is_valid_move s.board_ 15 15) then pure (some ((15 : Int), (15 : Int)))
      else find_first_valid_move s.board_
    else pure none
  match opening with
  | some m => pure (m, s)
  | none => do
    let player := if s.is_black_turn then 'B' else 'W'
    let opponent := if s.is_black_turn then 'W' else 'B'
    let (blocking, b1) ← find_blocking_move s.board_ player opponent
    let s1 := { s with board_ := b1 }
    let threat ←
      match blocking with
      | some (bx, by_) => do
        if (← is_valid_move b1 bx by_) then pure (some (bx, by_)) else pure none
      | none => pure none
    match threat with
    | some m => pure (m, s1)
    | none => windowed_search late opponent_x opponent_y player opponent s1

/-! ## Runs of stones (specification side) -/

/-- The four lines through a cell: horizontal, vertical and the two diagonals. -/
def lines : List (Int × Int) := [(0, 1), (1, 0), (1, 1), (1, -1)]

/-- The `i + j + 1` consecutive cells `(x + k*dx, y + k*dy)`, `-i ≤ k ≤ j`, of the line through
`(x, y)` with direction `(dx, dy)` are on the board and all hold `c`: a run of `c` through
`(x, y)`. -/
def RunThrough (b : Board) (c : Char) (x y dx dy : Int) (i j : Nat) : Prop :=
  ∀ k : Int, -(i : Int) ≤ k → k ≤ (j : Int) → b.read (x + dx * k) (y + dy * k) = some c

/-- The run of `RunThrough` is the maximal one: it cannot be extended at either end. -/
def MaximalRun (b : Board) (c : Char) (x y dx dy : Int) (i j : Nat) : Prop :=
  RunThrough b c x y dx dy i j ∧
  b.read (x + dx * ((j : Int) + 1)) (y + dy * ((j : Int) + 1)) ≠ some c ∧
  b.read (x + dx * (-(i : Int) - 1)) (y + dy * (-(i : Int) - 1)) ≠ some c

/-- The `n` cells following `(x, y)` in direction `(dx, dy)` all hold `c`. -/
def Ray (b : Board) (c : Char) (x y dx dy : Int) (n : Nat) : Prop :=
  ∀ k : Nat, 1 ≤ k → k ≤ n → b.read (x + dx * (k : Int)) (y + dy * (k : Int)) = some c

/-! ## Pure description of `check_win` -/

/-- Number of increments made by one inner loop of `check_win`, as a pure function. -/
def reach (b : Board) (c : Char) (x y dx dy : Int) : List Int → Int
  | [] => 0
  | step :: rest =>
    if b.read (x + dx * step) (y + dy * step) = some c then reach b c x y dx dy rest + 1 else 0

/-- The value computed by `check_win`, as a pure function. -/
def wins (b : Board) (x y : Int) (c : Char) : Bool :=
  directions.any (fun d =>
    !(decide (d.1 = 0 ∧ d.2 = 0)) &&
      decide (1 + reach b c x y d.1 d.2 steps + reach b c x y (-d.1) (-d.2) steps ≥ WIN_LENGTH))

/-! ## Pure descriptions of the scans -/

/-- The cell `p` is on the board and Empty. -/
def is_empty (b : Board) (p : Int × Int) : Bool := decide (b.read p.1 p.2 = some '.')

/-- The cell `p` is Empty and a stone `c` placed on it makes `check_win` true there. -/
def completes (b : Board) (c : Char) (p : Int × Int) : Bool :=
  is_empty b p && wins (b.set p.1 p.2 c) p.1 p.2 c

/-- Row-major scan order (x outer, y inner): the cell `p` is visited before the cell `q`. -/
def scanned_before (p q : Int × Int) : Prop := p.1 < q.1 ∨ (p.1 = q.1 ∧ p.2 < q.2)

/-- The cell `(x, y)` is Empty and `check_win (x, y, c)` holds on the board with a stone `c`
placed at `(x, y)`. -/
def Threat (b : Board) (c : Char) (x y : Int) : Prop :=
  b.read x y = some '.' ∧ ∃ b1, b.write x y c = some b1 ∧ check_win b1 x y c = some true

/-- The cell `(x, y)` is Empty and a stone `c` placed there completes a run of at least 5. -/
def CompletesRun (b : Board) (c : Char) (x y : Int) : Prop :=
  b.read x y = some '.' ∧
    ∃ d ∈ lines, ∃ i j : Nat, RunThrough (b.set x y c) c x y d.1 d.2 i j ∧ 5 ≤ i + j + 1

/-- The value left in `min_distance` by the loops over `i`, `j`, as a pure function. -/
def min_distance_of (b : Board) (x y : Int) : List (Int × Int) → Int → Int
  | [], m => m
  | (i, j) :: rest, m =>
    if b.read i j = some '.' then min_distance_of b x y rest m
    else min_distance_of b x y rest (min m (int_abs (x - i) + int_abs (y - j)))

/-- The value left in `score` by the loops over `x`, `y`, as a pure function. -/
def score_of (b : Board) : List (Int × Int) → Int → Int
  | [], score => score
  | (x, y) :: rest, score =>
    if b.read x y = some '.' then
      score_of b rest (score + (10 - (int_abs (x - BOARD_SIZE / 2) + int_abs (y - BOARD_SIZE / 2))
        + (if min_distance_of b x y all_cells BOARD_SIZE > 2 then 5 else 0)))
    else score_of b rest score

/-- The score `evaluate_position` computes on a cache miss. -/
def static_score (b : Board) : Int := score_of b all_cells 0

/-- The state after `evaluate_position` stored `score` for the current board. -/
def store_score (s : RenjuBot) (score : Int) : RenjuBot :=
  { s with evaluation_cache :=
      fun k => if k = board_to_string s.board_ then some score else s.evaluation_cache k }

/-- The state after one more reading of the clock. -/
def tick (s : RenjuBot) : RenjuBot := { s with clock_reads := s.clock_reads + 1 }

/-- The engine's colour. -/
def player_of (s : RenjuBot) : Char := if s.is_black_turn then 'B' else 'W'

/-- The opponent's colour. -/
def opponent_of (s : RenjuBot) : Char := if s.is_black_turn then 'W' else 'B'

/-- The candidate list `best_moves` built by `find_best_move`, as a pure function. -/
def best_moves_of (b : Board) (opponent_x opponent_y : Int) : List (Int × Int) :=
  let window := (grid (max 0 (wrap32 (opponent_x - 4)))
    (min (BOARD_SIZE - 1) (wrap32 (opponent_x + 4)))
    (max 0 (wrap32 (opponent_y - 4)))
    (min (BOARD_SIZE - 1) (wrap32 (opponent_y + 4)))).filter (is_empty b)
  if window.isEmpty then all_cells.filter (is_empty b) else window

/-- The outcome of the last statement of `find_best_move`, as a pure function. -/
def final_choice (best : Int × Int) (s : RenjuBot) : (Int × Int) × RenjuBot :=
  if best.1 = -1 ∨ best.2 = -1 ∨ is_empty s.board_ best = false then
    match all_cells.find? (is_empty s.board_) with
    | some m => (m, s)
    | none => ((-1, -1), s)
  else (best, s)

/-- The end of `find_best_move` after the candidate loop: the early `return` of the loop, or
the last statement. -/
def finish_search (r : (Int × Int) × Bool × RenjuBot) : (Int × Int) × RenjuBot :=
  if r.2.1 = true then (r.1, r.2.2) else final_choice r.1 r.2.2

/-- The clock that never reports the deadline as exceeded. -/
def never_late : Nat → Bool := fun _ => false

/-- A state of the engine with the given board and turn flag, an empty cache and no clock
reading made. -/
def fresh_state (b : Board) (black : Bool) : RenjuBot :=
  { board_ := b, is_black_turn := black, evaluation_cache := fun _ => none, clock_reads := 0 }

/-- The value of `minimax(0, alpha, beta, false, player, opponent)` on board `b` with cache
`cache` when the clock is not late: `-1000000` when the opponent has a winning cell, else the
cached or computed static score. -/
def leaf_value (cache : Cache) (b : Board) (opponent : Char) : Int :=
  if all_cells.any (completes b opponent) = true then -1000000
  else
    match cache (board_to_string b) with
    | some v => v
    | none => static_score b

/-- Specification of the window: the Empty cells of the board with `|x - opponent_x| ≤ 4` and
`|y - opponent_y| ≤ 4`, in row-major scan order. -/
def window_candidates (b : Board) (opponent_x opponent_y : Int) : List (Int × Int) :=
  all_cells.filter (fun p =>
    is_empty b p && decide (int_abs (p.1 - opponent_x) ≤ 4 ∧ int_abs (p.2 - opponent_y) ≤ 4))

/-- Specification of the candidate list: the window, or all Empty cells in row-major order
when the window has none. -/
def candidates (b : Board) (opponent_x opponent_y : Int) : List (Int × Int) :=
  if (window_candidates b opponent_x opponent_y).isEmpty then all_cells.filter (is_empty b)
  else window_candidates b opponent_x opponent_y

/-! ## Commands of `start` -/

/-- Embedding of `RenjuBot::initialize_board`: every cell becomes `'.'` and the cache is
cleared (the reseeding of `gen_`, which nothing reads, is left out). -/
def initialize_board (s : RenjuBot) : RenjuBot :=
  { s with board_ := empty_board, evaluation_cache := fun _ => none }

/-- The state built by the constructor: `initialize_board()` on a new object, whose
`is_black_turn` is `true`. -/
def initial_state : RenjuBot :=
  initialize_board
    { board_ := empty_board, is_black_turn := true, evaluation_cache := fun _ => none,
      clock_reads := 0 }

/-- A parsed request: the value of `command`, with the fields `x`, `y` of `opponentMove` for
`"move"` (a missing field reads as `-1`). -/
inductive Command where
  | start : Command
  | move (x y : Int) : Command
  | reset : Command
  | other : Command

/-- The response object: `error`, `move` (with the fixed team name) or `reply`. -/
inductive Response where
  | error (message : String) : Response
  | move (x y : Int) : Response
  | reply (text : String) : Response

/-- The handling of one parsed request in `RenjuBot::start` (the chain of `if` on `command`).
`timed_out` is the outcome of `now() - move_start_time > MOVE_TIMEOUT` at the head of the
chain; `late` is the clock seen by `find_best_move`. -/
def handle_command (late : Nat → Bool) (timed_out : Bool) (command : Command) (s : RenjuBot) :
    Option (Response × RenjuBot) :=
  if timed_out then pure (Response.error "Move timeout", s)
  else
    match command with
    | Command.start =>
      if !s.is_black_turn then pure (Response.error "White cannot make first move", s)
      else do
        if !(← is_valid_move s.board_ 15 15) then pure (Response.error "Center is occupied", s)
        else do
          let b ← s.board_.write 15 15 'B'
          pure (Response.move 15 15, { s with board_ := b })
    | Command.move x y => do
      let rejected ←
        if x = -1 ∨ y = -1 then pure true
        else do pure (!(← is_valid_move s.board_ x y))
      if rejected then pure (Response.error "Invalid opponent move", s)
      else do
        let b1 ← s.board_.write x y (if s.is_black_turn then 'W' else 'B')
        let (n, s1) ← find_best_move late x y false { s with board_ := b1 }
        let unusable ←
          if n.1 = -1 ∨ n.2 = -1 then pure true
          else do pure (!(← is_valid_move s1.board_ n.1 n.2))
        if unusable then do
          match (← find_first_valid_move s1.board_) with
          | some m => do
            let b2 ← s1.board_.write m.1 m.2 (if s1.is_black_turn then 'B' else 'W')
            pure (Response.move m.1 m.2, { s1 with board_ := b2 })
          | none => pure (Response.error "No valid move available", s1)
        else do
          let b2 ← s1.board_.write n.1 n.2 (if s1.is_black_turn then 'B' else 'W')
          pure (Response.move n.1 n.2, { s1 with board_ := b2 })
    | Command.reset =>
      let s1 := initialize_board s
      pure (Response.reply "ok", { s1 with is_black_turn := !s1.is_black_turn })
    | Command.other => pure (Response.error "Unknown command", s)

/-! ## Cache invariant and reachable states -/

/-- Every cache entry holds the score that `evaluate_position` computes, on a cache miss, for
every board with that serialisation. -/
def CacheSound (cache : Cache) : Prop :=
  ∀ (b : Board) (v : Int), cache (board_to_string b) = some v → v = static_score b

/-- One step of the engine: a call of `evaluate_position`, `minimax`, `find_blocking_move` or
`find_best_move` with any arguments and any clock, or the handling of a command.  The flag is
`true` exactly for a `reset` command that is carried out. -/
inductive Step : Bool → RenjuBot → RenjuBot → Prop where
  | evaluate (player opponent : Char) (s : RenjuBot) (v : Int) (s' : RenjuBot) :
      evaluate_position player opponent s = some (v, s') → Step false s s'
  | search (late : Nat → Bool) (depth alpha beta : Int) (maximizing : Bool)
      (player opponent : Char) (s : RenjuBot) (v : Int) (s' : RenjuBot) :
      minimax late depth alpha beta maximizing player opponent s = some (v, s') →
      Step false s s'
  | blocking (player opponent : Char) (s : RenjuBot) (r : Option (Int × Int)) (b' : Board) :
      find_blocking_move s.board_ player opponent = some (r, b') →
      Step false s { s with board_ := b' }
  | best_move (late : Nat → Bool) (opponent_x opponent_y : Int) (is_first_move : Bool)
      (s : RenjuBot) (r : Int × Int) (s' : RenjuBot) :
      find_best_move late opponent_x opponent_y is_first_move s = some (r, s') →
      Step false s s'
  | start_command (late : Nat → Bool) (timed_out : Bool) (s : RenjuBot) (r : Response)
      (s' : RenjuBot) :
      handle_command late timed_out Command.start s = some (r, s') → Step false s s'
  | move_command (late : Nat → Bool) (timed_out : Bool) (x y : Int) (s : RenjuBot)
      (r : Response) (s' : RenjuBot) :
      handle_command late timed_out (Command.move x y) s = some (r, s') → Step false s s'
  | other_command (late : Nat → Bool) (timed_out : Bool) (s : RenjuBot) (r : Response)
      (s' : RenjuBot) :
      handle_command late timed_out Command.other s = some (r, s') → Step false s s'
  | reset_timed_out (late : Nat → Bool) (s : RenjuBot) (r : Response) (s' : RenjuBot) :
      handle_command late true Command.reset s = some (r, s') → Step false s s'
  | reset_command (late : Nat → Bool) (s : RenjuBot) (r : Response) (s' : RenjuBot) :
      handle_command late false Command.reset s = some (r, s') → Step true s s'

/-- The states reachable from the initial state by any sequence of steps. -/
inductive Reachable : RenjuBot → Prop where
  | initial : Reachable initial_state
  | step (is_reset : Bool) (s s' : RenjuBot) : Reachable s → Step is_reset s s' → Reachable s'

/-! ## Specification of the static score -/

/-- Specification: some occupied cell of the board lies at Manhattan distance at most 2 of
the cell `p`. -/
def stone_within2 (b : Board) (p : Int × Int) : Bool :=
  all_cells.any (fun q =>
    !is_empty b q && decide (int_abs (p.1 - q.1) + int_abs (p.2 - q.2) ≤ 2))

/-- Specification of the score: the sum over all Empty cells `(x, y)` of
`10 - (|x - 15| + |y - 15|)`, plus 5 for each Empty cell with no occupied cell at Manhattan
distance at most 2. -/
def spec_score (b : Board) : Int :=
  ((all_cells.filter (is_empty b)).map (fun p =>
    10 - (int_abs (p.1 - 15) + int_abs (p.2 - 15)) + (if stone_within2 b p then 0 else 5))).sum

/-- No entry of the cache `c` is removed or changed in `c'`. -/
def CacheKept (c c' : Cache) : Prop := ∀ k v, c k = some v → c' k = some v

/-- The cache `c'` keeps the entries of `c`, and is sound when `c` is. -/
def CacheGrows (c c' : Cache) : Prop := CacheKept c c' ∧ (CacheSound c → CacheSound c')

/-! ## `minimax` without the cutoff, and the game value -/

/-- The loop over `moves` of `minimax` with the statement `if (beta <= alpha) break;`
deleted; everything else is as in `minimax_moves`. -/
def minimax_moves_unpruned (recurse : Int → Int → RenjuBot → Option (Int × RenjuBot))
    (maximizing : Bool) (stone : Char) :
    List (Int × Int) → Int → Int → Int → RenjuBot → Option (Int × RenjuBot)
  | [], _, _, best_score, s => pure (best_score, s)
  | (x, y) :: rest, alpha, beta, best_score, s => do
    let b1 ← s.board_.write x y stone
    let (score, s1) ← recurse alpha beta { s with board_ := b1 }
    let b2 ← s1.board_.write x y '.'
    let s2 := { s1 with board_ := b2 }
    let best_score := if maximizing then max best_score score else min best_score score
    let alpha := if maximizing then max alpha best_score else alpha
    let beta := if maximizing then beta else min beta best_score
    minimax_moves_unpruned recurse maximizing stone rest alpha beta best_score s2

/-- The function `minimax_nat` with the cutoff deleted from its loop. -/
def minimax_unpruned_nat (late : Nat → Bool) :
    Nat → Int → Int → Bool → Char → Char → RenjuBot → Option (Int × RenjuBot)
  | depth, alpha, beta, maximizing, player, opponent, s =>
    let s0 := { s with clock_reads := s.clock_reads + 1 }
    if late s.clock_reads then pure (0, s0)
    else do
      let stone := if maximizing then player else opponent
      let (won, b1) ← minimax_win_loop stone all_cells s0.board_
      let s1 := { s0 with board_ := b1 }
      if won then
        pure (if maximizing then 1000000 - (depth : Int) else -1000000 + (depth : Int), s1)
      else
        match depth with
        | 0 => evaluate_position player opponent s1
        | d + 1 => do
          let moves ← collect_moves s1.board_ all_cells
          if moves.isEmpty then pure (0, s1)
          else
            minimax_moves_unpruned
              (fun a b t => minimax_unpruned_nat late d a b (!maximizing) player opponent t)
              maximizing stone moves alpha beta (if maximizing then INT_MIN else INT_MAX) s1

/-- The unpruned minimax: `minimax` with the cutoff `if (beta <= alpha) break;` deleted. -/
def minimax_unpruned (late : Nat → Bool) (depth alpha beta : Int) (maximizing : Bool)
    (player opponent : Char) (s : RenjuBot) : Option (Int × RenjuBot) :=
  if depth < 0 then pure (0, { s with clock_reads := s.clock_reads + 1 })
  else minimax_unpruned_nat late depth.toNat alpha beta maximizing player opponent s

/-- The score `evaluate_position` returns for board `b` with cache `cache`. -/
def leaf_score (cache : Cache) (b : Board) : Int :=
  match cache (board_to_string b) with
  | some v => v
  | none => static_score b

/-- The running maximum (or minimum) of a list of scores, from the start value `init`. -/
def fold_best (maximizing : Bool) (init : Int) (vals : List Int) : Int :=
  vals.foldl (fun best v => if maximizing then max best v else min best v) init

/-- The value of a position searched to the given depth when the deadline is never
exceeded, as a pure function of the board and of the cache at the start of the search. -/
def game_value (cache : Cache) (player opponent : Char) : Nat → Bool → Board → Int
  | depth, maximizing, b =>
    if all_cells.any (completes b (if maximizing then player else opponent)) = true then
      (if maximizing then 1000000 - (depth : Int) else -1000000 + (depth : Int))
    else
      match depth with
      | 0 => leaf_score cache b
      | d + 1 =>
        if (all_cells.filter (is_empty b)).isEmpty = true then 0
        else
          fold_best maximizing (if maximizing then INT_MIN else INT_MAX)
            ((all_cells.filter (is_empty b)).map (fun m =>
              game_value cache player opponent d (!maximizing)
                (b.set m.1 m.2 (if maximizing then player else opponent))))

/-- The caches `c` and `c0` give every board the same score. -/
def SameScores (c0 c : Cache) : Prop := ∀ b, leaf_score c b = leaf_score c0 b

/-- The returned value `v` of a search with window `(alpha, beta)` bounds the value `V`:
exact inside the window, an upper bound at or below `alpha`, a lower bound at or above
`beta`. -/
def Bounds (alpha beta v V : Int) : Prop :=
  (v ≤ alpha → V ≤ v) ∧ (alpha < v → v < beta → V = v) ∧ (beta ≤ v → v ≤ V)

/-! ## Concrete positions used as examples -/

/-- White stones on `(0,1) .. (0,4)`, every other cell Empty. -/
def four_board : Board :=
  (((empty_board.set 0 1 'W').set 0 2 'W').set 0 3 'W').set 0 4 'W'

/-- White stones on `(0,0) .. (0,4)`, every other cell Empty. -/
def five_board : Board := four_board.set 0 0 'W'

/-! ## Basic facts about board accesses -/

theorem read_of_in_range (b : Board) {x y : Int} (h : in_range x y) :
    ∃ c, b.read x y = some c := by
  unfold Board.read
  rw [dif_pos h]
  exact ⟨_, rfl⟩

theorem in_range_of_read {b : Board} {x y : Int} {c : Char} (h : b.read x y = some c) :
    in_range x y := by
  unfold Board.read at h
  by_cases hr : in_range x y
  · exact hr
  · rw [dif_neg hr] at h
    cases h

theorem read_set (b : Board) (x y : Int) (c : Char) (u v : Int) :
    (b.set x y c).read u v =
      if u = x ∧ v = y then (if in_range x y then some c else none) else b.read u v := by
  unfold Board.read Board.set
  by_cases hr : in_range u v
  · have h1 : 0 ≤ u := hr.1
    have h2 : 0 ≤ v := hr.2.2.1
    simp only [dif_pos hr, Int.toNat_of_nonneg h1, Int.toNat_of_nonneg h2]
    by_cases he : u = x ∧ v = y
    · obtain ⟨rfl, rfl⟩ := he
      simp [hr]
    · simp [he]
  · simp only [dif_neg hr]
    by_cases he : u = x ∧ v = y
    · obtain ⟨rfl, rfl⟩ := he
      simp [hr]
    · simp [he]

theorem read_set_same (b : Board) {x y : Int} (c : Char) (h : in_range x y) :
    (b.set x y c).read x y = some c := by
  rw [read_set]; simp [h]

theorem read_set_other (b : Board) (x y : Int) (c : Char) {u v : Int} (h : ¬ (u = x ∧ v = y)) :
    (b.set x y c).read u v = b.read u v := by
  rw [read_set]; simp [h]

theorem write_of_in_range (b : Board) {x y : Int} (c : Char) (h : in_range x y) :
    b.write x y c = some (b.set x y c) := by
  unfold Board.write; rw [if_pos h]

/-- Two boards with the same in-range reads are the same board. -/
theorem board_eq_of_read {b1 b2 : Board} (h : ∀ x y, in_range x y → b1.read x y = b2.read x y) :
    b1 = b2 := by
  apply Board.ext
  funext i j
  have hr : in_range (i.val : Int) (j.val : Int) := by
    unfold in_range; omega
  have := h i.val j.val hr
  unfold Board.read at this
  simp only [dif_pos hr, Int.toNat_ofNat, Option.some.injEq] at this
  exact this

/-- Placing a stone on a cell and then writing back what the cell held restores the board. -/
theorem set_set_restore (b : Board) {x y : Int} (c e : Char) (h : b.read x y = some e) :
    (b.set x y c).set x y e = b := by
  apply board_eq_of_read
  intro u v _
  rw [read_set, read_set]
  by_cases he : u = x ∧ v = y
  · obtain ⟨rfl, rfl⟩ := he
    simp [in_range_of_read h, h]
  · simp [he]

theorem is_valid_move_eq (b : Board) (x y : Int) :
    is_valid_move b x y = some (decide (b.read x y = some '.')) := by
  unfold is_valid_move BOARD_SIZE
  by_cases hr : in_range x y
  · obtain ⟨c, hc⟩ := read_of_in_range b hr
    have hg : x ≥ 0 ∧ x < 31 ∧ y ≥ 0 ∧ y < 31 := hr
    rw [if_pos hg, hc]
    by_cases hd : c = '.' <;> simp [hd]
  · have hg : ¬ (x ≥ 0 ∧ x < 31 ∧ y ≥ 0 ∧ y < 31) := hr
    rw [if_neg hg]
    have : b.read x y ≠ some '.' := fun h => hr (in_range_of_read h)
    simp [this]

theorem count_run_eq (b : Board) (c : Char) (x y dx dy : Int) (l : List Int) :
    count_run b x y dx dy c l = some (reach b c x y dx dy l) := by
  induction l with
  | nil => rfl
  | cons step rest ih =>
    unfold count_run reach
    simp only [BOARD_SIZE]
    by_cases hr : in_range (x + dx * step) (y + dy * step)
    · obtain ⟨e, he⟩ := read_of_in_range b hr
      have hg : x + dx * step ≥ 0 ∧ x + dx * step < 31 ∧ y + dy * step ≥ 0 ∧ y + dy * step < 31 := hr
      rw [if_pos hg, he, ih]
      by_cases hd : e = c
      · simp [hd]
      · simp [hd]
    · have hg : ¬ (x + dx * step ≥ 0 ∧ x + dx * step < 31 ∧ y + dy * step ≥ 0 ∧ y + dy * step < 31) := hr
      rw [if_neg hg]
      have : b.read (x + dx * step) (y + dy * step) ≠ some c := fun h => hr (in_range_of_read h)
      simp [this]

theorem check_win_loop_eq (b : Board) (c : Char) (x y : Int) (l : List (Int × Int)) :
    check_win_loop b x y c l = some (l.any (fun d =>
      !(decide (d.1 = 0 ∧ d.2 = 0)) &&
        decide (1 + reach b c x y d.1 d.2 steps + reach b c x y (-d.1) (-d.2) steps ≥ WIN_LENGTH))) := by
  induction l with
  | nil => rfl
  | cons d rest ih =>
    obtain ⟨dx, dy⟩ := d
    unfold check_win_loop
    by_cases h0 : dx = 0 ∧ dy = 0
    · rw [if_pos h0, ih]
      simp [h0]
    · rw [if_neg h0, count_run_eq, count_run_eq, ih]
      simp only [Option.bind_eq_bind, Option.some_bind, List.any_cons, decide_eq_false h0,
        Bool.not_false, Bool.true_and]
      by_cases hw : 1 + reach b c x y dx dy steps + reach b c x y (-dx) (-dy) steps ≥ WIN_LENGTH
      · rw [if_pos hw, decide_eq_true hw]
        rfl
      · rw [if_neg hw, decide_eq_false hw]
        rfl

/-- The function `check_win` never indexes out of range and computes `wins`. -/
theorem check_win_eq (b : Board) (x y : Int) (c : Char) :
    check_win b x y c = some (wins b x y c) := by
  unfold check_win wins
  exact check_win_loop_eq b c x y directions

/-! ## `check_win` and runs -/

theorem steps_eq : steps = [1, 2, 3, 4] := by decide

theorem Ray_zero (b : Board) (c : Char) (x y dx dy : Int) : Ray b c x y dx dy 0 := by
  intro k h1 h2
  omega

theorem Ray_succ (b : Board) (c : Char) (x y dx dy : Int) (n : Nat) :
    Ray b c x y dx dy (n + 1) ↔
      Ray b c x y dx dy n ∧
        b.read (x + dx * ((n : Int) + 1)) (y + dy * ((n : Int) + 1)) = some c := by
  constructor
  · intro h
    refine ⟨fun k h1 h2 => h k h1 (by omega), ?_⟩
    have := h (n + 1) (by omega) (by omega)
    simpa using this
  · rintro ⟨h, hl⟩ k h1 h2
    by_cases hk : k = n + 1
    · subst hk
      simpa using hl
    · exact h k h1 (by omega)

theorem Ray_mono {b : Board} {c : Char} {x y dx dy : Int} {n m : Nat} (h : Ray b c x y dx dy n)
    (hm : m ≤ n) : Ray b c x y dx dy m :=
  fun k h1 h2 => h k h1 (by omega)

theorem reach_steps_bounds (b : Board) (c : Char) (x y dx dy : Int) :
    0 ≤ reach b c x y dx dy steps ∧ reach b c x y dx dy steps ≤ 4 := by
  rw [steps_eq]
  simp only [reach]
  split_ifs <;> omega

/-- The inner loop of `check_win` reaches at least `n ≤ 4` cells exactly when the `n` cells
following `(x, y)` hold `c`. -/
theorem le_reach_steps (b : Board) (c : Char) (x y dx dy : Int) (n : Nat) (hn : n ≤ 4) :
    (n : Int) ≤ reach b c x y dx dy steps ↔ Ray b c x y dx dy n := by
  have e1 := Ray_succ b c x y dx dy 0
  have e2 := Ray_succ b c x y dx dy 1
  have e3 := Ray_succ b c x y dx dy 2
  have e4 := Ray_succ b c x y dx dy 3
  have e0 := Ray_zero b c x y dx dy
  norm_num at e1 e2 e3 e4
  rw [steps_eq]
  simp only [reach]
  interval_cases n
  · simp only [e0, iff_true]
    split_ifs <;> simp
  · rw [e1]
    split_ifs <;> simp_all
  · rw [e2, e1]
    split_ifs <;> simp_all
  · rw [e3, e2, e1]
    split_ifs <;> simp_all
  · rw [e4, e3, e2, e1]
    split_ifs <;> simp_all

/-- A ray of stones along a proper direction stays on the board, so it is shorter than 32. -/
theorem Ray_lt (b : Board) (c : Char) (x y dx dy : Int) (hd : ¬ (dx = 0 ∧ dy = 0)) (n : Nat)
    (h : Ray b c x y dx dy n) : n < 32 := by
  by_contra hn
  have h1 := in_range_of_read (h 1 (by omega) (by omega))
  have h2 := in_range_of_read (h 32 (by omega) (by omega))
  unfold in_range at h1 h2
  push_cast at h1 h2
  omega

/-- Every ray of stones extends to one that cannot be extended further. -/
theorem Ray_extend (b : Board) (c : Char) (x y dx dy : Int) (hd : ¬ (dx = 0 ∧ dy = 0)) (n : Nat)
    (h : Ray b c x y dx dy n) :
    ∃ m, n ≤ m ∧ Ray b c x y dx dy m ∧
      b.read (x + dx * ((m : Int) + 1)) (y + dy * ((m : Int) + 1)) ≠ some c := by
  by_contra hne
  push_neg at hne
  have hall : ∀ m, n ≤ m → Ray b c x y dx dy m := by
    intro m hm
    induction m, hm using Nat.le_induction with
    | base => exact h
    | succ m hm ih => exact (Ray_succ b c x y dx dy m).2 ⟨ih, hne m hm ih⟩
  have := Ray_lt b c x y dx dy hd (n + 32) (hall _ (by omega))
  omega

theorem RunThrough_iff_Ray (b : Board) (c : Char) (x y dx dy : Int) (i j : Nat) :
    RunThrough b c x y dx dy i j ↔
      b.read x y = some c ∧ Ray b c x y dx dy j ∧ Ray b c x y (-dx) (-dy) i := by
  constructor
  · intro h
    refine ⟨?_, ?_, ?_⟩
    · have := h 0 (by omega) (by omega)
      simpa using this
    · intro k _ h2
      exact h k (by omega) (by omega)
    · intro k _ h2
      have := h (-(k : Int)) (by omega) (by omega)
      simpa using this
  · rintro ⟨h0, hj, hi⟩ k h1 h2
    rcases lt_trichotomy k 0 with hk | hk | hk
    · have := hi k.natAbs (by omega) (by omega)
      have e : ((k.natAbs : Nat) : Int) = -k := by omega
      rw [e] at this
      simpa using this
    · subst hk
      simpa using h0
    · have := hj k.toNat (by omega) (by omega)
      have e : ((k.toNat : Nat) : Int) = k := by omega
      rw [e] at this
      exact this

/-- The function `check_win` in terms of rays: some proper direction has rays of `f` and `g` stones on the
two sides of `(x, y)` with `f + g ≥ 4`. -/
theorem wins_iff_rays (b : Board) (x y : Int) (c : Char) :
    wins b x y c = true ↔
      ∃ d ∈ directions, ¬ (d.1 = 0 ∧ d.2 = 0) ∧ ∃ f g : Nat,
        Ray b c x y d.1 d.2 f ∧ Ray b c x y (-d.1) (-d.2) g ∧ 4 ≤ f + g := by
  unfold wins WIN_LENGTH
  rw [List.any_eq_true]
  constructor
  · rintro ⟨d, hd, hw⟩
    rw [Bool.and_eq_true, Bool.not_eq_true', decide_eq_false_iff_not, decide_eq_true_iff] at hw
    obtain ⟨h0, hw⟩ := hw
    have b1 := reach_steps_bounds b c x y d.1 d.2
    have b2 := reach_steps_bounds b c x y (-d.1) (-d.2)
    refine ⟨d, hd, h0, (reach b c x y d.1 d.2 steps).toNat,
      (reach b c x y (-d.1) (-d.2) steps).toNat, ?_, ?_, by omega⟩
    · exact (le_reach_steps b c x y d.1 d.2 _ (by omega)).1 (by omega)
    · exact (le_reach_steps b c x y (-d.1) (-d.2) _ (by omega)).1 (by omega)
  · rintro ⟨d, hd, h0, f, g, hf, hg, hfg⟩
    refine ⟨d, hd, ?_⟩
    rw [Bool.and_eq_true, Bool.not_eq_true', decide_eq_false_iff_not, decide_eq_true_iff]
    refine ⟨h0, ?_⟩
    have h1 := (le_reach_steps b c x y d.1 d.2 (min f 4) (by omega)).2
      (Ray_mono hf (by omega))
    have h2 := (le_reach_steps b c x y (-d.1) (-d.2) (min g 4) (by omega)).2
      (Ray_mono hg (by omega))
    omega

theorem directions_lines :
    ∀ d ∈ directions, ¬ (d.1 = 0 ∧ d.2 = 0) → d ∈ lines ∨ (-d.1, -d.2) ∈ lines := by
  decide

theorem lines_directions : ∀ d ∈ lines, d ∈ directions ∧ ¬ (d.1 = 0 ∧ d.2 = 0) := by
  decide

/-- The function `check_win` on a cell that holds `c`: some line has a maximal run through the cell of
length at least 5. -/
theorem wins_iff_maximal_run (b : Board) (x y : Int) (c : Char) (hc : b.read x y = some c) :
    wins b x y c = true ↔
      ∃ d ∈ lines, ∃ i j : Nat, MaximalRun b c x y d.1 d.2 i j ∧ 5 ≤ i + j + 1 := by
  rw [wins_iff_rays]
  constructor
  · rintro ⟨d, hd, h0, f, g, hf, hg, hfg⟩
    have h0n : ¬ (-d.1 = 0 ∧ -d.2 = 0) := by
      intro h; apply h0; omega
    obtain ⟨j, hj1, hj2, hj3⟩ := Ray_extend b c x y d.1 d.2 h0 f hf
    obtain ⟨i, hi1, hi2, hi3⟩ := Ray_extend b c x y (-d.1) (-d.2) h0n g hg
    rcases directions_lines d hd h0 with hl | hl
    · refine ⟨d, hl, i, j, ⟨(RunThrough_iff_Ray b c x y d.1 d.2 i j).2 ⟨hc, hj2, hi2⟩, hj3, ?_⟩,
        by omega⟩
      have e1 : x + d.1 * (-(i : Int) - 1) = x + -d.1 * ((i : Int) + 1) := by ring
      have e2 : y + d.2 * (-(i : Int) - 1) = y + -d.2 * ((i : Int) + 1) := by ring
      rw [e1, e2]
      exact hi3
    · refine ⟨(-d.1, -d.2), hl, j, i, ⟨(RunThrough_iff_Ray b c x y (-d.1) (-d.2) j i).2
        ⟨hc, hi2, by simpa using hj2⟩, hi3, ?_⟩, by omega⟩
      have e1 : x + -d.1 * (-(j : Int) - 1) = x + d.1 * ((j : Int) + 1) := by ring
      have e2 : y + -d.2 * (-(j : Int) - 1) = y + d.2 * ((j : Int) + 1) := by ring
      show b.read (x + -d.1 * (-(j : Int) - 1)) (y + -d.2 * (-(j : Int) - 1)) ≠ some c
      rw [e1, e2]
      exact hj3
  · rintro ⟨d, hd, i, j, ⟨hrun, _, _⟩, hlen⟩
    obtain ⟨hdir, h0⟩ := lines_directions d hd
    obtain ⟨_, hj, hi⟩ := (RunThrough_iff_Ray b c x y d.1 d.2 i j).1 hrun
    exact ⟨d, hdir, h0, j, i, hj, hi, by omega⟩

/-- The function `check_win` never looks at the cell `(x, y)` itself. -/
theorem wins_set_self (b : Board) (x y : Int) (c e : Char) :
    wins (b.set x y e) x y c = wins b x y c := by
  have hray : ∀ dx dy : Int, ¬ (dx = 0 ∧ dy = 0) → ∀ n,
      (Ray (b.set x y e) c x y dx dy n ↔ Ray b c x y dx dy n) := by
    intro dx dy h0 n
    have hk : ∀ k : Nat, 1 ≤ k →
        (b.set x y e).read (x + dx * (k : Int)) (y + dy * (k : Int))
          = b.read (x + dx * (k : Int)) (y + dy * (k : Int)) := by
      intro k hk
      apply read_set_other
      rintro ⟨h1, h2⟩
      have hk0 : (k : Int) ≠ 0 := by omega
      have e1 : dx * (k : Int) = 0 := by omega
      have e2 : dy * (k : Int) = 0 := by omega
      rcases mul_eq_zero.1 e1 with h | h
      · rcases mul_eq_zero.1 e2 with h' | h'
        · exact h0 ⟨h, h'⟩
        · exact hk0 h'
      · exact hk0 h
    constructor
    · intro h k h1 h2
      rw [← hk k h1]; exact h k h1 h2
    · intro h k h1 h2
      rw [hk k h1]; exact h k h1 h2
  rw [Bool.eq_iff_iff, wins_iff_rays, wins_iff_rays]
  constructor
  · rintro ⟨d, hd, h0, f, g, hf, hg, hfg⟩
    have h0n : ¬ (-d.1 = 0 ∧ -d.2 = 0) := by
      intro h; apply h0; omega
    exact ⟨d, hd, h0, f, g, (hray _ _ h0 f).1 hf, (hray _ _ h0n g).1 hg, hfg⟩
  · rintro ⟨d, hd, h0, f, g, hf, hg, hfg⟩
    have h0n : ¬ (-d.1 = 0 ∧ -d.2 = 0) := by
      intro h; apply h0; omega
    exact ⟨d, hd, h0, f, g, (hray _ _ h0 f).2 hf, (hray _ _ h0n g).2 hg, hfg⟩

/-- The function `check_win` on a cell that holds `c`: some line has a run of at least 5 through it. -/
theorem wins_iff_run_through (b : Board) (x y : Int) (c : Char) (hc : b.read x y = some c) :
    wins b x y c = true ↔
      ∃ d ∈ lines, ∃ i j : Nat, RunThrough b c x y d.1 d.2 i j ∧ 5 ≤ i + j + 1 := by
  constructor
  · intro h
    obtain ⟨d, hd, i, j, hm, hl⟩ := (wins_iff_maximal_run b x y c hc).1 h
    exact ⟨d, hd, i, j, hm.1, hl⟩
  · rintro ⟨d, hd, i, j, hrun, hlen⟩
    obtain ⟨hdir, h0⟩ := lines_directions d hd
    obtain ⟨_, hj, hi⟩ := (RunThrough_iff_Ray b c x y d.1 d.2 i j).1 hrun
    exact (wins_iff_rays b x y c).2 ⟨d, hdir, h0, j, i, hj, hi, by omega⟩

/-! ## The scans -/

theorem mem_int_range (lo hi v : Int) : v ∈ int_range lo hi ↔ lo ≤ v ∧ v ≤ hi := by
  unfold int_range
  rw [List.mem_map]
  constructor
  · rintro ⟨k, hk, rfl⟩
    rw [List.mem_range] at hk
    omega
  · rintro ⟨h1, h2⟩
    refine ⟨(v - lo).toNat, ?_, ?_⟩
    · rw [List.mem_range]; omega
    · omega

theorem mem_grid (x0 x1 y0 y1 : Int) (p : Int × Int) :
    p ∈ grid x0 x1 y0 y1 ↔ (x0 ≤ p.1 ∧ p.1 ≤ x1) ∧ (y0 ≤ p.2 ∧ p.2 ≤ y1) := by
  obtain ⟨x, y⟩ := p
  unfold grid
  simp only [List.mem_flatMap, List.mem_map, Prod.mk.injEq, mem_int_range]
  constructor
  · rintro ⟨a, ha, c, hc, rfl, rfl⟩
    exact ⟨ha, hc⟩
  · rintro ⟨ha, hc⟩
    exact ⟨x, ha, y, hc, rfl, rfl⟩

theorem mem_all_cells (p : Int × Int) : p ∈ all_cells ↔ in_range p.1 p.2 := by
  unfold all_cells BOARD_SIZE in_range
  rw [mem_grid]
  omega

theorem is_valid_move_is_empty (b : Board) (x y : Int) :
    is_valid_move b x y = some (is_empty b (x, y)) :=
  is_valid_move_eq b x y

theorem in_range_of_is_empty {b : Board} {p : Int × Int} (h : is_empty b p = true) :
    in_range p.1 p.2 := by
  unfold is_empty at h
  exact in_range_of_read (of_decide_eq_true h)

theorem read_of_is_empty {b : Board} {p : Int × Int} (h : is_empty b p = true) :
    b.read p.1 p.2 = some '.' := by
  unfold is_empty at h
  exact of_decide_eq_true h

/-- Placing a stone on an Empty cell and writing `'.'` back restores the board. -/
theorem place_undo (b : Board) (x y : Int) (c : Char) (h : is_empty b (x, y) = true) :
    b.write x y c = some (b.set x y c) ∧ (b.set x y c).write x y '.' = some b := by
  have hr : in_range x y := in_range_of_is_empty h
  refine ⟨write_of_in_range b c hr, ?_⟩
  rw [write_of_in_range _ _ hr, set_set_restore b c '.' (read_of_is_empty h)]

theorem find_first_valid_move_loop_eq (b : Board) (l : List (Int × Int)) :
    find_first_valid_move_loop b l = some (l.find? (is_empty b)) := by
  induction l with
  | nil => rfl
  | cons p rest ih =>
    obtain ⟨x, y⟩ := p
    unfold find_first_valid_move_loop
    rw [is_valid_move_is_empty, ih]
    simp only [Option.bind_eq_bind, Option.some_bind, List.find?_cons]
    cases is_empty b (x, y) <;> rfl

theorem find_first_valid_move_eq (b : Board) :
    find_first_valid_move b = some (all_cells.find? (is_empty b)) :=
  find_first_valid_move_loop_eq b all_cells

theorem find_blocking_move_loop_eq (opponent : Char) (b : Board) (l : List (Int × Int)) :
    find_blocking_move_loop opponent l b = some (l.find? (completes b opponent), b) := by
  induction l with
  | nil => rfl
  | cons p rest ih =>
    obtain ⟨x, y⟩ := p
    unfold find_blocking_move_loop
    rw [is_valid_move_is_empty]
    simp only [Option.bind_eq_bind, Option.some_bind, List.find?_cons, completes]
    cases he : is_empty b (x, y)
    · simpa using ih
    · obtain ⟨h1, h2⟩ := place_undo b x y opponent he
      simp only [Bool.not_true, Bool.false_eq_true, if_false, h1, Option.some_bind, check_win_eq,
        Bool.true_and]
      cases wins (b.set x y opponent) x y opponent
      · simpa [h2] using ih
      · simp [h2, is_valid_move_is_empty, he]

theorem find_blocking_move_eq (b : Board) (player opponent : Char) :
    find_blocking_move b player opponent = some (all_cells.find? (completes b opponent), b) :=
  find_blocking_move_loop_eq opponent b all_cells

theorem minimax_win_loop_eq (stone : Char) (b : Board) (l : List (Int × Int)) :
    minimax_win_loop stone l b = some (l.any (completes b stone), b) := by
  induction l with
  | nil => rfl
  | cons p rest ih =>
    obtain ⟨x, y⟩ := p
    unfold minimax_win_loop
    rw [is_valid_move_is_empty]
    simp only [Option.bind_eq_bind, Option.some_bind, List.any_cons, completes]
    cases he : is_empty b (x, y)
    · simpa using ih
    · obtain ⟨h1, h2⟩ := place_undo b x y stone he
      simp only [Bool.not_true, Bool.false_eq_true, if_false, h1, Option.some_bind, check_win_eq,
        Bool.true_and]
      cases wins (b.set x y stone) x y stone
      · simpa [h2] using ih
      · simp [h2]

theorem collect_moves_eq (b : Board) (l : List (Int × Int)) :
    collect_moves b l = some (l.filter (is_empty b)) := by
  induction l with
  | nil => rfl
  | cons p rest ih =>
    obtain ⟨x, y⟩ := p
    unfold collect_moves
    rw [is_valid_move_is_empty, ih]
    simp only [Option.bind_eq_bind, Option.some_bind, List.filter_cons]
    cases is_empty b (x, y) <;> rfl

/-! ## Scan order -/

theorem pairwise_int_range (lo hi : Int) : (int_range lo hi).Pairwise (· < ·) := by
  unfold int_range
  rw [List.pairwise_map]
  exact (List.pairwise_lt_range _).imp (fun h => by omega)

theorem pairwise_grid (x0 x1 y0 y1 : Int) : (grid x0 x1 y0 y1).Pairwise scanned_before := by
  unfold grid
  rw [List.pairwise_flatMap]
  constructor
  · intro x _
    rw [List.pairwise_map]
    exact (pairwise_int_range y0 y1).imp (fun h => Or.inr ⟨rfl, h⟩)
  · refine (pairwise_int_range x0 x1).imp ?_
    intro a c hac p hp q hq
    rw [List.mem_map] at hp hq
    obtain ⟨_, _, rfl⟩ := hp
    obtain ⟨_, _, rfl⟩ := hq
    exact Or.inl hac

theorem scanned_before_irrefl (p : Int × Int) : ¬ scanned_before p p := by
  unfold scanned_before; omega

theorem scanned_before_asymm {p q : Int × Int} (h : scanned_before p q) :
    ¬ scanned_before q p := by
  unfold scanned_before at *; omega

/-- In a list sorted by scan order, `find?` returns the first element in scan order that
satisfies the test. -/
theorem find?_eq_some_of_pairwise {l : List (Int × Int)} (hl : l.Pairwise scanned_before)
    (f : Int × Int → Bool) (p : Int × Int) :
    l.find? f = some p ↔
      p ∈ l ∧ f p = true ∧ ∀ q ∈ l, scanned_before q p → f q = false := by
  rw [List.find?_eq_some]
  constructor
  · rintro ⟨hp, as, bs, rfl, has⟩
    refine ⟨by simp, hp, ?_⟩
    intro q hq hqp
    rw [List.pairwise_append] at hl
    obtain ⟨_, hbs, hcross⟩ := hl
    rw [List.mem_append] at hq
    rcases hq with hq | hq
    · simpa using has q hq
    · rw [List.mem_cons] at hq
      rcases hq with rfl | hq
      · exact absurd hqp (scanned_before_irrefl _)
      · rw [List.pairwise_cons] at hbs
        exact absurd hqp (scanned_before_asymm (hbs.1 q hq))
  · rintro ⟨hmem, hp, hfirst⟩
    refine ⟨hp, ?_⟩
    obtain ⟨as, bs, rfl⟩ := List.append_of_mem hmem
    refine ⟨as, bs, rfl, ?_⟩
    intro a ha
    rw [List.pairwise_append] at hl
    have := hfirst a (by simp [ha]) (hl.2.2 a ha p (by simp))
    simp [this]

theorem find?_all_cells (f : Int × Int → Bool) (p : Int × Int) :
    all_cells.find? f = some p ↔
      in_range p.1 p.2 ∧ f p = true ∧
        ∀ q, in_range q.1 q.2 → scanned_before q p → f q = false := by
  have hs : all_cells.Pairwise scanned_before := pairwise_grid _ _ _ _
  rw [find?_eq_some_of_pairwise hs, mem_all_cells]
  constructor
  · rintro ⟨h1, h2, h3⟩
    exact ⟨h1, h2, fun q hq => h3 q ((mem_all_cells q).2 hq)⟩
  · rintro ⟨h1, h2, h3⟩
    exact ⟨h1, h2, fun q hq => h3 q ((mem_all_cells q).1 hq)⟩

theorem find?_all_cells_none (f : Int × Int → Bool) :
    all_cells.find? f = none ↔ ∀ q, in_range q.1 q.2 → f q = false := by
  rw [List.find?_eq_none]
  constructor
  · intro h q hq
    simpa using h q ((mem_all_cells q).2 hq)
  · intro h q hq
    simpa using h q ((mem_all_cells q).1 hq)

theorem completes_iff_Threat (b : Board) (c : Char) (x y : Int) :
    completes b c (x, y) = true ↔ Threat b c x y := by
  unfold completes Threat
  rw [Bool.and_eq_true]
  constructor
  · rintro ⟨he, hw⟩
    obtain ⟨h1, _⟩ := place_undo b x y c he
    exact ⟨read_of_is_empty he, _, h1, by rw [check_win_eq, hw]⟩
  · rintro ⟨he, b1, h1, hw⟩
    have hr := in_range_of_read he
    rw [write_of_in_range b c hr, Option.some.injEq] at h1
    subst h1
    rw [check_win_eq, Option.some.injEq] at hw
    exact ⟨decide_eq_true he, hw⟩

theorem completes_iff_CompletesRun (b : Board) (c : Char) (x y : Int) :
    completes b c (x, y) = true ↔ CompletesRun b c x y := by
  unfold completes CompletesRun
  rw [Bool.and_eq_true]
  constructor
  · rintro ⟨he, hw⟩
    have hr : in_range x y := in_range_of_is_empty he
    exact ⟨read_of_is_empty he,
      (wins_iff_run_through _ x y c (read_set_same b c hr)).1 hw⟩
  · rintro ⟨he, hrun⟩
    have hr := in_range_of_read he
    exact ⟨decide_eq_true he, (wins_iff_run_through _ x y c (read_set_same b c hr)).2 hrun⟩

theorem completes_false_of_not_in_range (b : Board) (c : Char) (p : Int × Int)
    (h : ¬ in_range p.1 p.2) : completes b c p = false := by
  unfold completes
  have : is_empty b p = false := by
    rw [Bool.eq_false_iff]
    exact fun he => h (in_range_of_is_empty he)
  rw [this]
  rfl

/-- The first cell, in scan order, at which a stone `c` wins. -/
theorem find?_completes (b : Board) (c : Char) (p : Int × Int) :
    all_cells.find? (completes b c) = some p ↔
      completes b c p = true ∧ ∀ q, scanned_before q p → completes b c q = false := by
  rw [find?_all_cells]
  constructor
  · rintro ⟨_, h2, h3⟩
    refine ⟨h2, fun q hq => ?_⟩
    by_cases hr : in_range q.1 q.2
    · exact h3 q hr hq
    · exact completes_false_of_not_in_range b c q hr
  · rintro ⟨h2, h3⟩
    refine ⟨?_, h2, fun q _ hq => h3 q hq⟩
    by_contra hr
    rw [completes_false_of_not_in_range b c p hr] at h2
    cases h2

theorem find?_completes_none (b : Board) (c : Char) :
    all_cells.find? (completes b c) = none ↔ ∀ q, completes b c q = false := by
  rw [find?_all_cells_none]
  constructor
  · intro h q
    by_cases hr : in_range q.1 q.2
    · exact h q hr
    · exact completes_false_of_not_in_range b c q hr
  · intro h q _
    exact h q

/-! ## `evaluate_position` -/

theorem min_distance_loop_eq (b : Board) (x y : Int) (l : List (Int × Int))
    (hl : ∀ p ∈ l, in_range p.1 p.2) (m : Int) :
    min_distance_loop b x y l m = some (min_distance_of b x y l m) := by
  induction l generalizing m with
  | nil => rfl
  | cons p rest ih =>
    obtain ⟨i, j⟩ := p
    have hr : in_range i j := hl (i, j) (by simp)
    have ih' := fun m => ih (fun q hq => hl q (by simp [hq])) m
    obtain ⟨c, hc⟩ := read_of_in_range b hr
    unfold min_distance_loop min_distance_of
    rw [hc]
    simp only [Option.bind_eq_bind, Option.some_bind, Option.some.injEq]
    by_cases hd : c = '.'
    · simp [hd, ih']
    · simp [hd, ih']

theorem score_loop_eq (b : Board) (l : List (Int × Int))
    (hl : ∀ p ∈ l, in_range p.1 p.2) (score : Int) :
    score_loop b l score = some (score_of b l score) := by
  induction l generalizing score with
  | nil => rfl
  | cons p rest ih =>
    obtain ⟨x, y⟩ := p
    have hr : in_range x y := hl (x, y) (by simp)
    have ih' := fun m => ih (fun q hq => hl q (by simp [hq])) m
    obtain ⟨c, hc⟩ := read_of_in_range b hr
    unfold score_loop score_of
    rw [hc]
    simp only [Option.bind_eq_bind, Option.some_bind, Option.some.injEq]
    by_cases hd : c = '.'
    · simp [hd, ih', min_distance_loop_eq b x y all_cells (fun p hp => (mem_all_cells p).1 hp)]
    · simp [hd, ih']

/-- The function `evaluate_position` never faults: it answers from the cache, or computes `static_score`
and stores it. -/
theorem evaluate_position_eq (player opponent : Char) (s : RenjuBot) :
    evaluate_position player opponent s =
      some (match s.evaluation_cache (board_to_string s.board_) with
        | some v => (v, s)
        | none => (static_score s.board_, store_score s (static_score s.board_))) := by
  unfold evaluate_position
  dsimp only
  cases s.evaluation_cache (board_to_string s.board_) with
  | some v => rfl
  | none =>
    dsimp only
    rw [score_loop_eq s.board_ all_cells (fun p hp => (mem_all_cells p).1 hp)]
    rfl

theorem evaluate_position_frame (player opponent : Char) (s : RenjuBot) :
    ∃ v s', evaluate_position player opponent s = some (v, s') ∧
      s'.board_ = s.board_ ∧ s'.is_black_turn = s.is_black_turn := by
  rw [evaluate_position_eq]
  cases s.evaluation_cache (board_to_string s.board_) with
  | some v => exact ⟨_, _, rfl, rfl, rfl⟩
  | none => exact ⟨_, _, rfl, rfl, rfl⟩

/-! ## `minimax`: totality and restoration of the board -/

theorem minimax_moves_frame (recurse : Int → Int → RenjuBot → Option (Int × RenjuBot))
    (hrec : ∀ a c t, ∃ v t', recurse a c t = some (v, t') ∧
      t'.board_ = t.board_ ∧ t'.is_black_turn = t.is_black_turn)
    (maximizing : Bool) (stone : Char) (bd : Board) (turn : Bool) (moves : List (Int × Int))
    (hm : ∀ p ∈ moves, is_empty bd p = true) (alpha beta best : Int) (s : RenjuBot)
    (hs : s.board_ = bd) (ht : s.is_black_turn = turn) :
    ∃ v s', minimax_moves recurse maximizing stone moves alpha beta best s = some (v, s') ∧
      s'.board_ = bd ∧ s'.is_black_turn = turn := by
  induction moves generalizing alpha beta best s with
  | nil => exact ⟨best, s, rfl, hs, ht⟩
  | cons p rest ih =>
    obtain ⟨x, y⟩ := p
    have he : is_empty bd (x, y) = true := hm (x, y) (by simp)
    obtain ⟨h1, h2⟩ := place_undo bd x y stone he
    obtain ⟨v, t', hv, hb, ht'⟩ := hrec alpha beta { s with board_ := bd.set x y stone }
    simp only at hb ht'
    rw [ht] at ht'
    have ih' := fun a c m => ih (fun q hq => hm q (by simp [hq])) a c m
      { t' with board_ := bd } rfl ht'
    unfold minimax_moves
    rw [hs, h1]
    simp only [Option.bind_eq_bind, Option.some_bind, hv, hb, h2]
    cases maximizing
    · simp only [Bool.false_eq_true, if_false]
      by_cases hcut : min beta (min best v) ≤ alpha
      · rw [if_pos hcut]
        exact ⟨_, _, rfl, rfl, ht'⟩
      · rw [if_neg hcut]
        exact ih' _ _ _
    · simp only [if_true]
      by_cases hcut : beta ≤ max alpha (max best v)
      · rw [if_pos hcut]
        exact ⟨_, _, rfl, rfl, ht'⟩
      · rw [if_neg hcut]
        exact ih' _ _ _

/-- The function `minimax` at depth 0: clock, immediate-win scan, static evaluation. -/
theorem minimax_nat_zero (late : Nat → Bool) (alpha beta : Int) (maximizing : Bool)
    (player opponent : Char) (s : RenjuBot) :
    minimax_nat late 0 alpha beta maximizing player opponent s =
      if late s.clock_reads then some (0, tick s)
      else if all_cells.any (completes s.board_ (if maximizing then player else opponent)) then
        some (if maximizing then 1000000 - ((0 : Nat) : Int) else -1000000 + ((0 : Nat) : Int),
          tick s)
      else evaluate_position player opponent (tick s) := by
  unfold minimax_nat
  simp only [minimax_win_loop_eq, Option.bind_eq_bind, Option.some_bind, tick]
  split_ifs <;> rfl

/-- The function `minimax` at depth `d + 1`: clock, immediate-win scan, then the loop over all moves. -/
theorem minimax_nat_succ (late : Nat → Bool) (d : Nat) (alpha beta : Int) (maximizing : Bool)
    (player opponent : Char) (s : RenjuBot) :
    minimax_nat late (d + 1) alpha beta maximizing player opponent s =
      if late s.clock_reads then some (0, tick s)
      else if all_cells.any (completes s.board_ (if maximizing then player else opponent)) then
        some (if maximizing then 1000000 - ((d + 1 : Nat) : Int)
          else -1000000 + ((d + 1 : Nat) : Int), tick s)
      else if (all_cells.filter (is_empty s.board_)).isEmpty then some (0, tick s)
      else
        minimax_moves (fun a c t => minimax_nat late d a c (!maximizing) player opponent t)
          maximizing (if maximizing then player else opponent)
          (all_cells.filter (is_empty s.board_)) alpha beta
          (if maximizing then INT_MIN else INT_MAX) (tick s) := by
  rw [minimax_nat]
  simp only [minimax_win_loop_eq, collect_moves_eq, Option.bind_eq_bind, Option.some_bind, tick]
  split_ifs <;> rfl

/-- The function `minimax` at any depth `≥ 0` returns, with the board and the turn flag as at entry. -/
theorem minimax_nat_frame (late : Nat → Bool) (depth : Nat) :
    ∀ (alpha beta : Int) (maximizing : Bool) (player opponent : Char) (s : RenjuBot),
      ∃ v s', minimax_nat late depth alpha beta maximizing player opponent s = some (v, s') ∧
        s'.board_ = s.board_ ∧ s'.is_black_turn = s.is_black_turn := by
  induction depth with
  | zero =>
    intro alpha beta maximizing player opponent s
    rw [minimax_nat_zero]
    by_cases h1 : late s.clock_reads = true
    · rw [if_pos h1]
      exact ⟨_, _, rfl, rfl, rfl⟩
    · rw [if_neg h1]
      by_cases h2 : all_cells.any
          (completes s.board_ (if maximizing then player else opponent)) = true
      · rw [if_pos h2]
        exact ⟨_, _, rfl, rfl, rfl⟩
      · rw [if_neg h2]
        exact evaluate_position_frame player opponent (tick s)
  | succ d ih =>
    intro alpha beta maximizing player opponent s
    rw [minimax_nat_succ]
    by_cases h1 : late s.clock_reads = true
    · rw [if_pos h1]
      exact ⟨_, _, rfl, rfl, rfl⟩
    · rw [if_neg h1]
      by_cases h2 : all_cells.any
          (completes s.board_ (if maximizing then player else opponent)) = true
      · rw [if_pos h2]
        exact ⟨_, _, rfl, rfl, rfl⟩
      · rw [if_neg h2]
        by_cases h3 : (all_cells.filter (is_empty s.board_)).isEmpty = true
        · rw [if_pos h3]
          exact ⟨_, _, rfl, rfl, rfl⟩
        · rw [if_neg h3]
          exact minimax_moves_frame _ (fun a c t => ih a c (!maximizing) player opponent t)
            maximizing _ s.board_ s.is_black_turn _ (fun p hp => (List.mem_filter.1 hp).2)
            _ _ _ (tick s) rfl rfl

theorem minimax_frame (late : Nat → Bool) (depth alpha beta : Int) (maximizing : Bool)
    (player opponent : Char) (s : RenjuBot) :
    ∃ v s', minimax late depth alpha beta maximizing player opponent s = some (v, s') ∧
      s'.board_ = s.board_ ∧ s'.is_black_turn = s.is_black_turn := by
  unfold minimax
  split_ifs
  · exact ⟨_, _, rfl, rfl, rfl⟩
  · exact minimax_nat_frame late _ alpha beta maximizing player opponent s

/-! ## `find_best_move`: unfolding -/

/-- The steps of `find_best_move` before the windowed search, with the scans replaced by
their pure descriptions. -/
theorem find_best_move_eq (late : Nat → Bool) (ox oy : Int) (first : Bool) (s : RenjuBot) :
    find_best_move late ox oy first s =
      match (if (first && s.is_black_turn) = true then
          (if is_empty s.board_ (15, 15) = true then some ((15 : Int), (15 : Int))
            else all_cells.find? (is_empty s.board_))
          else none) with
      | some m => some (m, s)
      | none =>
        match all_cells.find? (completes s.board_ (opponent_of s)) with
        | some m =>
          if is_empty s.board_ m = true then some (m, s)
          else windowed_search late ox oy (player_of s) (opponent_of s) s
        | none => windowed_search late ox oy (player_of s) (opponent_of s) s := by
  unfold find_best_move
  simp only [find_blocking_move_eq, is_valid_move_is_empty, find_first_valid_move_eq,
    Option.bind_eq_bind, Option.some_bind, player_of, opponent_of]
  by_cases h1 : (first && s.is_black_turn) = true
  · simp only [h1, if_true]
    by_cases h2 : is_empty s.board_ (15, 15) = true
    · simp only [h2, if_true, Option.some_bind, Option.pure_def]
    · simp only [h2, Bool.false_eq_true, if_false]
      cases all_cells.find? (is_empty s.board_) with
      | some m => rfl
      | none =>
        simp only [Option.some_bind]
        cases all_cells.find? (completes s.board_ (if s.is_black_turn = true then 'W' else 'B')) with
        | none => rfl
        | some m =>
          simp only [Option.some_bind]
          by_cases h3 : is_empty s.board_ m = true
          · simp only [h3, if_true, Option.some_bind, Option.pure_def]
          · simp only [h3, Bool.false_eq_true, if_false, Option.some_bind, Option.pure_def]
  · simp only [h1, Bool.false_eq_true, if_false, Option.pure_def, Option.some_bind]
    cases all_cells.find? (completes s.board_ (if s.is_black_turn = true then 'W' else 'B')) with
    | none => rfl
    | some m =>
      by_cases h3 : is_empty s.board_ m = true
      · simp only [h3, if_true, Option.some_bind, Option.pure_def]
      · simp only [h3, Bool.false_eq_true, if_false, Option.some_bind, Option.pure_def]

theorem collect_best_moves_eq (b : Board) (ox oy : Int) :
    collect_best_moves b ox oy = some (best_moves_of b ox oy) := by
  unfold collect_best_moves best_moves_of
  simp only [collect_moves_eq, Option.bind_eq_bind, Option.some_bind, Option.pure_def]
  split_ifs <;> rfl

theorem final_check_eq (best : Int × Int) (s : RenjuBot) :
    final_check best s = some (final_choice best s) := by
  obtain ⟨bx, by_⟩ := best
  unfold final_check final_choice
  simp only [is_valid_move_is_empty, find_first_valid_move_eq, Option.bind_eq_bind,
    Option.some_bind, Option.pure_def]
  by_cases h1 : bx = -1 ∨ by_ = -1
  · have h1' : bx = -1 ∨ by_ = -1 ∨ is_empty s.board_ (bx, by_) = false := by tauto
    simp only [h1, h1', if_true, Option.some_bind]
    cases all_cells.find? (is_empty s.board_) <;> rfl
  · cases he : is_empty s.board_ (bx, by_)
    · have h1' : bx = -1 ∨ by_ = -1 ∨ false = false := by tauto
      simp only [h1, if_false, if_true, Option.some_bind, Bool.not_false]
      cases all_cells.find? (is_empty s.board_) <;> simp
    · have h1' : ¬ (bx = -1 ∨ by_ = -1 ∨ true = false) := by
        simp only [Bool.true_eq_false, or_false]; exact h1
      simp only [h1, h1', if_false, Option.some_bind, Bool.not_true, Bool.false_eq_true]

theorem windowed_search_eq (late : Nat → Bool) (ox oy : Int) (player opponent : Char)
    (s : RenjuBot) :
    windowed_search late ox oy player opponent s =
      match (if (best_moves_of s.board_ ox oy).isEmpty = true
          then all_cells.find? (is_empty s.board_) else none) with
      | some m => some (m, s)
      | none =>
        (candidate_loop late player opponent (best_moves_of s.board_ ox oy) INT_MIN (-1, -1) s).map
          finish_search := by
  unfold windowed_search
  simp only [collect_best_moves_eq, find_first_valid_move_eq, Option.bind_eq_bind,
    Option.some_bind, Option.pure_def]
  have hfin : ∀ r : (Int × Int) × Bool × RenjuBot,
      (if r.2.1 = true then some (r.1, r.2.2) else final_check r.1 r.2.2)
        = some (finish_search r) := by
    rintro ⟨best, returned, s1⟩
    unfold finish_search
    dsimp only
    split_ifs
    · rfl
    · exact final_check_eq best s1
  by_cases he : (best_moves_of s.board_ ox oy).isEmpty = true
  · simp only [he, if_true, Option.some_bind]
    cases all_cells.find? (is_empty s.board_) with
    | some m => rfl
    | none =>
      dsimp only
      cases candidate_loop late player opponent (best_moves_of s.board_ ox oy) INT_MIN (-1, -1) s with
      | none => rfl
      | some r => simp only [Option.some_bind, Option.map_some', hfin r]
  · simp only [he, if_false, Bool.false_eq_true, Option.some_bind]
    cases candidate_loop late player opponent (best_moves_of s.board_ ox oy) INT_MIN (-1, -1) s with
    | none => rfl
    | some r => simp only [Option.some_bind, Option.map_some', hfin r]

/-- One iteration of the candidate loop on an Empty cell of the board. -/
theorem candidate_loop_cons (late : Nat → Bool) (player opponent : Char) (x y : Int)
    (rest : List (Int × Int)) (best_score : Int) (best : Int × Int) (s : RenjuBot)
    (he : is_empty s.board_ (x, y) = true) :
    candidate_loop late player opponent ((x, y) :: rest) best_score best s =
      if wins (s.board_.set x y player) x y player = true then some ((x, y), true, s)
      else
        (minimax late (MAX_DEPTH - 1) INT_MIN INT_MAX false player opponent
            { s with board_ := s.board_.set x y player }).bind fun r =>
          (r.2.board_.write x y '.').bind fun b2 =>
            if late r.2.clock_reads = true then
              some (if r.1 > best_score then (x, y) else best, false,
                tick { r.2 with board_ := b2 })
            else
              candidate_loop late player opponent rest
                (if r.1 > best_score then r.1 else best_score)
                (if r.1 > best_score then (x, y) else best) (tick { r.2 with board_ := b2 }) := by
  obtain ⟨h1, h2⟩ := place_undo s.board_ x y player he
  rw [candidate_loop]
  simp only [h1, check_win_eq, Option.bind_eq_bind, Option.some_bind, Option.pure_def]
  by_cases hw : wins (s.board_.set x y player) x y player = true
  · simp only [hw, if_true, h2, Option.some_bind]
  · simp only [hw, if_false, Bool.false_eq_true]
    rfl

theorem candidate_loop_frame (late : Nat → Bool) (player opponent : Char) (bd : Board)
    (turn : Bool) (cands : List (Int × Int)) (hc : ∀ c ∈ cands, is_empty bd c = true)
    (best_score : Int) (best : Int × Int) (s : RenjuBot)
    (hs : s.board_ = bd) (ht : s.is_black_turn = turn) :
    ∃ best' flag s', candidate_loop late player opponent cands best_score best s
        = some (best', flag, s') ∧
      s'.board_ = bd ∧ s'.is_black_turn = turn ∧
      ((flag = false ∧ best' = best) ∨ best' ∈ cands) := by
  induction cands generalizing best_score best s with
  | nil => exact ⟨best, false, s, rfl, hs, ht, Or.inl ⟨rfl, rfl⟩⟩
  | cons p rest ih =>
    obtain ⟨x, y⟩ := p
    have he : is_empty bd (x, y) = true := hc (x, y) (by simp)
    obtain ⟨h1, h2⟩ := place_undo bd x y player he
    rw [candidate_loop_cons late player opponent x y rest best_score best s (hs ▸ he), hs]
    by_cases hw : wins (bd.set x y player) x y player = true
    · rw [if_pos hw]
      exact ⟨_, _, _, rfl, hs, ht, Or.inr (by simp)⟩
    · rw [if_neg hw]
      obtain ⟨v, t', hv, hb, ht'⟩ := minimax_frame late (MAX_DEPTH - 1) INT_MIN INT_MAX false
        player opponent { s with board_ := bd.set x y player }
      simp only at hb ht'
      rw [ht] at ht'
      simp only [hv, Option.some_bind, hb, h2]
      by_cases hl : late t'.clock_reads = true
      · rw [if_pos hl]
        refine ⟨_, _, _, rfl, rfl, ht', ?_⟩
        by_cases hg : v > best_score
        · right; simp [hg]
        · left; simp [hg]
      · rw [if_neg hl]
        obtain ⟨b', f', s', e', hb', ht'', hor⟩ := ih (fun q hq => hc q (by simp [hq]))
          (if v > best_score then v else best_score)
          (if v > best_score then (x, y) else best) (tick { t' with board_ := bd }) rfl ht'
        refine ⟨b', f', s', e', hb', ht'', ?_⟩
        rcases hor with ⟨hf, hbest⟩ | hmem
        · by_cases hg : v > best_score
          · right; rw [hbest]; simp [hg]
          · left; rw [hbest]; simp [hg, hf]
        · right; simp [hmem]

theorem best_moves_of_empty (b : Board) (ox oy : Int) :
    ∀ c ∈ best_moves_of b ox oy, is_empty b c = true := by
  intro c hc
  unfold best_moves_of at hc
  dsimp only at hc
  split_ifs at hc
  · exact (List.mem_filter.1 hc).2
  · exact (List.mem_filter.1 hc).2

/-- The result of the windowed search is an Empty cell of the board at entry, or `(-1, -1)`
when the board has no Empty cell; the board is as at entry. -/
theorem windowed_search_outcome (late : Nat → Bool) (ox oy : Int) (player opponent : Char)
    (s : RenjuBot) :
    ∃ r s', windowed_search late ox oy player opponent s = some (r, s') ∧
      s'.board_ = s.board_ ∧ s'.is_black_turn = s.is_black_turn ∧
      (is_empty s.board_ r = true ∨
        (r = (-1, -1) ∧ all_cells.find? (is_empty s.board_) = none)) := by
  rw [windowed_search_eq]
  have hfinal : ∀ (best : Int × Int) (s' : RenjuBot), s'.board_ = s.board_ →
      s'.is_black_turn = s.is_black_turn →
      ∃ r t, final_choice best s' = (r, t) ∧ t.board_ = s.board_ ∧
        t.is_black_turn = s.is_black_turn ∧
        (is_empty s.board_ r = true ∨
          (r = (-1, -1) ∧ all_cells.find? (is_empty s.board_) = none)) := by
    intro best s' hb ht
    unfold final_choice
    rw [hb]
    split_ifs with hinv
    · cases hf : all_cells.find? (is_empty s.board_) with
      | some m => exact ⟨_, _, rfl, hb, ht, Or.inl (List.find?_some hf)⟩
      | none => exact ⟨_, _, rfl, hb, ht, Or.inr ⟨rfl, rfl⟩⟩
    · refine ⟨_, _, rfl, hb, ht, Or.inl ?_⟩
      by_contra hne
      apply hinv
      right; right
      simpa using hne
  obtain ⟨best', flag, s', hloop, hb, ht, hor⟩ := candidate_loop_frame late player opponent
    s.board_ s.is_black_turn (best_moves_of s.board_ ox oy) (best_moves_of_empty s.board_ ox oy)
    INT_MIN (-1, -1) s rfl rfl
  have hloop_case : ∃ r t, (candidate_loop late player opponent (best_moves_of s.board_ ox oy)
        INT_MIN (-1, -1) s).map finish_search = some (r, t) ∧ t.board_ = s.board_ ∧
        t.is_black_turn = s.is_black_turn ∧
        (is_empty s.board_ r = true ∨
          (r = (-1, -1) ∧ all_cells.find? (is_empty s.board_) = none)) := by
    rw [hloop, Option.map_some']
    unfold finish_search
    dsimp only
    by_cases hflag : flag = true
    · rw [if_pos hflag]
      refine ⟨_, _, rfl, hb, ht, Or.inl ?_⟩
      rcases hor with ⟨hf, _⟩ | hmem
      · rw [hflag] at hf; cases hf
      · exact best_moves_of_empty s.board_ ox oy _ hmem
    · rw [if_neg hflag]
      obtain ⟨r, t, e, h1, h2, h3⟩ := hfinal best' s' hb ht
      exact ⟨r, t, by rw [e], h1, h2, h3⟩
  by_cases he : (best_moves_of s.board_ ox oy).isEmpty = true
  · rw [if_pos he]
    cases hf : all_cells.find? (is_empty s.board_) with
    | some m => exact ⟨_, _, rfl, rfl, rfl, Or.inl (List.find?_some hf)⟩
    | none =>
      rw [hf] at hloop_case
      exact hloop_case
  · rw [if_neg he]
    exact hloop_case

/-- The result of `find_best_move` is an Empty cell of the board at entry, or `(-1, -1)` when
the board has no Empty cell; the board and the turn flag are as at entry. -/
theorem find_best_move_outcome (late : Nat → Bool) (ox oy : Int) (first : Bool)
    (s : RenjuBot) :
    ∃ r s', find_best_move late ox oy first s = some (r, s') ∧
      s'.board_ = s.board_ ∧ s'.is_black_turn = s.is_black_turn ∧
      (is_empty s.board_ r = true ∨
        (r = (-1, -1) ∧ all_cells.find? (is_empty s.board_) = none)) := by
  rw [find_best_move_eq]
  have hrest : ∃ r s',
      (match all_cells.find? (completes s.board_ (opponent_of s)) with
        | some m =>
          if is_empty s.board_ m = true then some (m, s)
          else windowed_search late ox oy (player_of s) (opponent_of s) s
        | none => windowed_search late ox oy (player_of s) (opponent_of s) s) = some (r, s') ∧
      s'.board_ = s.board_ ∧ s'.is_black_turn = s.is_black_turn ∧
      (is_empty s.board_ r = true ∨
        (r = (-1, -1) ∧ all_cells.find? (is_empty s.board_) = none)) := by
    cases all_cells.find? (completes s.board_ (opponent_of s)) with
    | none => exact windowed_search_outcome late ox oy _ _ s
    | some m =>
      dsimp only
      by_cases hm : is_empty s.board_ m = true
      · rw [if_pos hm]
        exact ⟨_, _, rfl, rfl, rfl, Or.inl hm⟩
      · rw [if_neg hm]
        exact windowed_search_outcome late ox oy _ _ s
  by_cases h1 : (first && s.is_black_turn) = true
  · rw [if_pos h1]
    by_cases h2 : is_empty s.board_ (15, 15) = true
    · rw [if_pos h2]
      exact ⟨_, _, rfl, rfl, rfl, Or.inl h2⟩
    · rw [if_neg h2]
      cases hf : all_cells.find? (is_empty s.board_) with
      | some m => exact ⟨_, _, rfl, rfl, rfl, Or.inl (List.find?_some hf)⟩
      | none =>
        rw [hf] at hrest
        exact hrest
  · rw [if_neg h1]
    exact hrest

theorem is_empty_iff (b : Board) (x y : Int) :
    is_empty b (x, y) = true ↔ b.read x y = some '.' := by
  unfold is_empty
  exact decide_eq_true_iff

theorem find?_is_empty_none (b : Board) :
    all_cells.find? (is_empty b) = none ↔ ∀ x y, b.read x y ≠ some '.' := by
  rw [find?_all_cells_none]
  constructor
  · intro h x y hxy
    have := h (x, y) (in_range_of_read hxy)
    rw [(is_empty_iff b x y).2 hxy] at this
    cases this
  · intro h q _
    rw [Bool.eq_false_iff]
    intro hq
    exact h q.1 q.2 ((is_empty_iff b q.1 q.2).1 hq)

/-- On a board without Empty cell `find_best_move` reports `(-1, -1)`, whatever its arguments. -/
theorem find_best_move_full (late : Nat → Bool) (ox oy : Int) (first : Bool) (s : RenjuBot)
    (hfull : ∀ x y, s.board_.read x y ≠ some '.') :
    find_best_move late ox oy first s = some ((-1, -1), s) := by
  have hnone : ∀ q, is_empty s.board_ q = false := by
    intro q
    rw [Bool.eq_false_iff]
    intro hq
    exact hfull q.1 q.2 ((is_empty_iff s.board_ q.1 q.2).1 hq)
  have hfilter : ∀ l : List (Int × Int), l.filter (is_empty s.board_) = [] := by
    intro l
    rw [List.filter_eq_nil_iff]
    intro q _
    simp [hnone q]
  have hmoves : best_moves_of s.board_ ox oy = [] := by
    unfold best_moves_of
    simp only [hfilter]
    rfl
  have hfind : all_cells.find? (is_empty s.board_) = none := (find?_is_empty_none _).2 hfull
  have hblock : all_cells.find? (completes s.board_ (opponent_of s)) = none := by
    rw [List.find?_eq_none]
    intro q _
    simp [completes, hnone q]
  rw [find_best_move_eq, hblock, hfind, windowed_search_eq, hmoves, hfind]
  have h15 : is_empty s.board_ (15, 15) = false := hnone _
  simp only [h15, Bool.false_eq_true, if_false, ite_self, List.isEmpty_nil, if_true]
  unfold candidate_loop finish_search final_choice
  simp [hfind]

/-! ## `board_to_string` is injective -/

theorem flatMap_inj_of_length {ι α : Type} (l : List ι) (f g : ι → List α)
    (hlen : ∀ i ∈ l, (f i).length = (g i).length) (h : l.flatMap f = l.flatMap g) :
    ∀ i ∈ l, f i = g i := by
  induction l with
  | nil => intro i hi; cases hi
  | cons a rest ih =>
    rw [List.flatMap_cons, List.flatMap_cons] at h
    obtain ⟨h1, h2⟩ := List.append_inj h (hlen a (by simp))
    intro i hi
    rw [List.mem_cons] at hi
    rcases hi with rfl | hi
    · exact h1
    · exact ih (fun j hj => hlen j (by simp [hj])) h2 i hi

theorem board_to_string_injective (b1 b2 : Board)
    (h : board_to_string b1 = board_to_string b2) : b1 = b2 := by
  unfold board_to_string at h
  have hl := congrArg String.data h
  have hrows := flatMap_inj_of_length (List.finRange 31)
    (fun i => (List.finRange 31).map (fun j => b1.cell i j))
    (fun i => (List.finRange 31).map (fun j => b2.cell i j))
    (fun i _ => by simp) hl
  apply Board.ext
  funext i j
  have hrow := hrows i (List.mem_finRange i)
  exact List.map_inj_left.1 hrow j (List.mem_finRange j)

/-! ## Bounds on the static score -/

theorem int_abs_le_of_in_range {x : Int} (h0 : 0 ≤ x) (h1 : x < 31) :
    int_abs (x - BOARD_SIZE / 2) ≤ 15 := by
  unfold int_abs BOARD_SIZE
  split_ifs <;> omega

theorem score_of_lower (b : Board) (l : List (Int × Int))
    (hl : ∀ p ∈ l, in_range p.1 p.2) (score : Int) :
    score - 20 * (l.length : Int) ≤ score_of b l score := by
  induction l generalizing score with
  | nil => simp [score_of]
  | cons p rest ih =>
    obtain ⟨x, y⟩ := p
    have hr : in_range x y := hl (x, y) (by simp)
    have ih' := fun sc => ih (fun q hq => hl q (by simp [hq])) sc
    have hx := int_abs_le_of_in_range hr.1 hr.2.1
    have hy := int_abs_le_of_in_range hr.2.2.1 hr.2.2.2
    unfold score_of
    rw [List.length_cons]
    push_cast
    split_ifs
    · have := ih' (score + (10 - (int_abs (x - BOARD_SIZE / 2) + int_abs (y - BOARD_SIZE / 2)) + 5))
      omega
    · have := ih' (score + (10 - (int_abs (x - BOARD_SIZE / 2) + int_abs (y - BOARD_SIZE / 2)) + 0))
      omega
    · have := ih' score
      omega

set_option maxRecDepth 100000 in
theorem length_all_cells : all_cells.length = 961 := by decide

theorem static_score_lower (b : Board) : INT_MIN < static_score b := by
  have h := score_of_lower b all_cells (fun p hp => (mem_all_cells p).1 hp) 0
  rw [length_all_cells] at h
  unfold static_score INT_MIN
  omega

/-! ## `minimax` at the leaf -/

theorem minimax_leaf (late : Nat → Bool) (alpha beta : Int) (player opponent : Char)
    (t : RenjuBot) (hl : late t.clock_reads = false) :
    ∃ t', minimax late (MAX_DEPTH - 1) alpha beta false player opponent t
        = some (leaf_value t.evaluation_cache t.board_ opponent, t') ∧
      t'.board_ = t.board_ ∧ t'.is_black_turn = t.is_black_turn ∧
      t'.clock_reads = t.clock_reads + 1 ∧
      ∀ k, k ≠ board_to_string t.board_ → t'.evaluation_cache k = t.evaluation_cache k := by
  have hd : ¬ (MAX_DEPTH - 1 < 0) := by decide
  have hn : (MAX_DEPTH - 1).toNat = 0 := by decide
  have hl' : ¬ (late t.clock_reads = true) := by rw [hl]; exact Bool.false_ne_true
  unfold minimax leaf_value
  rw [if_neg hd, hn, minimax_nat_zero, if_neg hl']
  simp only [Bool.false_eq_true, if_false]
  by_cases hany : all_cells.any (completes t.board_ opponent) = true
  · rw [if_pos hany, if_pos hany]
    exact ⟨tick t, rfl, rfl, rfl, rfl, fun _ _ => rfl⟩
  · rw [if_neg hany, if_neg hany, evaluate_position_eq]
    show ∃ t', some (match t.evaluation_cache (board_to_string t.board_) with
        | some v => (v, tick t)
        | none => (static_score t.board_, store_score (tick t) (static_score t.board_)))
        = some ((match t.evaluation_cache (board_to_string t.board_) with
          | some v => v
          | none => static_score t.board_), t') ∧ _
    cases t.evaluation_cache (board_to_string t.board_) with
    | some v => exact ⟨tick t, rfl, rfl, rfl, rfl, fun _ _ => rfl⟩
    | none =>
      refine ⟨store_score (tick t) (static_score t.board_), rfl, rfl, rfl, rfl, ?_⟩
      intro k hk
      show (if k = board_to_string t.board_ then some (static_score t.board_)
        else t.evaluation_cache k) = t.evaluation_cache k
      rw [if_neg hk]

theorem leaf_value_lower (cache : Cache) (b : Board) (opponent : Char)
    (hcache : ∀ k v, cache k = some v → INT_MIN < v) :
    INT_MIN < leaf_value cache b opponent := by
  unfold leaf_value
  split_ifs
  · decide
  · cases h : cache (board_to_string b) with
    | some v => exact hcache _ v h
    | none => exact static_score_lower b

/-! ## The candidate list -/

theorem scanned_before_ne {p q : Int × Int} (h : scanned_before p q) : p ≠ q := by
  intro heq
  rw [heq] at h
  exact scanned_before_irrefl q h

theorem pairwise_all_cells : all_cells.Pairwise scanned_before := pairwise_grid _ _ _ _

theorem nodup_all_cells : all_cells.Nodup := pairwise_all_cells.imp scanned_before_ne

theorem eq_of_pairwise_of_mem_iff {l1 l2 : List (Int × Int)}
    (h1 : l1.Pairwise scanned_before) (h2 : l2.Pairwise scanned_before)
    (hm : ∀ p, p ∈ l1 ↔ p ∈ l2) : l1 = l2 := by
  haveI : IsAntisymm (Int × Int) scanned_before :=
    ⟨fun p q hpq hqp => absurd hqp (scanned_before_asymm hpq)⟩
  have n1 : l1.Nodup := h1.imp scanned_before_ne
  have n2 : l2.Nodup := h2.imp scanned_before_ne
  exact List.eq_of_perm_of_sorted ((List.perm_ext_iff_of_nodup n1 n2).2 hm) h1 h2

theorem window_bounds (o v : Int) (ho : INT_MIN ≤ o ∧ o ≤ INT_MAX) :
    (max 0 (wrap32 (o - 4)) ≤ v ∧ v ≤ min (BOARD_SIZE - 1) (wrap32 (o + 4))) ↔
      (0 ≤ v ∧ v < 31 ∧ int_abs (v - o) ≤ 4) := by
  unfold INT_MIN INT_MAX at ho
  unfold wrap32 BOARD_SIZE int_abs
  rw [max_le_iff, le_min_iff]
  split_ifs <;> omega

theorem grid_window_eq (ox oy : Int) (hx : INT_MIN ≤ ox ∧ ox ≤ INT_MAX)
    (hy : INT_MIN ≤ oy ∧ oy ≤ INT_MAX) :
    grid (max 0 (wrap32 (ox - 4))) (min (BOARD_SIZE - 1) (wrap32 (ox + 4)))
        (max 0 (wrap32 (oy - 4))) (min (BOARD_SIZE - 1) (wrap32 (oy + 4)))
      = all_cells.filter (fun p => decide (int_abs (p.1 - ox) ≤ 4 ∧ int_abs (p.2 - oy) ≤ 4)) := by
  apply eq_of_pairwise_of_mem_iff (pairwise_grid _ _ _ _) (pairwise_all_cells.filter _)
  intro p
  rw [mem_grid, List.mem_filter, mem_all_cells, window_bounds ox p.1 hx,
    window_bounds oy p.2 hy, decide_eq_true_iff]
  unfold in_range
  tauto

theorem best_moves_of_eq_candidates (b : Board) (ox oy : Int)
    (hx : INT_MIN ≤ ox ∧ ox ≤ INT_MAX) (hy : INT_MIN ≤ oy ∧ oy ≤ INT_MAX) :
    best_moves_of b ox oy = candidates b ox oy := by
  have hw : (grid (max 0 (wrap32 (ox - 4))) (min (BOARD_SIZE - 1) (wrap32 (ox + 4)))
        (max 0 (wrap32 (oy - 4))) (min (BOARD_SIZE - 1) (wrap32 (oy + 4)))).filter (is_empty b)
      = window_candidates b ox oy := by
    rw [grid_window_eq ox oy hx hy, List.filter_filter]
    rfl
  unfold best_moves_of candidates
  dsimp only
  rw [hw]

theorem nodup_candidates (b : Board) (ox oy : Int) : (candidates b ox oy).Nodup := by
  have hn : all_cells.Nodup := nodup_all_cells
  unfold candidates window_candidates
  split_ifs
  · exact hn.filter _
  · exact hn.filter _

theorem candidates_empty (b : Board) (ox oy : Int) :
    ∀ c ∈ candidates b ox oy, is_empty b c = true := by
  intro c hc
  unfold candidates window_candidates at hc
  split_ifs at hc
  · exact (List.mem_filter.1 hc).2
  · have := (List.mem_filter.1 hc).2
    rw [Bool.and_eq_true] at this
    exact this.1

/-! ## The candidate loop when the deadline is never exceeded -/

theorem leaf_value_congr (cache1 cache2 : Cache) (b : Board) (opponent : Char)
    (h : cache1 (board_to_string b) = cache2 (board_to_string b)) :
    leaf_value cache1 b opponent = leaf_value cache2 b opponent := by
  unfold leaf_value
  rw [h]

theorem set_ne_set (b : Board) (player : Char) (hp : player ≠ '.') (c q : Int × Int)
    (hq : is_empty b q = true) (hne : q ≠ c) :
    b.set q.1 q.2 player ≠ b.set c.1 c.2 player := by
  intro h
  have h1 : (b.set q.1 q.2 player).read q.1 q.2 = some player :=
    read_set_same b player (in_range_of_is_empty hq)
  have h2 : (b.set c.1 c.2 player).read q.1 q.2 = b.read q.1 q.2 := by
    apply read_set_other
    rintro ⟨e1, e2⟩
    exact hne (Prod.ext e1 e2)
  rw [h, h2, read_of_is_empty hq] at h1
  exact hp (Option.some.inj h1).symm

theorem candidate_loop_spec (late : Nat → Bool) (hlate : ∀ k, late k = false)
    (player opponent : Char) (hp : player ≠ '.') (b : Board) (cache0 : Cache)
    (rest : List (Int × Int)) (hne : ∀ c ∈ rest, is_empty b c = true) (hnd : rest.Nodup)
    (bs : Int) (bst : Int × Int) (t : RenjuBot) (ht : t.board_ = b)
    (hagree : ∀ c ∈ rest, t.evaluation_cache (board_to_string (b.set c.1 c.2 player))
      = cache0 (board_to_string (b.set c.1 c.2 player))) :
    ∃ R flag s', candidate_loop late player opponent rest bs bst t = some (R, flag, s') ∧
      s'.board_ = b ∧
      ((∃ c ∈ rest, wins (b.set c.1 c.2 player) c.1 c.2 player = true) →
        flag = true ∧ ∃ pre post, rest = pre ++ R :: post ∧
          wins (b.set R.1 R.2 player) R.1 R.2 player = true ∧
          ∀ c ∈ pre, wins (b.set c.1 c.2 player) c.1 c.2 player = false) ∧
      ((∀ c ∈ rest, wins (b.set c.1 c.2 player) c.1 c.2 player = false) →
        flag = false ∧
        ((R = bst ∧ ∀ c ∈ rest, leaf_value cache0 (b.set c.1 c.2 player) opponent ≤ bs) ∨
          ∃ pre post, rest = pre ++ R :: post ∧
            bs < leaf_value cache0 (b.set R.1 R.2 player) opponent ∧
            (∀ c ∈ pre, leaf_value cache0 (b.set c.1 c.2 player) opponent
              < leaf_value cache0 (b.set R.1 R.2 player) opponent) ∧
            ∀ c ∈ post, leaf_value cache0 (b.set c.1 c.2 player) opponent
              ≤ leaf_value cache0 (b.set R.1 R.2 player) opponent)) := by
  induction rest generalizing bs bst t with
  | nil =>
    refine ⟨bst, false, t, rfl, ht, ?_, ?_⟩
    · rintro ⟨c, hc, _⟩
      cases hc
    · intro _
      exact ⟨rfl, Or.inl ⟨rfl, fun c hc => by cases hc⟩⟩
  | cons c tl ih =>
    obtain ⟨x, y⟩ := c
    have he : is_empty b (x, y) = true := hne (x, y) (by simp)
    obtain ⟨h1, h2⟩ := place_undo b x y player he
    rw [candidate_loop_cons late player opponent x y tl bs bst t (ht ▸ he), ht]
    by_cases hw : wins (b.set x y player) x y player = true
    · rw [if_pos hw]
      refine ⟨(x, y), true, t, rfl, ht, ?_, ?_⟩
      · intro _
        exact ⟨rfl, [], tl, rfl, hw, fun c hc => by cases hc⟩
      · intro hall
        have := hall (x, y) (by simp)
        rw [hw] at this
        cases this
    · rw [if_neg hw]
      have hw' : wins (b.set x y player) x y player = false := by simpa using hw
      obtain ⟨t', hv, hb, _, _, hcache⟩ := minimax_leaf late INT_MIN INT_MAX player opponent
        { t with board_ := b.set x y player } (hlate _)
      simp only at hb hcache
      have hval : leaf_value t.evaluation_cache (b.set x y player) opponent
          = leaf_value cache0 (b.set x y player) opponent :=
        leaf_value_congr _ _ _ _ (hagree (x, y) (by simp))
      rw [hval] at hv
      have hl' : ¬ (late t'.clock_reads = true) := by
        rw [hlate]; exact Bool.false_ne_true
      simp only [hv, Option.some_bind, hb, h2, if_neg hl']
      rw [List.nodup_cons] at hnd
      have hagree' : ∀ q ∈ tl,
          (tick { t' with board_ := b }).evaluation_cache (board_to_string (b.set q.1 q.2 player))
            = cache0 (board_to_string (b.set q.1 q.2 player)) := by
        intro q hq
        have hqc : q ≠ (x, y) := fun h => hnd.1 (h ▸ hq)
        have hkey : board_to_string (b.set q.1 q.2 player)
            ≠ board_to_string (b.set x y player) := fun h =>
          set_ne_set b player hp (x, y) q (hne q (by simp [hq])) hqc
            (board_to_string_injective _ _ h)
        show t'.evaluation_cache _ = _
        rw [hcache _ hkey]
        exact hagree q (by simp [hq])
      obtain ⟨R, flag, s', e, hb', hA, hB⟩ := ih (fun q hq => hne q (by simp [hq])) hnd.2
        (if leaf_value cache0 (b.set x y player) opponent > bs
          then leaf_value cache0 (b.set x y player) opponent else bs)
        (if leaf_value cache0 (b.set x y player) opponent > bs then (x, y) else bst)
        (tick { t' with board_ := b }) rfl hagree'
      refine ⟨R, flag, s', e, hb', ?_, ?_⟩
      · rintro ⟨c, hc, hcw⟩
        rw [List.mem_cons] at hc
        rcases hc with rfl | hc
        · rw [hw'] at hcw
          cases hcw
        · obtain ⟨hf, pre, post, hsplit, hR, hpre⟩ := hA ⟨c, hc, hcw⟩
          refine ⟨hf, (x, y) :: pre, post, by rw [hsplit]; rfl, hR, ?_⟩
          intro q hq
          rw [List.mem_cons] at hq
          rcases hq with rfl | hq
          · exact hw'
          · exact hpre q hq
      · intro hall
        obtain ⟨hf, hcase⟩ := hB (fun q hq => hall q (by simp [hq]))
        refine ⟨hf, ?_⟩
        by_cases hg : leaf_value cache0 (b.set x y player) opponent > bs
        · simp only [hg, if_true] at hcase
          right
          rcases hcase with ⟨hR, hle⟩ | ⟨pre, post, hsplit, hlt, hpre, hpost⟩
          · refine ⟨[], tl, by rw [hR]; rfl, by rw [hR]; exact hg, fun c hc => (by cases hc), ?_⟩
            intro q hq
            rw [hR]
            exact hle q hq
          · refine ⟨(x, y) :: pre, post, by rw [hsplit]; rfl, lt_trans hg hlt, ?_, hpost⟩
            intro q hq
            rw [List.mem_cons] at hq
            rcases hq with rfl | hq
            · exact hlt
            · exact hpre q hq
        · simp only [hg, if_false] at hcase
          have hle0 : leaf_value cache0 (b.set x y player) opponent ≤ bs := not_lt.1 hg
          rcases hcase with ⟨hR, hle⟩ | ⟨pre, post, hsplit, hlt, hpre, hpost⟩
          · left
            refine ⟨hR, ?_⟩
            intro q hq
            rw [List.mem_cons] at hq
            rcases hq with rfl | hq
            · exact hle0
            · exact hle q hq
          · right
            refine ⟨(x, y) :: pre, post, by rw [hsplit]; rfl, hlt, ?_, hpost⟩
            intro q hq
            rw [List.mem_cons] at hq
            rcases hq with rfl | hq
            · exact lt_of_le_of_lt hle0 hlt
            · exact hpre q hq

theorem player_of_ne_empty (s : RenjuBot) : player_of s ≠ '.' := by
  unfold player_of
  split_ifs <;> decide

theorem check_win_true_iff (b : Board) (x y : Int) (c : Char) :
    check_win b x y c = some true ↔ wins b x y c = true := by
  rw [check_win_eq, Option.some.injEq]

theorem check_win_false_iff (b : Board) (x y : Int) (c : Char) :
    check_win b x y c = some false ↔ wins b x y c = false := by
  rw [check_win_eq, Option.some.injEq]

/-! ## Boards without stones of a colour -/

theorem read_empty_board (x y : Int) :
    empty_board.read x y = if in_range x y then some '.' else none := by
  unfold Board.read empty_board
  split_ifs <;> rfl

/-- A colour with no stone on the board has no winning cell. -/
theorem completes_false_of_no_stone (b : Board) (c : Char)
    (h : ∀ x y, b.read x y ≠ some c) (q : Int × Int) : completes b c q = false := by
  rw [Bool.eq_false_iff]
  intro hq
  unfold completes at hq
  rw [Bool.and_eq_true, wins_set_self, wins_iff_rays] at hq
  obtain ⟨_, d, _, _, f, g, hf, hg, hfg⟩ := hq
  by_cases h1 : 1 ≤ f
  · exact h _ _ (hf 1 (le_refl 1) h1)
  · exact h _ _ (hg 1 (le_refl 1) (by omega))

theorem four_board_no_black (x y : Int) : four_board.read x y ≠ some 'B' := by
  unfold four_board
  simp only [read_set, read_empty_board]
  split_ifs <;> decide

theorem mem_candidates_four_board : ((0 : Int), (0 : Int)) ∈ candidates four_board 0 2 := by
  have hw : ((0 : Int), (0 : Int)) ∈ window_candidates four_board 0 2 := by
    unfold window_candidates
    rw [List.mem_filter, mem_all_cells]
    exact ⟨by decide, by decide⟩
  unfold candidates
  split_ifs with he
  · rw [List.isEmpty_iff] at he
    rw [he] at hw
    cases hw
  · exact hw

theorem empty_board_no_stone (c : Char) (hc : c ≠ '.') (x y : Int) :
    empty_board.read x y ≠ some c := by
  rw [read_empty_board]
  split_ifs
  · intro h
    exact hc (Option.some.inj h).symm
  · intro h
    cases h

theorem mem_candidates_empty_board :
    ((15 : Int), (15 : Int)) ∈ candidates empty_board 15 15 := by
  have hw : ((15 : Int), (15 : Int)) ∈ window_candidates empty_board 15 15 := by
    unfold window_candidates
    rw [List.mem_filter, mem_all_cells]
    exact ⟨by decide, by decide⟩
  unfold candidates
  split_ifs with he
  · rw [List.isEmpty_iff] at he
    rw [he] at hw
    cases hw
  · exact hw

/-- No stone placed on the all-Empty board wins. -/
theorem wins_empty_board_false (c : Char) (hc : c ≠ '.') (q : Int × Int) :
    wins (empty_board.set q.1 q.2 c) q.1 q.2 c = false := by
  rw [Bool.eq_false_iff]
  intro hq
  rw [wins_set_self, wins_iff_rays] at hq
  obtain ⟨d, _, _, f, g, hf, hg, hfg⟩ := hq
  by_cases h1 : 1 ≤ f
  · exact empty_board_no_stone c hc _ _ (hf 1 (le_refl 1) h1)
  · exact empty_board_no_stone c hc _ _ (hg 1 (le_refl 1) (by omega))

/-! ## Win scores of `minimax` -/

theorem evaluate_position_hit (player opponent : Char) (s : RenjuBot) (v : Int)
    (h : s.evaluation_cache (board_to_string s.board_) = some v) :
    evaluate_position player opponent s = some (v, s) := by
  rw [evaluate_position_eq, h]

theorem evaluate_position_miss (player opponent : Char) (s : RenjuBot)
    (h : s.evaluation_cache (board_to_string s.board_) = none) :
    evaluate_position player opponent s
      = some (static_score s.board_, store_score s (static_score s.board_)) := by
  rw [evaluate_position_eq, h]

theorem store_score_lookup (s : RenjuBot) (v : Int) :
    (store_score s v).evaluation_cache (board_to_string (store_score s v).board_) = some v := by
  show (if board_to_string s.board_ = board_to_string s.board_ then some v
    else s.evaluation_cache (board_to_string s.board_)) = some v
  rw [if_pos rfl]

/-! ## The `move` command -/

theorem player_of_ne_opponent_of (s : RenjuBot) : player_of s ≠ opponent_of s := by
  unfold player_of opponent_of
  split_ifs <;> decide

theorem opponent_of_ne_empty (s : RenjuBot) : opponent_of s ≠ '.' := by
  unfold opponent_of
  split_ifs <;> decide

/-- The `move` command on a rejected request. -/
theorem handle_move_rejected (late : Nat → Bool) (x y : Int) (s : RenjuBot)
    (h : x = -1 ∨ y = -1 ∨ is_empty s.board_ (x, y) = false) :
    handle_command late false (Command.move x y) s
      = some (Response.error "Invalid opponent move", s) := by
  unfold handle_command
  simp only [Bool.false_eq_true, if_false, is_valid_move_is_empty, Option.bind_eq_bind,
    Option.pure_def]
  by_cases h1 : x = -1 ∨ y = -1
  · rw [if_pos h1]
    rfl
  · rw [if_neg h1]
    have he : is_empty s.board_ (x, y) = false := by tauto
    rw [he]
    rfl

/-- The `move` command on an accepted request: the opponent's stone is recorded, then
`find_best_move` chooses the reply. -/
theorem handle_move_accepted (late : Nat → Bool) (x y : Int) (s : RenjuBot)
    (he : is_empty s.board_ (x, y) = true) (hx : x ≠ -1) (hy : y ≠ -1)
    (n : Int × Int) (s1 : RenjuBot)
    (hfind : find_best_move late x y false
      { s with board_ := s.board_.set x y (opponent_of s) } = some (n, s1))
    (hb : s1.board_ = s.board_.set x y (opponent_of s))
    (ht : s1.is_black_turn = s.is_black_turn) :
    handle_command late false (Command.move x y) s =
      if is_empty (s.board_.set x y (opponent_of s)) n = true then
        some (Response.move n.1 n.2,
          { s1 with board_ := (s.board_.set x y (opponent_of s)).set n.1 n.2 (player_of s) })
      else
        match all_cells.find? (is_empty (s.board_.set x y (opponent_of s))) with
        | some m =>
          some (Response.move m.1 m.2,
            { s1 with board_ := (s.board_.set x y (opponent_of s)).set m.1 m.2 (player_of s) })
        | none => some (Response.error "No valid move available", s1) := by
  have h1 : ¬ (x = -1 ∨ y = -1) := by tauto
  have hw : s.board_.write x y (opponent_of s) = some (s.board_.set x y (opponent_of s)) :=
    write_of_in_range _ _ (in_range_of_is_empty he)
  have hcol : (if s1.is_black_turn = true then 'B' else 'W') = player_of s := by
    unfold player_of; rw [ht]
  unfold handle_command
  simp only [Bool.false_eq_true, if_false, is_valid_move_is_empty, Option.bind_eq_bind,
    Option.pure_def, if_neg h1, he, Bool.not_true, Option.some_bind]
  have hw' : s.board_.write x y (if s.is_black_turn = true then 'W' else 'B')
      = some (s.board_.set x y (opponent_of s)) := hw
  rw [hw']
  simp only [Option.some_bind]
  have hfind' : find_best_move late x y false
      { board_ := s.board_.set x y (opponent_of s), is_black_turn := s.is_black_turn,
        evaluation_cache := s.evaluation_cache, clock_reads := s.clock_reads }
      = some (n, s1) := hfind
  rw [hfind']
  simp only [Option.some_bind, find_first_valid_move_eq, hb, hcol]
  by_cases hn : is_empty (s.board_.set x y (opponent_of s)) n = true
  · have hr := in_range_of_is_empty hn
    have hn1 : ¬ (n.1 = -1 ∨ n.2 = -1) := by
      unfold in_range at hr; omega
    have hn' : is_empty (s.board_.set x y (opponent_of s)) (n.1, n.2) = true := hn
    simp only [if_neg hn1, hn', Bool.not_true, Option.some_bind, Bool.false_eq_true, if_false,
      if_true, write_of_in_range _ _ hr]
  · have hn' : is_empty (s.board_.set x y (opponent_of s)) (n.1, n.2) = false := by
      simpa using hn
    have hn'' : is_empty (s.board_.set x y (opponent_of s)) n = false := hn'
    simp only [hn', hn'', Bool.not_false, if_true, ite_self, Bool.false_eq_true, if_false]
    cases hf : all_cells.find? (is_empty (s.board_.set x y (opponent_of s))) with
    | none => rfl
    | some m =>
      have hm := List.find?_some hf
      simp only [Option.some_bind, write_of_in_range _ _ (in_range_of_is_empty hm)]

/-! ## The static score as a sum -/

theorem min_distance_of_gt (b : Board) (x y : Int) (l : List (Int × Int)) (m : Int) :
    2 < min_distance_of b x y l m ↔
      (2 < m ∧ ∀ q ∈ l, b.read q.1 q.2 ≠ some '.' →
        2 < int_abs (x - q.1) + int_abs (y - q.2)) := by
  induction l generalizing m with
  | nil => simp [min_distance_of]
  | cons q rest ih =>
    obtain ⟨i, j⟩ := q
    unfold min_distance_of
    by_cases he : b.read i j = some '.'
    · rw [if_pos he, ih]
      constructor
      · rintro ⟨h1, h2⟩
        refine ⟨h1, fun q hq => ?_⟩
        rw [List.mem_cons] at hq
        rcases hq with rfl | hq
        · intro hne
          exact absurd he hne
        · exact h2 q hq
      · rintro ⟨h1, h2⟩
        exact ⟨h1, fun q hq => h2 q (by simp [hq])⟩
    · rw [if_neg he, ih, lt_min_iff]
      constructor
      · rintro ⟨⟨h1, h3⟩, h2⟩
        refine ⟨h1, fun q hq => ?_⟩
        rw [List.mem_cons] at hq
        rcases hq with rfl | hq
        · intro _
          exact h3
        · exact h2 q hq
      · rintro ⟨h1, h2⟩
        exact ⟨⟨h1, h2 (i, j) (by simp) he⟩, fun q hq => h2 q (by simp [hq])⟩

theorem min_distance_of_all_cells (b : Board) (p : Int × Int) :
    2 < min_distance_of b p.1 p.2 all_cells BOARD_SIZE ↔ stone_within2 b p = false := by
  rw [min_distance_of_gt]
  unfold stone_within2
  rw [List.any_eq_false]
  constructor
  · rintro ⟨_, h⟩ q hq
    rw [Bool.and_eq_true, Bool.not_eq_true', decide_eq_true_iff]
    rintro ⟨h1, h2⟩
    have hne : b.read q.1 q.2 ≠ some '.' := by
      intro hr
      rw [(is_empty_iff b q.1 q.2).2 hr] at h1
      cases h1
    have := h q hq hne
    omega
  · intro h
    refine ⟨by decide, fun q hq hne => ?_⟩
    have hq' := h q hq
    rw [Bool.and_eq_true, Bool.not_eq_true', decide_eq_true_iff] at hq'
    by_contra hle
    apply hq'
    refine ⟨?_, by omega⟩
    rw [Bool.eq_false_iff]
    intro he
    exact hne (read_of_is_empty he)

theorem score_of_eq_sum (b : Board) (l : List (Int × Int)) (score : Int) :
    score_of b l score = score + ((l.filter (is_empty b)).map (fun p =>
      10 - (int_abs (p.1 - 15) + int_abs (p.2 - 15))
        + (if stone_within2 b p then 0 else 5))).sum := by
  induction l generalizing score with
  | nil => simp [score_of]
  | cons q rest ih =>
    obtain ⟨x, y⟩ := q
    unfold score_of
    by_cases he : b.read x y = some '.'
    · have he' : is_empty b (x, y) = true := (is_empty_iff b x y).2 he
      rw [if_pos he, ih, List.filter_cons_of_pos he', List.map_cons, List.sum_cons]
      have hc : (BOARD_SIZE / 2 : Int) = 15 := by decide
      rw [hc]
      have hb : (if min_distance_of b x y all_cells BOARD_SIZE > 2 then (5 : Int) else 0)
          = (if stone_within2 b (x, y) = true then 0 else 5) := by
        have h := min_distance_of_all_cells b (x, y)
        by_cases hs : stone_within2 b (x, y) = true
        · have : ¬ (2 < min_distance_of b x y all_cells BOARD_SIZE) := by
            intro hlt
            rw [h.1 hlt] at hs
            cases hs
          rw [if_pos hs, if_neg this]
        · have hs' : stone_within2 b (x, y) = false := by simpa using hs
          rw [if_neg hs, if_pos (h.2 hs')]
      rw [hb]
      ring
    · have he' : ¬ (is_empty b (x, y) = true) := fun h => he ((is_empty_iff b x y).1 h)
      rw [if_neg he, ih, List.filter_cons_of_neg he']

theorem static_score_eq_spec (b : Board) : static_score b = spec_score b := by
  unfold static_score spec_score
  rw [score_of_eq_sum, zero_add]

theorem sum_empty_board :
    (all_cells.map (fun p => 10 - (int_abs (p.1 - 15) + int_abs (p.2 - 15)) + (5 : Int))).sum
      = -465 := by
  decide!

theorem is_empty_empty_board (q : Int × Int) (hq : q ∈ all_cells) :
    is_empty empty_board q = true := by
  rw [← Prod.mk.eta (p := q), is_empty_iff, read_empty_board, if_pos ((mem_all_cells q).1 hq)]

theorem stone_within2_empty_board (p : Int × Int) : stone_within2 empty_board p = false := by
  unfold stone_within2
  rw [List.any_eq_false]
  intro q hq
  rw [is_empty_empty_board q hq]
  simp

theorem spec_score_empty_board : spec_score empty_board = -465 := by
  unfold spec_score
  have hf : all_cells.filter (is_empty empty_board) = all_cells :=
    List.filter_eq_self.2 is_empty_empty_board
  rw [hf]
  have hm : (fun p : Int × Int => 10 - (int_abs (p.1 - 15) + int_abs (p.2 - 15))
        + (if stone_within2 empty_board p then (0 : Int) else 5))
      = (fun p => 10 - (int_abs (p.1 - 15) + int_abs (p.2 - 15)) + (5 : Int)) := by
    funext p
    rw [stone_within2_empty_board p]
    rfl
  rw [hm]
  exact sum_empty_board

/-! ## Effect of the search on the cache

The lemmas of this section follow the cache through the search for any relation `R` between
the cache at entry and the cache at return that is reflexive, transitive and established by
`evaluate_position`. -/

theorem minimax_moves_rel (R : Cache → Cache → Prop)
    (htrans : ∀ a b c, R a b → R b c → R a c)
    (recurse : Int → Int → RenjuBot → Option (Int × RenjuBot))
    (hrec : ∀ a c t, ∃ v t', recurse a c t = some (v, t') ∧
      t'.board_ = t.board_ ∧ R t.evaluation_cache t'.evaluation_cache)
    (maximizing : Bool) (stone : Char) (bd : Board) (c0 : Cache) (moves : List (Int × Int))
    (hm : ∀ p ∈ moves, is_empty bd p = true) (alpha beta best : Int) (s : RenjuBot)
    (hs : s.board_ = bd) (hc : R c0 s.evaluation_cache) :
    ∃ v s', minimax_moves recurse maximizing stone moves alpha beta best s = some (v, s') ∧
      s'.board_ = bd ∧ R c0 s'.evaluation_cache := by
  induction moves generalizing alpha beta best s with
  | nil => exact ⟨best, s, rfl, hs, hc⟩
  | cons p rest ih =>
    obtain ⟨x, y⟩ := p
    have he : is_empty bd (x, y) = true := hm (x, y) (by simp)
    obtain ⟨h1, h2⟩ := place_undo bd x y stone he
    obtain ⟨v, t', hv, hb, hr⟩ := hrec alpha beta { s with board_ := bd.set x y stone }
    simp only at hb hr
    have hc' : R c0 t'.evaluation_cache := htrans _ _ _ hc hr
    have ih' := fun a c m => ih (fun q hq => hm q (by simp [hq])) a c m
      { t' with board_ := bd } rfl hc'
    unfold minimax_moves
    rw [hs, h1]
    simp only [Option.bind_eq_bind, Option.some_bind, hv, hb, h2]
    cases maximizing
    · simp only [Bool.false_eq_true, if_false]
      by_cases hcut : min beta (min best v) ≤ alpha
      · rw [if_pos hcut]
        exact ⟨_, _, rfl, rfl, hc'⟩
      · rw [if_neg hcut]
        exact ih' _ _ _
    · simp only [if_true]
      by_cases hcut : beta ≤ max alpha (max best v)
      · rw [if_pos hcut]
        exact ⟨_, _, rfl, rfl, hc'⟩
      · rw [if_neg hcut]
        exact ih' _ _ _

theorem minimax_nat_rel (R : Cache → Cache → Prop) (hrefl : ∀ a, R a a)
    (htrans : ∀ a b c, R a b → R b c → R a c)
    (heval : ∀ player opponent s v s', evaluate_position player opponent s = some (v, s') →
      R s.evaluation_cache s'.evaluation_cache)
    (late : Nat → Bool) (depth : Nat) :
    ∀ (alpha beta : Int) (maximizing : Bool) (player opponent : Char) (s : RenjuBot),
      ∃ v s', minimax_nat late depth alpha beta maximizing player opponent s = some (v, s') ∧
        s'.board_ = s.board_ ∧ R s.evaluation_cache s'.evaluation_cache := by
  induction depth with
  | zero =>
    intro alpha beta maximizing player opponent s
    rw [minimax_nat_zero]
    by_cases h1 : late s.clock_reads = true
    · rw [if_pos h1]
      exact ⟨_, _, rfl, rfl, hrefl _⟩
    · rw [if_neg h1]
      by_cases h2 : all_cells.any
          (completes s.board_ (if maximizing then player else opponent)) = true
      · rw [if_pos h2]
        exact ⟨_, _, rfl, rfl, hrefl _⟩
      · rw [if_neg h2]
        obtain ⟨v, s', he, hb, _⟩ := evaluate_position_frame player opponent (tick s)
        exact ⟨v, s', he, hb, heval _ _ (tick s) _ _ he⟩
  | succ d ih =>
    intro alpha beta maximizing player opponent s
    rw [minimax_nat_succ]
    by_cases h1 : late s.clock_reads = true
    · rw [if_pos h1]
      exact ⟨_, _, rfl, rfl, hrefl _⟩
    · rw [if_neg h1]
      by_cases h2 : all_cells.any
          (completes s.board_ (if maximizing then player else opponent)) = true
      · rw [if_pos h2]
        exact ⟨_, _, rfl, rfl, hrefl _⟩
      · rw [if_neg h2]
        by_cases h3 : (all_cells.filter (is_empty s.board_)).isEmpty = true
        · rw [if_pos h3]
          exact ⟨_, _, rfl, rfl, hrefl _⟩
        · rw [if_neg h3]
          exact minimax_moves_rel R htrans _
            (fun a c t => ih a c (!maximizing) player opponent t)
            maximizing _ s.board_ s.evaluation_cache _ (fun p hp => (List.mem_filter.1 hp).2)
            _ _ _ (tick s) rfl (hrefl _)

theorem minimax_rel (R : Cache → Cache → Prop) (hrefl : ∀ a, R a a)
    (htrans : ∀ a b c, R a b → R b c → R a c)
    (heval : ∀ player opponent s v s', evaluate_position player opponent s = some (v, s') →
      R s.evaluation_cache s'.evaluation_cache)
    (late : Nat → Bool) (depth alpha beta : Int) (maximizing : Bool)
    (player opponent : Char) (s : RenjuBot) :
    ∃ v s', minimax late depth alpha beta maximizing player opponent s = some (v, s') ∧
      s'.board_ = s.board_ ∧ R s.evaluation_cache s'.evaluation_cache := by
  unfold minimax
  split_ifs
  · exact ⟨_, _, rfl, rfl, hrefl _⟩
  · exact minimax_nat_rel R hrefl htrans heval late _ alpha beta maximizing player opponent s

theorem candidate_loop_rel (R : Cache → Cache → Prop) (hrefl : ∀ a, R a a)
    (htrans : ∀ a b c, R a b → R b c → R a c)
    (heval : ∀ player opponent s v s', evaluate_position player opponent s = some (v, s') →
      R s.evaluation_cache s'.evaluation_cache)
    (late : Nat → Bool) (player opponent : Char) (bd : Board) (c0 : Cache)
    (cands : List (Int × Int)) (hc : ∀ c ∈ cands, is_empty bd c = true)
    (best_score : Int) (best : Int × Int) (s : RenjuBot)
    (hs : s.board_ = bd) (h0 : R c0 s.evaluation_cache) :
    ∃ (r : (Int × Int) × Bool) (s' : RenjuBot),
      candidate_loop late player opponent cands best_score best s = some (r.1, r.2, s') ∧
      R c0 s'.evaluation_cache := by
  induction cands generalizing best_score best s with
  | nil => exact ⟨(best, false), s, rfl, h0⟩
  | cons p rest ih =>
    obtain ⟨x, y⟩ := p
    have he : is_empty bd (x, y) = true := hc (x, y) (by simp)
    obtain ⟨h1, h2⟩ := place_undo bd x y player he
    rw [candidate_loop_cons late player opponent x y rest best_score best s (hs ▸ he), hs]
    by_cases hw : wins (bd.set x y player) x y player = true
    · rw [if_pos hw]
      exact ⟨((x, y), true), s, rfl, h0⟩
    · rw [if_neg hw]
      obtain ⟨v, t', hv, hb, hr⟩ := minimax_rel R hrefl htrans heval late (MAX_DEPTH - 1)
        INT_MIN INT_MAX false player opponent { s with board_ := bd.set x y player }
      simp only at hb hr
      have h0' : R c0 t'.evaluation_cache := htrans _ _ _ h0 hr
      simp only [hv, Option.some_bind, hb, h2]
      by_cases hl : late t'.clock_reads = true
      · rw [if_pos hl]
        exact ⟨(_, false), _, rfl, h0'⟩
      · rw [if_neg hl]
        exact ih (fun q hq => hc q (by simp [hq])) _ _ (tick { t' with board_ := bd }) rfl h0'

theorem find_best_move_rel (R : Cache → Cache → Prop) (hrefl : ∀ a, R a a)
    (htrans : ∀ a b c, R a b → R b c → R a c)
    (heval : ∀ player opponent s v s', evaluate_position player opponent s = some (v, s') →
      R s.evaluation_cache s'.evaluation_cache)
    (late : Nat → Bool) (ox oy : Int) (first : Bool) (s : RenjuBot) :
    ∃ r s', find_best_move late ox oy first s = some (r, s') ∧
      R s.evaluation_cache s'.evaluation_cache := by
  have hfin : ∀ r : (Int × Int) × Bool × RenjuBot,
      (finish_search r).2.evaluation_cache = r.2.2.evaluation_cache := by
    intro r
    unfold finish_search final_choice
    split_ifs
    · rfl
    · cases all_cells.find? (is_empty r.2.2.board_) <;> rfl
    · rfl
  have hwin : ∃ r s', windowed_search late ox oy (player_of s) (opponent_of s) s = some (r, s') ∧
      R s.evaluation_cache s'.evaluation_cache := by
    rw [windowed_search_eq]
    obtain ⟨r, s', hloop, hr⟩ := candidate_loop_rel R hrefl htrans heval late (player_of s)
      (opponent_of s) s.board_ s.evaluation_cache (best_moves_of s.board_ ox oy)
      (best_moves_of_empty s.board_ ox oy) INT_MIN (-1, -1) s rfl (hrefl _)
    have hloop_case : ∃ r' t, (candidate_loop late (player_of s) (opponent_of s)
          (best_moves_of s.board_ ox oy) INT_MIN (-1, -1) s).map finish_search = some (r', t) ∧
        R s.evaluation_cache t.evaluation_cache := by
      rw [hloop, Option.map_some']
      refine ⟨(finish_search (r.1, r.2, s')).1, (finish_search (r.1, r.2, s')).2, rfl, ?_⟩
      rw [hfin]
      exact hr
    by_cases he : (best_moves_of s.board_ ox oy).isEmpty = true
    · rw [if_pos he]
      cases all_cells.find? (is_empty s.board_) with
      | some m => exact ⟨_, _, rfl, hrefl _⟩
      | none => exact hloop_case
    · rw [if_neg he]
      exact hloop_case
  rw [find_best_move_eq]
  have hrest : ∃ r s',
      (match all_cells.find? (completes s.board_ (opponent_of s)) with
        | some m =>
          if is_empty s.board_ m = true then some (m, s)
          else windowed_search late ox oy (player_of s) (opponent_of s) s
        | none => windowed_search late ox oy (player_of s) (opponent_of s) s) = some (r, s') ∧
      R s.evaluation_cache s'.evaluation_cache := by
    cases all_cells.find? (completes s.board_ (opponent_of s)) with
    | none => exact hwin
    | some m =>
      dsimp only
      by_cases hm : is_empty s.board_ m = true
      · rw [if_pos hm]
        exact ⟨_, _, rfl, hrefl _⟩
      · rw [if_neg hm]
        exact hwin
  by_cases h1 : (first && s.is_black_turn) = true
  · rw [if_pos h1]
    by_cases h2 : is_empty s.board_ (15, 15) = true
    · rw [if_pos h2]
      exact ⟨_, _, rfl, hrefl _⟩
    · rw [if_neg h2]
      cases all_cells.find? (is_empty s.board_) with
      | some m => exact ⟨_, _, rfl, hrefl _⟩
      | none => exact hrest
  · rw [if_neg h1]
    exact hrest

/-! ## The cache only grows, soundly -/

theorem CacheGrows_refl (c : Cache) : CacheGrows c c :=
  ⟨fun _ _ h => h, fun h => h⟩

theorem CacheGrows_trans (a b c : Cache) (h1 : CacheGrows a b) (h2 : CacheGrows b c) :
    CacheGrows a c :=
  ⟨fun k v h => h2.1 k v (h1.1 k v h), fun h => h2.2 (h1.2 h)⟩

theorem CacheSound_empty : CacheSound (fun _ => none) := by
  intro b v h
  cases h

theorem evaluate_position_grows (player opponent : Char) (s : RenjuBot) (v : Int)
    (s' : RenjuBot) (h : evaluate_position player opponent s = some (v, s')) :
    CacheGrows s.evaluation_cache s'.evaluation_cache := by
  cases hc : s.evaluation_cache (board_to_string s.board_) with
  | some w =>
    rw [evaluate_position_hit _ _ s w hc, Option.some.injEq, Prod.mk.injEq] at h
    rw [← h.2]
    exact CacheGrows_refl _
  | none =>
    rw [evaluate_position_miss _ _ s hc, Option.some.injEq, Prod.mk.injEq] at h
    rw [← h.2]
    constructor
    · intro k w hk
      show (if k = board_to_string s.board_ then some (static_score s.board_)
        else s.evaluation_cache k) = some w
      have hne : k ≠ board_to_string s.board_ := by
        intro he
        rw [he, hc] at hk
        cases hk
      rw [if_neg hne]
      exact hk
    · intro hsound b w hb
      have hb' : (if board_to_string b = board_to_string s.board_
          then some (static_score s.board_) else s.evaluation_cache (board_to_string b))
          = some w := hb
      by_cases he : board_to_string b = board_to_string s.board_
      · rw [if_pos he] at hb'
        rw [board_to_string_injective b s.board_ he]
        exact (Option.some.inj hb').symm
      · rw [if_neg he] at hb'
        exact hsound b w hb'

theorem handle_command_timed_out (late : Nat → Bool) (command : Command) (s : RenjuBot) :
    handle_command late true command s = some (Response.error "Move timeout", s) := by
  unfold handle_command
  rfl

theorem handle_start_cache (late : Nat → Bool) (timed_out : Bool) (s : RenjuBot)
    (r : Response) (s' : RenjuBot)
    (h : handle_command late timed_out Command.start s = some (r, s')) :
    s'.evaluation_cache = s.evaluation_cache := by
  cases timed_out
  · unfold handle_command at h
    simp only [Bool.false_eq_true, if_false, is_valid_move_is_empty, Option.bind_eq_bind,
      Option.some_bind, Option.pure_def] at h
    split_ifs at h
    · rw [Option.some.injEq, Prod.mk.injEq] at h
      rw [← h.2]
    · rw [Option.some.injEq, Prod.mk.injEq] at h
      rw [← h.2]
    · cases hw : s.board_.write 15 15 'B' with
      | none =>
        rw [hw] at h
        cases h
      | some b =>
        rw [hw, Option.some_bind, Option.some.injEq, Prod.mk.injEq] at h
        rw [← h.2]
  · rw [handle_command_timed_out, Option.some.injEq, Prod.mk.injEq] at h
    rw [← h.2]

theorem handle_other_cache (late : Nat → Bool) (timed_out : Bool) (s : RenjuBot)
    (r : Response) (s' : RenjuBot)
    (h : handle_command late timed_out Command.other s = some (r, s')) :
    s'.evaluation_cache = s.evaluation_cache := by
  cases timed_out
  · have h' : some (Response.error "Unknown command", s) = some (r, s') := h
    rw [Option.some.injEq, Prod.mk.injEq] at h'
    rw [← h'.2]
  · rw [handle_command_timed_out, Option.some.injEq, Prod.mk.injEq] at h
    rw [← h.2]

theorem handle_reset_cache (late : Nat → Bool) (s : RenjuBot) (r : Response) (s' : RenjuBot)
    (h : handle_command late false Command.reset s = some (r, s')) :
    s'.evaluation_cache = fun _ => none := by
  have h' : some (Response.reply "ok",
      { initialize_board s with is_black_turn := !(initialize_board s).is_black_turn })
      = some (r, s') := h
  rw [Option.some.injEq, Prod.mk.injEq] at h'
  rw [← h'.2]
  rfl

theorem handle_move_grows (late : Nat → Bool) (timed_out : Bool) (x y : Int) (s : RenjuBot)
    (r : Response) (s' : RenjuBot)
    (h : handle_command late timed_out (Command.move x y) s = some (r, s')) :
    CacheGrows s.evaluation_cache s'.evaluation_cache := by
  cases timed_out
  · by_cases hrej : x = -1 ∨ y = -1 ∨ is_empty s.board_ (x, y) = false
    · rw [handle_move_rejected late x y s hrej, Option.some.injEq, Prod.mk.injEq] at h
      rw [← h.2]
      exact CacheGrows_refl _
    · have hx : x ≠ -1 := fun h => hrej (Or.inl h)
      have hy : y ≠ -1 := fun h => hrej (Or.inr (Or.inl h))
      have he : is_empty s.board_ (x, y) = true := by
        cases h : is_empty s.board_ (x, y)
        · exact absurd (Or.inr (Or.inr h)) hrej
        · rfl
      obtain ⟨n, s1, hfind, hb, ht, _⟩ := find_best_move_outcome late x y false
        { s with board_ := s.board_.set x y (opponent_of s) }
      obtain ⟨n', s1', hfind', hg⟩ := find_best_move_rel CacheGrows CacheGrows_refl
        CacheGrows_trans evaluate_position_grows late x y false
        { s with board_ := s.board_.set x y (opponent_of s) }
      rw [hfind, Option.some.injEq, Prod.mk.injEq] at hfind'
      rw [← hfind'.2] at hg
      simp only at hb ht hg
      rw [handle_move_accepted late x y s he hx hy n s1 hfind hb ht] at h
      split_ifs at h
      · rw [Option.some.injEq, Prod.mk.injEq] at h
        rw [← h.2]
        exact hg
      · cases hf : all_cells.find? (is_empty (s.board_.set x y (opponent_of s))) with
        | none =>
          rw [hf, Option.some.injEq, Prod.mk.injEq] at h
          rw [← h.2]
          exact hg
        | some m =>
          rw [hf, Option.some.injEq, Prod.mk.injEq] at h
          rw [← h.2]
          exact hg
  · rw [handle_command_timed_out, Option.some.injEq, Prod.mk.injEq] at h
    rw [← h.2]
    exact CacheGrows_refl _

/-- Every step that is not a `reset` keeps the entries of the cache and its soundness. -/
theorem Step_grows (s s' : RenjuBot) (h : Step false s s') :
    CacheGrows s.evaluation_cache s'.evaluation_cache := by
  cases h with
  | evaluate player opponent _ v _ he => exact evaluate_position_grows _ _ _ _ _ he
  | search late depth alpha beta maximizing player opponent _ v _ hm =>
    obtain ⟨v', t, ht, _, hg⟩ := minimax_rel CacheGrows CacheGrows_refl CacheGrows_trans
      evaluate_position_grows late depth alpha beta maximizing player opponent s
    rw [hm, Option.some.injEq, Prod.mk.injEq] at ht
    rw [← ht.2] at hg
    exact hg
  | blocking player opponent _ r b' hb => exact CacheGrows_refl _
  | best_move late ox oy first _ r _ hf =>
    obtain ⟨r', t, ht, hg⟩ := find_best_move_rel CacheGrows CacheGrows_refl CacheGrows_trans
      evaluate_position_grows late ox oy first s
    rw [hf, Option.some.injEq, Prod.mk.injEq] at ht
    rw [← ht.2] at hg
    exact hg
  | start_command late timed_out _ r _ hc =>
    rw [handle_start_cache late timed_out s r s' hc]
    exact CacheGrows_refl _
  | move_command late timed_out x y _ r _ hc => exact handle_move_grows late timed_out x y s r s' hc
  | other_command late timed_out _ r _ hc =>
    rw [handle_other_cache late timed_out s r s' hc]
    exact CacheGrows_refl _
  | reset_timed_out late _ r _ hc =>
    rw [handle_command_timed_out, Option.some.injEq, Prod.mk.injEq] at hc
    rw [← hc.2]
    exact CacheGrows_refl _

theorem Step_sound (flag : Bool) (s s' : RenjuBot) (h : Step flag s s')
    (hs : CacheSound s.evaluation_cache) : CacheSound s'.evaluation_cache := by
  cases flag
  · exact (Step_grows s s' h).2 hs
  · cases h with
    | reset_command late _ r _ hc =>
      rw [handle_reset_cache late s r s' hc]
      exact CacheSound_empty

theorem Reachable_sound (s : RenjuBot) (h : Reachable s) : CacheSound s.evaluation_cache := by
  induction h with
  | initial => exact CacheSound_empty
  | step flag s s' _ hstep ih => exact Step_sound flag s s' hstep ih

/-! ## A stone of the engine gives the opponent no winning cell -/

theorem Ray_of_set (b : Board) (c : Int × Int) (p o : Char) (hpo : p ≠ o)
    (x y dx dy : Int) (n : Nat) (h : Ray (b.set c.1 c.2 p) o x y dx dy n) :
    Ray b o x y dx dy n := by
  intro k h1 h2
  have hk := h k h1 h2
  rw [read_set] at hk
  split_ifs at hk with heq hr
  · exact absurd (Option.some.inj hk) hpo
  · exact hk

theorem wins_of_set (b : Board) (c : Int × Int) (p o : Char) (hpo : p ≠ o) (x y : Int)
    (h : wins (b.set c.1 c.2 p) x y o = true) : wins b x y o = true := by
  rw [wins_iff_rays] at h ⊢
  obtain ⟨d, hd, h0, f, g, hf, hg, hfg⟩ := h
  exact ⟨d, hd, h0, f, g, Ray_of_set b c p o hpo _ _ _ _ _ hf,
    Ray_of_set b c p o hpo _ _ _ _ _ hg, hfg⟩

/-- A cell at which the opponent wins after the engine's stone was placed is a cell at which
the opponent wins before. -/
theorem completes_of_set (b : Board) (c : Int × Int) (p o : Char) (hpo : p ≠ o)
    (hp : p ≠ '.') (q : Int × Int) (h : completes (b.set c.1 c.2 p) o q = true) :
    completes b o q = true := by
  unfold completes at h ⊢
  rw [Bool.and_eq_true] at h ⊢
  obtain ⟨he, hw⟩ := h
  have hread := read_of_is_empty he
  rw [read_set] at hread
  have hqe : b.read q.1 q.2 = some '.' := by
    split_ifs at hread with heq hr
    · exact absurd (Option.some.inj hread) hp
    · exact hread
  refine ⟨decide_eq_true hqe, ?_⟩
  rw [wins_set_self] at hw ⊢
  exact wins_of_set b c p o hpo _ _ hw

theorem static_score_ge (b : Board) : -19220 ≤ static_score b := by
  have h := score_of_lower b all_cells (fun p hp => (mem_all_cells p).1 hp) 0
  rw [length_all_cells] at h
  unfold static_score
  omega

/-! ## Running maximum and minimum -/

theorem fold_best_nil (maximizing : Bool) (a : Int) : fold_best maximizing a [] = a := rfl

theorem fold_max_cons (a x : Int) (l : List Int) :
    fold_best true a (x :: l) = fold_best true (max a x) l := rfl

theorem fold_min_cons (a x : Int) (l : List Int) :
    fold_best false a (x :: l) = fold_best false (min a x) l := rfl

theorem fold_max_ge (a : Int) (l : List Int) : a ≤ fold_best true a l := by
  induction l generalizing a with
  | nil => exact le_refl a
  | cons x l ih =>
    rw [fold_max_cons]
    exact le_trans (le_max_left a x) (ih _)

theorem fold_max_mono (a b : Int) (h : a ≤ b) (l : List Int) :
    fold_best true a l ≤ fold_best true b l := by
  induction l generalizing a b with
  | nil => exact h
  | cons x l ih =>
    rw [fold_max_cons, fold_max_cons]
    exact ih _ _ (max_le_max h (le_refl x))

theorem fold_max_mem (a : Int) (l : List Int) (x : Int) (hx : x ∈ l) :
    x ≤ fold_best true a l := by
  induction l generalizing a with
  | nil => cases hx
  | cons y l ih =>
    rw [fold_max_cons]
    rw [List.mem_cons] at hx
    rcases hx with rfl | hx
    · exact le_trans (le_max_right a x) (fold_max_ge _ l)
    · exact ih _ hx

theorem fold_max_cases (a : Int) (l : List Int) :
    fold_best true a l = a ∨ fold_best true a l ∈ l := by
  induction l generalizing a with
  | nil => exact Or.inl rfl
  | cons x l ih =>
    rw [fold_max_cons]
    rcases ih (max a x) with h | h
    · rw [h]
      rcases max_cases a x with ⟨hm, _⟩ | ⟨hm, _⟩
      · exact Or.inl hm
      · right; rw [hm]; simp
    · right; simp [h]

theorem fold_max_le (a c : Int) (l : List Int) (ha : a ≤ c) (hl : ∀ x ∈ l, x ≤ c) :
    fold_best true a l ≤ c := by
  rcases fold_max_cases a l with h | h
  · rw [h]; exact ha
  · exact hl _ h

theorem fold_min_le (a : Int) (l : List Int) : fold_best false a l ≤ a := by
  induction l generalizing a with
  | nil => exact le_refl a
  | cons x l ih =>
    rw [fold_min_cons]
    exact le_trans (ih _) (min_le_left a x)

theorem fold_min_mono (a b : Int) (h : a ≤ b) (l : List Int) :
    fold_best false a l ≤ fold_best false b l := by
  induction l generalizing a b with
  | nil => exact h
  | cons x l ih =>
    rw [fold_min_cons, fold_min_cons]
    exact ih _ _ (min_le_min h (le_refl x))

theorem fold_min_mem (a : Int) (l : List Int) (x : Int) (hx : x ∈ l) :
    fold_best false a l ≤ x := by
  induction l generalizing a with
  | nil => cases hx
  | cons y l ih =>
    rw [fold_min_cons]
    rw [List.mem_cons] at hx
    rcases hx with rfl | hx
    · exact le_trans (fold_min_le _ l) (min_le_right a x)
    · exact ih _ hx

theorem fold_min_cases (a : Int) (l : List Int) :
    fold_best false a l = a ∨ fold_best false a l ∈ l := by
  induction l generalizing a with
  | nil => exact Or.inl rfl
  | cons x l ih =>
    rw [fold_min_cons]
    rcases ih (min a x) with h | h
    · rw [h]
      rcases min_cases a x with ⟨hm, _⟩ | ⟨hm, _⟩
      · exact Or.inl hm
      · right; rw [hm]; simp
    · right; simp [h]

theorem fold_min_ge (a c : Int) (l : List Int) (ha : c ≤ a) (hl : ∀ x ∈ l, c ≤ x) :
    c ≤ fold_best false a l := by
  rcases fold_min_cases a l with h | h
  · rw [h]; exact ha
  · exact hl _ h

/-! ## Scores are a function of the board during a search -/

theorem SameScores_refl (c : Cache) : SameScores c c := fun _ => rfl

/-- On a state whose cache gives the same scores as `c0`, `evaluate_position` returns the
score of `c0` and leaves such a cache. -/
theorem evaluate_position_same_scores (c0 : Cache) (player opponent : Char) (s : RenjuBot)
    (hs : SameScores c0 s.evaluation_cache) :
    ∃ s', evaluate_position player opponent s = some (leaf_score c0 s.board_, s') ∧
      s'.board_ = s.board_ ∧ SameScores c0 s'.evaluation_cache := by
  have hv := hs s.board_
  cases hc : s.evaluation_cache (board_to_string s.board_) with
  | some w =>
    have hw : leaf_score s.evaluation_cache s.board_ = w := by
      unfold leaf_score; rw [hc]
    rw [evaluate_position_hit _ _ s w hc, ← hv, hw]
    exact ⟨s, rfl, rfl, hs⟩
  | none =>
    have hw : leaf_score s.evaluation_cache s.board_ = static_score s.board_ := by
      unfold leaf_score; rw [hc]
    rw [evaluate_position_miss _ _ s hc, ← hv, hw]
    refine ⟨_, rfl, rfl, ?_⟩
    intro b
    rw [← hs b]
    unfold leaf_score
    show (match (if board_to_string b = board_to_string s.board_
        then some (static_score s.board_) else s.evaluation_cache (board_to_string b)) with
      | some v => v
      | none => static_score b) = _
    by_cases he : board_to_string b = board_to_string s.board_
    · rw [if_pos he, he, hc, board_to_string_injective b s.board_ he]
    · simp only [if_neg he]

/-! ## One step of the loops over moves -/

theorem minimax_moves_cons_max (recurse : Int → Int → RenjuBot → Option (Int × RenjuBot))
    (stone : Char) (x y : Int) (rest : List (Int × Int)) (alpha beta best : Int)
    (s : RenjuBot) (v : Int) (t' : RenjuBot) (he : is_empty s.board_ (x, y) = true)
    (hrec : recurse alpha beta { s with board_ := s.board_.set x y stone } = some (v, t'))
    (hb : t'.board_ = s.board_.set x y stone) :
    minimax_moves recurse true stone ((x, y) :: rest) alpha beta best s =
      if beta ≤ max alpha (max best v) then some (max best v, { t' with board_ := s.board_ })
      else minimax_moves recurse true stone rest (max alpha (max best v)) beta (max best v)
        { t' with board_ := s.board_ } := by
  obtain ⟨h1, h2⟩ := place_undo s.board_ x y stone he
  rw [minimax_moves]
  simp only [h1, Option.bind_eq_bind, Option.some_bind, hrec, hb, h2, if_true]
  rfl

theorem minimax_moves_cons_min (recurse : Int → Int → RenjuBot → Option (Int × RenjuBot))
    (stone : Char) (x y : Int) (rest : List (Int × Int)) (alpha beta best : Int)
    (s : RenjuBot) (v : Int) (t' : RenjuBot) (he : is_empty s.board_ (x, y) = true)
    (hrec : recurse alpha beta { s with board_ := s.board_.set x y stone } = some (v, t'))
    (hb : t'.board_ = s.board_.set x y stone) :
    minimax_moves recurse false stone ((x, y) :: rest) alpha beta best s =
      if min beta (min best v) ≤ alpha then some (min best v, { t' with board_ := s.board_ })
      else minimax_moves recurse false stone rest alpha (min beta (min best v)) (min best v)
        { t' with board_ := s.board_ } := by
  obtain ⟨h1, h2⟩ := place_undo s.board_ x y stone he
  rw [minimax_moves]
  simp only [h1, Option.bind_eq_bind, Option.some_bind, hrec, hb, h2, Bool.false_eq_true,
    if_false]
  rfl

theorem minimax_moves_unpruned_cons_max
    (recurse : Int → Int → RenjuBot → Option (Int × RenjuBot))
    (stone : Char) (x y : Int) (rest : List (Int × Int)) (alpha beta best : Int)
    (s : RenjuBot) (v : Int) (t' : RenjuBot) (he : is_empty s.board_ (x, y) = true)
    (hrec : recurse alpha beta { s with board_ := s.board_.set x y stone } = some (v, t'))
    (hb : t'.board_ = s.board_.set x y stone) :
    minimax_moves_unpruned recurse true stone ((x, y) :: rest) alpha beta best s =
      minimax_moves_unpruned recurse true stone rest (max alpha (max best v)) beta (max best v)
        { t' with board_ := s.board_ } := by
  obtain ⟨h1, h2⟩ := place_undo s.board_ x y stone he
  rw [minimax_moves_unpruned]
  simp only [h1, Option.bind_eq_bind, Option.some_bind, hrec, hb, h2, if_true]

theorem minimax_moves_unpruned_cons_min
    (recurse : Int → Int → RenjuBot → Option (Int × RenjuBot))
    (stone : Char) (x y : Int) (rest : List (Int × Int)) (alpha beta best : Int)
    (s : RenjuBot) (v : Int) (t' : RenjuBot) (he : is_empty s.board_ (x, y) = true)
    (hrec : recurse alpha beta { s with board_ := s.board_.set x y stone } = some (v, t'))
    (hb : t'.board_ = s.board_.set x y stone) :
    minimax_moves_unpruned recurse false stone ((x, y) :: rest) alpha beta best s =
      minimax_moves_unpruned recurse false stone rest alpha (min beta (min best v)) (min best v)
        { t' with board_ := s.board_ } := by
  obtain ⟨h1, h2⟩ := place_undo s.board_ x y stone he
  rw [minimax_moves_unpruned]
  simp only [h1, Option.bind_eq_bind, Option.some_bind, hrec, hb, h2, Bool.false_eq_true,
    if_false]

/-! ## Unfolding of the unpruned search and of the game value -/

theorem minimax_unpruned_nat_zero (late : Nat → Bool) (alpha beta : Int) (maximizing : Bool)
    (player opponent : Char) (s : RenjuBot) :
    minimax_unpruned_nat late 0 alpha beta maximizing player opponent s =
      if late s.clock_reads then some (0, tick s)
      else if all_cells.any (completes s.board_ (if maximizing then player else opponent)) then
        some (if maximizing then 1000000 - ((0 : Nat) : Int) else -1000000 + ((0 : Nat) : Int),
          tick s)
      else evaluate_position player opponent (tick s) := by
  rw [minimax_unpruned_nat]
  simp only [minimax_win_loop_eq, Option.bind_eq_bind, Option.some_bind, tick]
  split_ifs <;> rfl

theorem minimax_unpruned_nat_succ (late : Nat → Bool) (d : Nat) (alpha beta : Int)
    (maximizing : Bool) (player opponent : Char) (s : RenjuBot) :
    minimax_unpruned_nat late (d + 1) alpha beta maximizing player opponent s =
      if late s.clock_reads then some (0, tick s)
      else if all_cells.any (completes s.board_ (if maximizing then player else opponent)) then
        some (if maximizing then 1000000 - ((d + 1 : Nat) : Int)
          else -1000000 + ((d + 1 : Nat) : Int), tick s)
      else if (all_cells.filter (is_empty s.board_)).isEmpty then some (0, tick s)
      else
        minimax_moves_unpruned
          (fun a c t => minimax_unpruned_nat late d a c (!maximizing) player opponent t)
          maximizing (if maximizing then player else opponent)
          (all_cells.filter (is_empty s.board_)) alpha beta
          (if maximizing then INT_MIN else INT_MAX) (tick s) := by
  rw [minimax_unpruned_nat]
  simp only [minimax_win_loop_eq, collect_moves_eq, Option.bind_eq_bind, Option.some_bind, tick]
  split_ifs <;> rfl

theorem game_value_zero (cache : Cache) (player opponent : Char) (maximizing : Bool)
    (b : Board) :
    game_value cache player opponent 0 maximizing b =
      if all_cells.any (completes b (if maximizing then player else opponent)) = true then
        (if maximizing then 1000000 - ((0 : Nat) : Int) else -1000000 + ((0 : Nat) : Int))
      else leaf_score cache b := by
  rw [game_value]

theorem game_value_succ (cache : Cache) (player opponent : Char) (d : Nat) (maximizing : Bool)
    (b : Board) :
    game_value cache player opponent (d + 1) maximizing b =
      if all_cells.any (completes b (if maximizing then player else opponent)) = true then
        (if maximizing then 1000000 - ((d + 1 : Nat) : Int)
          else -1000000 + ((d + 1 : Nat) : Int))
      else if (all_cells.filter (is_empty b)).isEmpty = true then 0
      else
        fold_best maximizing (if maximizing then INT_MIN else INT_MAX)
          ((all_cells.filter (is_empty b)).map (fun m =>
            game_value cache player opponent d (!maximizing)
              (b.set m.1 m.2 (if maximizing then player else opponent)))) := by
  rw [game_value]

/-! ## The unpruned search computes the game value -/

theorem unpruned_loop_max (recurse : Int → Int → RenjuBot → Option (Int × RenjuBot))
    (stone : Char) (bd : Board) (c0 : Cache) (child : Board → Int)
    (hrec : ∀ a c t, SameScores c0 t.evaluation_cache →
      ∃ t', recurse a c t = some (child t.board_, t') ∧ t'.board_ = t.board_ ∧
        SameScores c0 t'.evaluation_cache)
    (moves : List (Int × Int)) (hm : ∀ p ∈ moves, is_empty bd p = true)
    (alpha beta best : Int) (s : RenjuBot) (hs : s.board_ = bd)
    (hc : SameScores c0 s.evaluation_cache) :
    ∃ s', minimax_moves_unpruned recurse true stone moves alpha beta best s
        = some (fold_best true best (moves.map (fun m => child (bd.set m.1 m.2 stone))), s') ∧
      s'.board_ = bd ∧ SameScores c0 s'.evaluation_cache := by
  induction moves generalizing alpha beta best s with
  | nil => exact ⟨s, rfl, hs, hc⟩
  | cons p rest ih =>
    obtain ⟨x, y⟩ := p
    have he : is_empty s.board_ (x, y) = true := hs ▸ hm (x, y) (by simp)
    obtain ⟨t', hv, hb, hc'⟩ := hrec alpha beta { s with board_ := s.board_.set x y stone } hc
    simp only at hb hv
    rw [minimax_moves_unpruned_cons_max recurse stone x y rest alpha beta best s _ t' he hv hb,
      List.map_cons, fold_max_cons, hs]
    exact ih (fun q hq => hm q (by simp [hq])) _ _ _ { t' with board_ := bd } rfl hc'

theorem unpruned_loop_min (recurse : Int → Int → RenjuBot → Option (Int × RenjuBot))
    (stone : Char) (bd : Board) (c0 : Cache) (child : Board → Int)
    (hrec : ∀ a c t, SameScores c0 t.evaluation_cache →
      ∃ t', recurse a c t = some (child t.board_, t') ∧ t'.board_ = t.board_ ∧
        SameScores c0 t'.evaluation_cache)
    (moves : List (Int × Int)) (hm : ∀ p ∈ moves, is_empty bd p = true)
    (alpha beta best : Int) (s : RenjuBot) (hs : s.board_ = bd)
    (hc : SameScores c0 s.evaluation_cache) :
    ∃ s', minimax_moves_unpruned recurse false stone moves alpha beta best s
        = some (fold_best false best (moves.map (fun m => child (bd.set m.1 m.2 stone))), s') ∧
      s'.board_ = bd ∧ SameScores c0 s'.evaluation_cache := by
  induction moves generalizing alpha beta best s with
  | nil => exact ⟨s, rfl, hs, hc⟩
  | cons p rest ih =>
    obtain ⟨x, y⟩ := p
    have he : is_empty s.board_ (x, y) = true := hs ▸ hm (x, y) (by simp)
    obtain ⟨t', hv, hb, hc'⟩ := hrec alpha beta { s with board_ := s.board_.set x y stone } hc
    simp only at hb hv
    rw [minimax_moves_unpruned_cons_min recurse stone x y rest alpha beta best s _ t' he hv hb,
      List.map_cons, fold_min_cons, hs]
    exact ih (fun q hq => hm q (by simp [hq])) _ _ _ { t' with board_ := bd } rfl hc'

/-- With a clock that is never late, the unpruned search returns the game value. -/
theorem minimax_unpruned_nat_value (late : Nat → Bool) (hlate : ∀ k, late k = false)
    (c0 : Cache) (player opponent : Char) (depth : Nat) :
    ∀ (alpha beta : Int) (maximizing : Bool) (t : RenjuBot),
      SameScores c0 t.evaluation_cache →
      ∃ t', minimax_unpruned_nat late depth alpha beta maximizing player opponent t
          = some (game_value c0 player opponent depth maximizing t.board_, t') ∧
        t'.board_ = t.board_ ∧ SameScores c0 t'.evaluation_cache := by
  induction depth with
  | zero =>
    intro alpha beta maximizing t hc
    have hl : ¬ (late t.clock_reads = true) := by rw [hlate]; exact Bool.false_ne_true
    rw [minimax_unpruned_nat_zero, game_value_zero, if_neg hl]
    by_cases h2 : all_cells.any
        (completes t.board_ (if maximizing then player else opponent)) = true
    · rw [if_pos h2, if_pos h2]
      exact ⟨tick t, rfl, rfl, hc⟩
    · rw [if_neg h2, if_neg h2]
      exact evaluate_position_same_scores c0 player opponent (tick t) hc
  | succ d ih =>
    intro alpha beta maximizing t hc
    have hl : ¬ (late t.clock_reads = true) := by rw [hlate]; exact Bool.false_ne_true
    rw [minimax_unpruned_nat_succ, game_value_succ, if_neg hl]
    by_cases h2 : all_cells.any
        (completes t.board_ (if maximizing then player else opponent)) = true
    · rw [if_pos h2, if_pos h2]
      exact ⟨tick t, rfl, rfl, hc⟩
    · rw [if_neg h2, if_neg h2]
      by_cases h3 : (all_cells.filter (is_empty t.board_)).isEmpty = true
      · rw [if_pos h3, if_pos h3]
        exact ⟨tick t, rfl, rfl, hc⟩
      · rw [if_neg h3, if_neg h3]
        cases maximizing
        · exact unpruned_loop_min _ opponent t.board_ c0
            (fun bd => game_value c0 player opponent d true bd)
            (fun a c u hu => ih a c true u hu) _ (fun p hp => (List.mem_filter.1 hp).2)
            alpha beta INT_MAX (tick t) rfl hc
        · exact unpruned_loop_max _ player t.board_ c0
            (fun bd => game_value c0 player opponent d false bd)
            (fun a c u hu => ih a c false u hu) _ (fun p hp => (List.mem_filter.1 hp).2)
            alpha beta INT_MIN (tick t) rfl hc

/-! ## The pruned search bounds the game value -/

theorem pruned_loop_max (recurse : Int → Int → RenjuBot → Option (Int × RenjuBot))
    (stone : Char) (bd : Board) (c0 : Cache) (child : Board → Int)
    (hrec : ∀ a c t, INT_MIN ≤ a → a < c → c ≤ INT_MAX → SameScores c0 t.evaluation_cache →
      ∃ v t', recurse a c t = some (v, t') ∧ t'.board_ = t.board_ ∧
        SameScores c0 t'.evaluation_cache ∧ Bounds a c v (child t.board_))
    (moves : List (Int × Int)) (hm : ∀ p ∈ moves, is_empty bd p = true)
    (alpha beta best : Int) (s : RenjuBot) (hs : s.board_ = bd)
    (hc : SameScores c0 s.evaluation_cache)
    (hlo : INT_MIN ≤ alpha) (hba : best ≤ alpha) (hab : alpha < beta) (hhi : beta ≤ INT_MAX) :
    ∃ v s', minimax_moves recurse true stone moves alpha beta best s = some (v, s') ∧
      s'.board_ = bd ∧ SameScores c0 s'.evaluation_cache ∧ best ≤ v ∧
      Bounds alpha beta v
        (fold_best true best (moves.map (fun m => child (bd.set m.1 m.2 stone)))) := by
  induction moves generalizing alpha beta best s with
  | nil =>
    refine ⟨best, s, rfl, hs, hc, le_refl _, ?_⟩
    unfold Bounds
    rw [List.map_nil, fold_best_nil]
    omega
  | cons p rest ih =>
    obtain ⟨x, y⟩ := p
    have he : is_empty s.board_ (x, y) = true := hs ▸ hm (x, y) (by simp)
    obtain ⟨vm, t', hv, hb, hc', hbd⟩ :=
      hrec alpha beta { s with board_ := s.board_.set x y stone } hlo hab hhi hc
    simp only at hb hv hbd
    rw [minimax_moves_cons_max recurse stone x y rest alpha beta best s vm t' he hv hb,
      List.map_cons, fold_max_cons, hs]
    dsimp only
    rw [hs] at hbd
    unfold Bounds at hbd
    obtain ⟨hc1, hc2, hc3⟩ := hbd
    have ih' := ih (fun q hq => hm q (by simp [hq]))
    clear ih hrec hm
    by_cases hA : vm ≤ alpha
    · -- the child failed low: alpha is unchanged
      have e1 : max alpha (max best vm) = alpha := max_eq_left (max_le hba hA)
      have hM : child (bd.set x y stone) ≤ vm := hc1 hA
      rw [e1, if_neg (not_le.2 hab)]
      obtain ⟨v, s', hres, hb', hc'', hbv, hbounds⟩ := ih' alpha beta (max best vm)
        { t' with board_ := bd } rfl hc' hlo (max_le hba hA) hab hhi
      unfold Bounds at hbounds
      obtain ⟨hi1, hi2, hi3⟩ := hbounds
      have t3 := fold_max_mono (max best (child (bd.set x y stone))) (max best vm)
        (max_le_max (le_refl best) hM) (rest.map (fun m => child (bd.set m.1 m.2 stone)))
      have t5 : fold_best true (max best vm)
            (rest.map (fun m => child (bd.set m.1 m.2 stone))) = max best vm ∨
          fold_best true (max best vm) (rest.map (fun m => child (bd.set m.1 m.2 stone)))
            ≤ fold_best true (max best (child (bd.set x y stone)))
              (rest.map (fun m => child (bd.set m.1 m.2 stone))) := by
        rcases fold_max_cases (max best vm)
          (rest.map (fun m => child (bd.set m.1 m.2 stone))) with h | h
        · exact Or.inl h
        · exact Or.inr (fold_max_mem _ _ _ h)
      have b0 : max best vm ≤ alpha := max_le hba hA
      refine ⟨v, s', hres, hb', hc'', le_trans (le_max_left _ _) hbv, ?_⟩
      clear hc1 hc2 hc3 hres hv
      generalize fold_best true (max best vm)
        (rest.map (fun m => child (bd.set m.1 m.2 stone))) = T' at *
      generalize fold_best true (max best (child (bd.set x y stone)))
        (rest.map (fun m => child (bd.set m.1 m.2 stone))) = T at *
      generalize max best vm = b' at *
      unfold Bounds
      refine ⟨fun h => ?_, fun h1 h2 => ?_, fun h => ?_⟩
      · have := hi1 h
        omega
      · have := hi2 h1 h2
        omega
      · have := hi3 h
        omega
    · -- the child raised alpha
      have hA' : alpha < vm := not_le.1 hA
      have e0 : max best vm = vm := max_eq_right (le_trans hba (le_of_lt hA'))
      have e1 : max alpha (max best vm) = vm := by
        rw [e0]; exact max_eq_right (le_of_lt hA')
      rw [e1, e0]
      by_cases hcut : beta ≤ vm
      · rw [if_pos hcut]
        have hM := hc3 hcut
        have t1 := fold_max_ge (max best (child (bd.set x y stone)))
          (rest.map (fun m => child (bd.set m.1 m.2 stone)))
        have m2 : child (bd.set x y stone) ≤ max best (child (bd.set x y stone)) :=
          le_max_right _ _
        refine ⟨_, _, rfl, rfl, hc', le_trans hba (le_of_lt hA'), ?_⟩
        unfold Bounds
        refine ⟨fun h => ?_, fun h1 h2 => ?_, fun h => ?_⟩ <;> omega
      · rw [if_neg hcut]
        have hM : child (bd.set x y stone) = vm := hc2 hA' (not_le.1 hcut)
        have e2 : max best (child (bd.set x y stone)) = vm := by
          rw [hM]; exact e0
        rw [e2]
        obtain ⟨v, s', hres, hb', hc'', hbv, hbounds⟩ := ih' vm beta vm
          { t' with board_ := bd } rfl hc' (le_trans hlo (le_of_lt hA')) (le_refl _)
          (not_le.1 hcut) hhi
        unfold Bounds at hbounds
        obtain ⟨hi1, hi2, hi3⟩ := hbounds
        have t2 := fold_max_ge vm (rest.map (fun m => child (bd.set m.1 m.2 stone)))
        refine ⟨v, s', hres, hb', hc'', le_trans (le_trans hba (le_of_lt hA')) hbv, ?_⟩
        clear hc1 hc2 hc3 hres hv
        generalize fold_best true vm
          (rest.map (fun m => child (bd.set m.1 m.2 stone))) = T at *
        unfold Bounds
        refine ⟨fun h => ?_, fun h1 h2 => ?_, fun h => ?_⟩
        · omega
        · by_cases hv' : v ≤ vm
          · have := hi1 hv'
            omega
          · have := hi2 (not_le.1 hv') h2
            omega
        · have := hi3 h
          omega

theorem pruned_loop_min (recurse : Int → Int → RenjuBot → Option (Int × RenjuBot))
    (stone : Char) (bd : Board) (c0 : Cache) (child : Board → Int)
    (hrec : ∀ a c t, INT_MIN ≤ a → a < c → c ≤ INT_MAX → SameScores c0 t.evaluation_cache →
      ∃ v t', recurse a c t = some (v, t') ∧ t'.board_ = t.board_ ∧
        SameScores c0 t'.evaluation_cache ∧ Bounds a c v (child t.board_))
    (moves : List (Int × Int)) (hm : ∀ p ∈ moves, is_empty bd p = true)
    (alpha beta best : Int) (s : RenjuBot) (hs : s.board_ = bd)
    (hc : SameScores c0 s.evaluation_cache)
    (hlo : INT_MIN ≤ alpha) (hab : alpha < beta) (hbb : beta ≤ best) (hhi : beta ≤ INT_MAX) :
    ∃ v s', minimax_moves recurse false stone moves alpha beta best s = some (v, s') ∧
      s'.board_ = bd ∧ SameScores c0 s'.evaluation_cache ∧ v ≤ best ∧
      Bounds alpha beta v
        (fold_best false best (moves.map (fun m => child (bd.set m.1 m.2 stone)))) := by
  induction moves generalizing alpha beta best s with
  | nil =>
    refine ⟨best, s, rfl, hs, hc, le_refl _, ?_⟩
    unfold Bounds
    rw [List.map_nil, fold_best_nil]
    omega
  | cons p rest ih =>
    obtain ⟨x, y⟩ := p
    have he : is_empty s.board_ (x, y) = true := hs ▸ hm (x, y) (by simp)
    obtain ⟨vm, t', hv, hb, hc', hbd⟩ :=
      hrec alpha beta { s with board_ := s.board_.set x y stone } hlo hab hhi hc
    simp only at hb hv hbd
    rw [minimax_moves_cons_min recurse stone x y rest alpha beta best s vm t' he hv hb,
      List.map_cons, fold_min_cons, hs]
    dsimp only
    rw [hs] at hbd
    unfold Bounds at hbd
    obtain ⟨hc1, hc2, hc3⟩ := hbd
    have ih' := ih (fun q hq => hm q (by simp [hq]))
    clear ih hrec hm
    by_cases hA : beta ≤ vm
    · -- the child failed high: beta is unchanged
      have e1 : min beta (min best vm) = beta := min_eq_left (le_min hbb hA)
      have hM : vm ≤ child (bd.set x y stone) := hc3 hA
      rw [e1, if_neg (not_le.2 hab)]
      obtain ⟨v, s', hres, hb', hc'', hbv, hbounds⟩ := ih' alpha beta (min best vm)
        { t' with board_ := bd } rfl hc' hlo hab (le_min hbb hA) hhi
      unfold Bounds at hbounds
      obtain ⟨hi1, hi2, hi3⟩ := hbounds
      have t3 := fold_min_mono (min best vm) (min best (child (bd.set x y stone)))
        (min_le_min (le_refl best) hM) (rest.map (fun m => child (bd.set m.1 m.2 stone)))
      have t5 : fold_best false (min best vm)
            (rest.map (fun m => child (bd.set m.1 m.2 stone))) = min best vm ∨
          fold_best false (min best (child (bd.set x y stone)))
              (rest.map (fun m => child (bd.set m.1 m.2 stone)))
            ≤ fold_best false (min best vm)
              (rest.map (fun m => child (bd.set m.1 m.2 stone))) := by
        rcases fold_min_cases (min best vm)
          (rest.map (fun m => child (bd.set m.1 m.2 stone))) with h | h
        · exact Or.inl h
        · exact Or.inr (fold_min_mem _ _ _ h)
      have b0 : beta ≤ min best vm := le_min hbb hA
      refine ⟨v, s', hres, hb', hc'', le_trans hbv (min_le_left _ _), ?_⟩
      clear hc1 hc2 hc3 hres hv
      generalize fold_best false (min best vm)
        (rest.map (fun m => child (bd.set m.1 m.2 stone))) = T' at *
      generalize fold_best false (min best (child (bd.set x y stone)))
        (rest.map (fun m => child (bd.set m.1 m.2 stone))) = T at *
      generalize min best vm = b' at *
      unfold Bounds
      refine ⟨fun h => ?_, fun h1 h2 => ?_, fun h => ?_⟩
      · have := hi1 h
        omega
      · have := hi2 h1 h2
        omega
      · have := hi3 h
        omega
    · -- the child lowered beta
      have hA' : vm < beta := not_le.1 hA
      have e0 : min best vm = vm := min_eq_right (le_trans (le_of_lt hA') hbb)
      have e1 : min beta (min best vm) = vm := by
        rw [e0]; exact min_eq_right (le_of_lt hA')
      rw [e1, e0]
      by_cases hcut : vm ≤ alpha
      · rw [if_pos hcut]
        have hM := hc1 hcut
        have t1 := fold_min_le (min best (child (bd.set x y stone)))
          (rest.map (fun m => child (bd.set m.1 m.2 stone)))
        have m2 : min best (child (bd.set x y stone)) ≤ child (bd.set x y stone) :=
          min_le_right _ _
        refine ⟨_, _, rfl, rfl, hc', le_trans (le_of_lt hA') hbb, ?_⟩
        unfold Bounds
        refine ⟨fun h => ?_, fun h1 h2 => ?_, fun h => ?_⟩ <;> omega
      · rw [if_neg hcut]
        have hM : child (bd.set x y stone) = vm := hc2 (not_le.1 hcut) hA'
        have e2 : min best (child (bd.set x y stone)) = vm := by
          rw [hM]; exact e0
        rw [e2]
        obtain ⟨v, s', hres, hb', hc'', hbv, hbounds⟩ := ih' alpha vm vm
          { t' with board_ := bd } rfl hc' hlo (not_le.1 hcut) (le_refl _)
          (le_trans (le_of_lt hA') hhi)
        unfold Bounds at hbounds
        obtain ⟨hi1, hi2, hi3⟩ := hbounds
        have t2 := fold_min_le vm (rest.map (fun m => child (bd.set m.1 m.2 stone)))
        refine ⟨v, s', hres, hb', hc'', le_trans hbv (le_trans (le_of_lt hA') hbb), ?_⟩
        clear hc1 hc2 hc3 hres hv
        generalize fold_best false vm
          (rest.map (fun m => child (bd.set m.1 m.2 stone))) = T at *
        unfold Bounds
        refine ⟨fun h => ?_, fun h1 h2 => ?_, fun h => ?_⟩
        · have := hi1 h
          omega
        · by_cases hv' : vm ≤ v
          · have := hi3 hv'
            omega
          · have := hi2 h1 (not_le.1 hv')
            omega
        · omega

/-! ## Range of the game value -/

theorem int_abs_nonneg (a : Int) : 0 ≤ int_abs a := by
  unfold int_abs
  split_ifs <;> omega

theorem score_of_upper (b : Board) (l : List (Int × Int)) (score : Int) :
    score_of b l score ≤ score + 15 * (l.length : Int) := by
  induction l generalizing score with
  | nil => simp [score_of]
  | cons p rest ih =>
    obtain ⟨x, y⟩ := p
    have hx := int_abs_nonneg (x - BOARD_SIZE / 2)
    have hy := int_abs_nonneg (y - BOARD_SIZE / 2)
    unfold score_of
    rw [List.length_cons]
    push_cast
    split_ifs
    · have := ih (score + (10 - (int_abs (x - BOARD_SIZE / 2) + int_abs (y - BOARD_SIZE / 2)) + 5))
      omega
    · have := ih (score + (10 - (int_abs (x - BOARD_SIZE / 2) + int_abs (y - BOARD_SIZE / 2)) + 0))
      omega
    · have := ih score
      omega

theorem static_score_le (b : Board) : static_score b ≤ 14415 := by
  have h := score_of_upper b all_cells 0
  rw [length_all_cells] at h
  unfold static_score
  omega

theorem leaf_score_range (c0 : Cache)
    (hcache : ∀ k v, c0 k = some v → INT_MIN ≤ v ∧ v ≤ INT_MAX) (b : Board) :
    INT_MIN ≤ leaf_score c0 b ∧ leaf_score c0 b ≤ INT_MAX := by
  unfold leaf_score
  cases h : c0 (board_to_string b) with
  | some v => exact hcache _ v h
  | none =>
    have h1 := static_score_ge b
    have h2 := static_score_le b
    show INT_MIN ≤ static_score b ∧ static_score b ≤ INT_MAX
    unfold INT_MIN INT_MAX
    omega

/-- The game value is representable as an `int` when the cached scores and the depth are. -/
theorem game_value_range (c0 : Cache)
    (hcache : ∀ k v, c0 k = some v → INT_MIN ≤ v ∧ v ≤ INT_MAX)
    (player opponent : Char) (depth : Nat) :
    (depth : Int) ≤ INT_MAX → ∀ (maximizing : Bool) (b : Board),
      INT_MIN ≤ game_value c0 player opponent depth maximizing b ∧
        game_value c0 player opponent depth maximizing b ≤ INT_MAX := by
  induction depth with
  | zero =>
    intro _ maximizing b
    rw [game_value_zero]
    by_cases h2 : all_cells.any
        (completes b (if maximizing then player else opponent)) = true
    · rw [if_pos h2]
      push_cast
      split_ifs <;> (unfold INT_MIN INT_MAX; omega)
    · rw [if_neg h2]
      exact leaf_score_range c0 hcache b
  | succ d ih =>
    intro hd maximizing b
    have hd' : (d : Int) ≤ INT_MAX := by
      push_cast at hd
      omega
    have ih' := ih hd'
    rw [game_value_succ]
    unfold INT_MAX at hd
    push_cast at hd
    by_cases h2 : all_cells.any
        (completes b (if maximizing then player else opponent)) = true
    · rw [if_pos h2]
      push_cast
      split_ifs <;> (unfold INT_MIN INT_MAX; omega)
    · rw [if_neg h2]
      by_cases h3 : (all_cells.filter (is_empty b)).isEmpty = true
      · rw [if_pos h3]
        unfold INT_MIN INT_MAX; omega
      · rw [if_neg h3]
        have hl : ∀ x ∈ (all_cells.filter (is_empty b)).map (fun m =>
            game_value c0 player opponent d (!maximizing)
              (b.set m.1 m.2 (if maximizing then player else opponent))),
            INT_MIN ≤ x ∧ x ≤ INT_MAX := by
          intro x hx
          obtain ⟨m, _, rfl⟩ := List.mem_map.1 hx
          exact ih' _ _
        cases maximizing
        · exact ⟨fold_min_ge _ _ _ (by unfold INT_MIN INT_MAX; omega) (fun x hx => (hl x hx).1),
            le_trans (fold_min_le _ _) (le_refl _)⟩
        · exact ⟨le_trans (le_refl _) (fold_max_ge _ _),
            fold_max_le _ _ _ (by unfold INT_MIN INT_MAX; omega) (fun x hx => (hl x hx).2)⟩

/-! ## The pruned search at a node -/

theorem Bounds_exact (alpha beta V : Int) : Bounds alpha beta V V := by
  unfold Bounds
  omega

/-- With a clock that is never late, the value `minimax` returns for a window
`alpha < beta` bounds the game value in the fail-soft sense. -/
theorem minimax_nat_bounds (late : Nat → Bool) (hlate : ∀ k, late k = false)
    (c0 : Cache) (player opponent : Char) (depth : Nat) :
    ∀ (alpha beta : Int) (maximizing : Bool) (t : RenjuBot),
      INT_MIN ≤ alpha → alpha < beta → beta ≤ INT_MAX →
      SameScores c0 t.evaluation_cache →
      ∃ v t', minimax_nat late depth alpha beta maximizing player opponent t = some (v, t') ∧
        t'.board_ = t.board_ ∧ SameScores c0 t'.evaluation_cache ∧
        Bounds alpha beta v (game_value c0 player opponent depth maximizing t.board_) := by
  induction depth with
  | zero =>
    intro alpha beta maximizing t hlo hab hhi hc
    have hl : ¬ (late t.clock_reads = true) := by rw [hlate]; exact Bool.false_ne_true
    rw [minimax_nat_zero, game_value_zero, if_neg hl]
    by_cases h2 : all_cells.any
        (completes t.board_ (if maximizing then player else opponent)) = true
    · rw [if_pos h2, if_pos h2]
      exact ⟨_, tick t, rfl, rfl, hc, Bounds_exact _ _ _⟩
    · rw [if_neg h2, if_neg h2]
      obtain ⟨s', h1, h2', h3⟩ := evaluate_position_same_scores c0 player opponent (tick t) hc
      exact ⟨_, s', h1, h2', h3, Bounds_exact _ _ _⟩
  | succ d ih =>
    intro alpha beta maximizing t hlo hab hhi hc
    have hl : ¬ (late t.clock_reads = true) := by rw [hlate]; exact Bool.false_ne_true
    rw [minimax_nat_succ, game_value_succ, if_neg hl]
    by_cases h2 : all_cells.any
        (completes t.board_ (if maximizing then player else opponent)) = true
    · rw [if_pos h2, if_pos h2]
      exact ⟨_, tick t, rfl, rfl, hc, Bounds_exact _ _ _⟩
    · rw [if_neg h2, if_neg h2]
      by_cases h3 : (all_cells.filter (is_empty t.board_)).isEmpty = true
      · rw [if_pos h3, if_pos h3]
        exact ⟨_, tick t, rfl, rfl, hc, Bounds_exact _ _ _⟩
      · rw [if_neg h3, if_neg h3]
        cases maximizing
        · obtain ⟨v, s', h1, h2', h3', _, h5⟩ := pruned_loop_min _ opponent t.board_ c0
            (fun bd => game_value c0 player opponent d true bd)
            (fun a c u ha hac hc' hu => ih a c true u ha hac hc' hu) _
            (fun p hp => (List.mem_filter.1 hp).2)
            alpha beta INT_MAX (tick t) rfl hc hlo hab hhi hhi
          exact ⟨v, s', h1, h2', h3', h5⟩
        · obtain ⟨v, s', h1, h2', h3', _, h5⟩ := pruned_loop_max _ player t.board_ c0
            (fun bd => game_value c0 player opponent d false bd)
            (fun a c u ha hac hc' hu => ih a c false u ha hac hc' hu) _
            (fun p hp => (List.mem_filter.1 hp).2)
            alpha beta INT_MIN (tick t) rfl hc hlo hlo hab hhi
          exact ⟨v, s', h1, h2', h3', h5⟩

/-! ## Claims -/

/-- C1: for every board, turn flag, pair of integers `(opponent_x, opponent_y)`, value of
`is_first_move` and behaviour of the clock, `find_best_move` returns (it never indexes the
board out of range), leaves the board as it was, and its result is an in-bounds cell that is
Empty on the board when the board has an Empty cell, and `(-1, -1)` when it has none. -/
theorem find_best_move_valid (late : Nat → Bool) (opponent_x opponent_y : Int)
    (is_first_move : Bool) (s : RenjuBot) :
    ∃ r s', find_best_move late opponent_x opponent_y is_first_move s = some (r, s') ∧
      s'.board_ = s.board_ ∧
      ((∃ x y, s.board_.read x y = some '.') →
        in_range r.1 r.2 ∧ s.board_.read r.1 r.2 = some '.') ∧
      ((¬ ∃ x y, s.board_.read x y = some '.') → r = (-1, -1)) := by
  obtain ⟨r, s', h, hb, _, hor⟩ :=
    find_best_move_outcome late opponent_x opponent_y is_first_move s
  refine ⟨r, s', h, hb, ?_, ?_⟩
  · rintro ⟨x, y, hxy⟩
    rcases hor with he | ⟨_, hnone⟩
    · exact ⟨in_range_of_is_empty he, read_of_is_empty he⟩
    · exact absurd hxy ((find?_is_empty_none s.board_).1 hnone x y)
  · intro hno
    rcases hor with he | ⟨hr, _⟩
    · exact absurd ⟨r.1, r.2, read_of_is_empty he⟩ hno
    · exact hr

/-- C2: on a cell `(x, y)` that holds colour `c`, `check_win x y c` returns (without indexing
out of range) true exactly when, along one of the four lines through `(x, y)`, the maximal run
of consecutive cells holding `c` that contains `(x, y)` has length at least 5; in particular it
returns false when the board has no five consecutive cells of `c` on any line. -/
theorem check_win_iff_maximal_run (b : Board) (x y : Int) (c : Char)
    (hc : b.read x y = some c) :
    ∃ r, check_win b x y c = some r ∧
      (r = true ↔
        ∃ d ∈ lines, ∃ i j : Nat, MaximalRun b c x y d.1 d.2 i j ∧ 5 ≤ i + j + 1) ∧
      ((¬ ∃ d ∈ lines, ∃ u v : Int, RunThrough b c u v d.1 d.2 0 4) → r = false) := by
  refine ⟨wins b x y c, check_win_eq b x y c, wins_iff_maximal_run b x y c hc, ?_⟩
  intro hno
  by_contra hr
  rw [Bool.not_eq_false] at hr
  obtain ⟨d, hd, i, j, hrun, hlen⟩ := (wins_iff_run_through b x y c hc).1 hr
  apply hno
  refine ⟨d, hd, x + d.1 * (-(i : Int)), y + d.2 * (-(i : Int)), ?_⟩
  intro k h1 h2
  have := hrun (k - (i : Int)) (by omega) (by omega)
  have e1 : x + d.1 * (-(i : Int)) + d.1 * k = x + d.1 * (k - (i : Int)) := by ring
  have e2 : y + d.2 * (-(i : Int)) + d.2 * k = y + d.2 * (k - (i : Int)) := by ring
  rw [e1, e2]
  exact this

/-- Witness of C2: the middle stone of five White stones in a row. -/
theorem check_win_iff_maximal_run_witness :
    five_board.read 0 2 = some 'W' ∧
    ∃ r, check_win five_board 0 2 'W' = some r ∧
      (r = true ↔
        ∃ d ∈ lines, ∃ i j : Nat, MaximalRun five_board 'W' 0 2 d.1 d.2 i j ∧ 5 ≤ i + j + 1) ∧
      ((¬ ∃ d ∈ lines, ∃ u v : Int, RunThrough five_board 'W' u v d.1 d.2 0 4) → r = false) :=
  ⟨by decide, check_win_iff_maximal_run five_board 0 2 'W' (by decide)⟩

/-- C3 as stated fails: with White on `(0,1) .. (0,4)` and `(0,0)` Empty, `check_win 0 0 'W'`
returns true although no line has five consecutive White stones through `(0,0)`. -/
theorem check_win_unplaced_counterexample :
    ¬ (check_win four_board 0 0 'W' = some true ↔
        ∃ d ∈ lines, ∃ i j : Nat, RunThrough four_board 'W' 0 0 d.1 d.2 i j ∧ 5 ≤ i + j + 1) := by
  intro h
  obtain ⟨d, _, i, j, hrun, _⟩ := h.1 (by decide)
  have h0 := hrun 0 (by omega) (by omega)
  simp only [mul_zero, add_zero] at h0
  exact absurd h0 (by decide)

/-- C3 amended: for every in-bounds cell `(x, y)` and colour `c`, whatever the cell holds,
`check_win x y c` returns true exactly when, on the board with `c` written at `(x, y)`, some
line has at least 5 consecutive stones of colour `c` through `(x, y)`. -/
theorem check_win_iff_run_after_placing (b : Board) (x y : Int) (c : Char)
    (hxy : in_range x y) :
    check_win b x y c = some true ↔
      ∃ d ∈ lines, ∃ i j : Nat, RunThrough (b.set x y c) c x y d.1 d.2 i j ∧ 5 ≤ i + j + 1 := by
  rw [check_win_eq, Option.some.injEq, ← wins_set_self b x y c c]
  exact wins_iff_run_through (b.set x y c) x y c (read_set_same b c hxy)

/-- Witness of C3 amended: the Empty end cell next to four White stones. -/
theorem check_win_iff_run_after_placing_witness :
    in_range 0 0 ∧
    (check_win four_board 0 0 'W' = some true ↔
      ∃ d ∈ lines, ∃ i j : Nat,
        RunThrough (four_board.set 0 0 'W') 'W' 0 0 d.1 d.2 i j ∧ 5 ≤ i + j + 1) :=
  ⟨by decide, check_win_iff_run_after_placing four_board 0 0 'W' (by decide)⟩

/-- C4: for all integers `x`, `y` and every board, `is_valid_move` returns a value without
indexing the board out of range (it is never `none`), and that value is true exactly when
`0 <= x < 31`, `0 <= y < 31` and `board[x][y]` is Empty; so it is false on every occupied
in-bounds cell and on every out-of-bounds pair. -/
theorem is_valid_move_spec (b : Board) (x y : Int) :
    is_valid_move b x y
      = some (decide (0 ≤ x ∧ x < 31 ∧ 0 ≤ y ∧ y < 31 ∧ b.read x y = some '.')) := by
  rw [is_valid_move_eq]
  congr 1
  by_cases h : b.read x y = some '.'
  · have hr : 0 ≤ x ∧ x < 31 ∧ 0 ≤ y ∧ y < 31 := in_range_of_read h
    simp [h, hr]
  · simp [h]

/-- C5: `find_blocking_move` returns `true` with `(x, y)` exactly when `(x, y)` is the first
cell in row-major scan order that is Empty and at which `check_win (x, y, opponent)` holds on
the board with an opponent stone placed there; it returns `false` exactly when no Empty cell
has that property. -/
theorem find_blocking_move_first (b : Board) (player opponent : Char) :
    ∃ r b', find_blocking_move b player opponent = some (r, b') ∧
      (∀ x y, r = some (x, y) ↔
        (Threat b opponent x y ∧
          ∀ x' y', scanned_before (x', y') (x, y) → ¬ Threat b opponent x' y')) ∧
      (r = none ↔ ∀ x y, ¬ Threat b opponent x y) := by
  refine ⟨_, _, find_blocking_move_eq b player opponent, ?_, ?_⟩
  · intro x y
    rw [find?_completes, completes_iff_Threat]
    constructor
    · rintro ⟨h1, h2⟩
      refine ⟨h1, fun x' y' hq ht => ?_⟩
      have := h2 (x', y') hq
      rw [(completes_iff_Threat b opponent x' y').2 ht] at this
      cases this
    · rintro ⟨h1, h2⟩
      refine ⟨h1, fun q hq => ?_⟩
      rw [Bool.eq_false_iff]
      intro hc
      exact h2 q.1 q.2 hq ((completes_iff_Threat b opponent q.1 q.2).1 hc)
  · rw [find?_completes_none]
    constructor
    · intro h x y ht
      have := h (x, y)
      rw [(completes_iff_Threat b opponent x y).2 ht] at this
      cases this
    · intro h q
      rw [Bool.eq_false_iff]
      intro hc
      exact h q.1 q.2 ((completes_iff_Threat b opponent q.1 q.2).1 hc)

/-- C6: whenever `find_blocking_move` returns `true` with the cell `(x, y)`, that cell is in
bounds and Empty on the board as it stands at return, which is the board at entry (the
speculative opponent stone has been removed). -/
theorem find_blocking_move_cell_empty (b b' : Board) (player opponent : Char) (x y : Int)
    (h : find_blocking_move b player opponent = some (some (x, y), b')) :
    in_range x y ∧ b'.read x y = some '.' ∧ b' = b := by
  rw [find_blocking_move_eq, Option.some.injEq, Prod.mk.injEq] at h
  obtain ⟨hf, rfl⟩ := h
  have hc := ((find?_completes b opponent (x, y)).1 hf).1
  have ht := (completes_iff_Threat b opponent x y).1 hc
  exact ⟨in_range_of_read ht.1, ht.1, rfl⟩

/-- Witness of C6: with White on `(0,1) .. (0,4)` the scan returns the Empty cell `(0,0)`. -/
theorem find_blocking_move_cell_empty_witness :
    find_blocking_move four_board 'B' 'W' = some (some (0, 0), four_board) ∧
      in_range 0 0 ∧ four_board.read 0 0 = some '.' ∧ four_board = four_board := by
  have h : find_blocking_move four_board 'B' 'W' = some (some (0, 0), four_board) := by
    rw [find_blocking_move_eq]
    have hf : all_cells.find? (completes four_board 'W') = some (0, 0) := by
      rw [find?_completes]
      refine ⟨by decide, fun q hq => completes_false_of_not_in_range _ _ _ ?_⟩
      unfold scanned_before at hq
      unfold in_range
      simp only at hq
      omega
    rw [hf]
  exact ⟨h, find_blocking_move_cell_empty four_board four_board 'B' 'W' 0 0 h⟩

/-- C7: when the opening branch does not apply and some Empty cell would complete a run of at
least 5 for the opponent's colour, `find_best_move` returns the first such cell in row-major
order, for every `opponent_x`, `opponent_y` and every clock, whether or not the engine has a
winning cell of its own. -/
theorem find_best_move_blocks (late : Nat → Bool) (opponent_x opponent_y : Int)
    (is_first_move : Bool) (s : RenjuBot)
    (hopen : ¬ (is_first_move = true ∧ s.is_black_turn = true))
    (x y : Int) (hthreat : CompletesRun s.board_ (opponent_of s) x y) :
    ∃ r, find_best_move late opponent_x opponent_y is_first_move s = some (r, s) ∧
      CompletesRun s.board_ (opponent_of s) r.1 r.2 ∧
      ∀ x' y', scanned_before (x', y') r → ¬ CompletesRun s.board_ (opponent_of s) x' y' := by
  have hc : completes s.board_ (opponent_of s) (x, y) = true :=
    (completes_iff_CompletesRun _ _ x y).2 hthreat
  have hsome : ∃ m, all_cells.find? (completes s.board_ (opponent_of s)) = some m := by
    cases hf : all_cells.find? (completes s.board_ (opponent_of s)) with
    | some m => exact ⟨m, rfl⟩
    | none =>
      have := (find?_completes_none _ _).1 hf (x, y)
      rw [hc] at this
      cases this
  obtain ⟨m, hm⟩ := hsome
  obtain ⟨hm1, hm2⟩ := (find?_completes _ _ m).1 hm
  have hme : is_empty s.board_ m = true := by
    unfold completes at hm1
    rw [Bool.and_eq_true] at hm1
    exact hm1.1
  have h1 : ¬ ((is_first_move && s.is_black_turn) = true) := by
    rw [Bool.and_eq_true]
    exact hopen
  refine ⟨m, ?_, (completes_iff_CompletesRun _ _ m.1 m.2).1 hm1, ?_⟩
  · rw [find_best_move_eq, if_neg h1, hm]
    dsimp only
    rw [if_pos hme]
  · intro x' y' hq hrun
    have := hm2 (x', y') hq
    rw [(completes_iff_CompletesRun _ _ x' y').2 hrun] at this
    cases this

/-- Witness of C7: White has four in a row on `(0,1) .. (0,4)`, open at `(0,0)` and `(0,5)`;
Black, to move, plays the completing cell `(0,0)`. -/
theorem find_best_move_blocks_witness :
    find_best_move never_late 0 4 false (fresh_state four_board true)
      = some ((0, 0), fresh_state four_board true) := by
  obtain ⟨r, h, hrun, hfirst⟩ :=
    find_best_move_blocks never_late 0 4 false (fresh_state four_board true)
      (by decide) 0 0 ((completes_iff_CompletesRun four_board 'W' 0 0).1 (by decide))
  have hr : in_range r.1 r.2 := in_range_of_read hrun.1
  have hnb : ¬ scanned_before (0, 0) r := fun hb =>
    hfirst 0 0 hb ((completes_iff_CompletesRun four_board 'W' 0 0).1 (by decide))
  have he : r = (0, 0) := by
    unfold scanned_before at hnb
    unfold in_range at hr
    simp only at hnb
    apply Prod.ext
    · show r.1 = 0
      omega
    · show r.2 = 0
      omega
  rw [he] at h
  exact h

/-- C8: with `is_black_turn` and `is_first_move` both true, `find_best_move` returns `(15, 15)`
when that cell is Empty, and otherwise the first Empty cell in row-major order when there is
one; the result is the same for all `opponent_x`, `opponent_y`. -/
theorem find_best_move_opening (late : Nat → Bool) (s : RenjuBot)
    (hblack : s.is_black_turn = true) :
    ∃ r, (∀ opponent_x opponent_y,
        find_best_move late opponent_x opponent_y true s = some (r, s)) ∧
      (s.board_.read 15 15 = some '.' → r = (15, 15)) ∧
      (s.board_.read 15 15 ≠ some '.' → ∀ x y, s.board_.read x y = some '.' →
        (∀ x' y', scanned_before (x', y') (x, y) → s.board_.read x' y' ≠ some '.') →
        r = (x, y)) := by
  have h1 : (true && s.is_black_turn) = true := by rw [hblack]; rfl
  by_cases h15 : s.board_.read 15 15 = some '.'
  · refine ⟨(15, 15), fun ox oy => ?_, fun _ => rfl, fun h => absurd h15 h⟩
    rw [find_best_move_eq, if_pos h1, if_pos ((is_empty_iff _ 15 15).2 h15)]
  · have h15' : ¬ (is_empty s.board_ (15, 15) = true) := fun h => h15 ((is_empty_iff _ 15 15).1 h)
    cases hf : all_cells.find? (is_empty s.board_) with
    | some m =>
      refine ⟨m, fun ox oy => ?_, fun h => absurd h h15, ?_⟩
      · rw [find_best_move_eq, if_pos h1, if_neg h15', hf]
      · intro _ x y hxy hfirst
        have hx : all_cells.find? (is_empty s.board_) = some (x, y) := by
          rw [find?_all_cells]
          refine ⟨in_range_of_read hxy, (is_empty_iff _ x y).2 hxy, fun q _ hq => ?_⟩
          rw [Bool.eq_false_iff]
          intro he
          exact hfirst q.1 q.2 hq ((is_empty_iff _ q.1 q.2).1 he)
        rw [hf] at hx
        exact Option.some.inj hx
    | none =>
      have hfull := (find?_is_empty_none _).1 hf
      refine ⟨(-1, -1), fun ox oy => find_best_move_full late ox oy true s hfull,
        fun h => absurd h h15, ?_⟩
      intro _ x y hxy
      exact absurd hxy (hfull x y)

/-- Witness of C8: on the fresh all-Empty board the engine, playing Black, opens at the
centre `(15, 15)`, for the opponent coordinates `(0, 0)` as for `(7, -3)`. -/
theorem find_best_move_opening_witness :
    find_best_move never_late 0 0 true (fresh_state empty_board true)
        = some ((15, 15), fresh_state empty_board true) ∧
      find_best_move never_late 7 (-3) true (fresh_state empty_board true)
        = some ((15, 15), fresh_state empty_board true) := by
  obtain ⟨r, h, h15, _⟩ :=
    find_best_move_opening never_late (fresh_state empty_board true) rfl
  have he : r = (15, 15) := h15 (by decide)
  rw [he] at h
  exact ⟨h 0 0, h 7 (-3)⟩

/-- C9: in the windowed-search phase (opening branch not taken, `find_blocking_move` found
nothing, deadline never exceeded; `opponent_x`, `opponent_y` are C++ `int`s and every cached
score is above `INT_MIN`), with `candidates` the Empty cells of the window around the
opponent's move in scan order, or all Empty cells when the window has none:
if some candidate makes `check_win` true for the engine's colour once its stone is placed
there, the result is the first such candidate; otherwise the result is the first candidate
whose score `minimax(0, INT_MIN, INT_MAX, false)`, on the board with the engine's stone
placed there, is maximal over all candidates (ties go to the earliest candidate). -/
theorem find_best_move_windowed_choice (late : Nat → Bool) (hlate : ∀ k, late k = false)
    (opponent_x opponent_y : Int)
    (hx : INT_MIN ≤ opponent_x ∧ opponent_x ≤ INT_MAX)
    (hy : INT_MIN ≤ opponent_y ∧ opponent_y ≤ INT_MAX)
    (is_first_move : Bool) (s : RenjuBot)
    (hopen : ¬ (is_first_move = true ∧ s.is_black_turn = true))
    (hblock : ∃ b', find_blocking_move s.board_ (player_of s) (opponent_of s) = some (none, b'))
    (hcache : ∀ k v, s.evaluation_cache k = some v → INT_MIN < v) :
    ∃ r s', find_best_move late opponent_x opponent_y is_first_move s = some (r, s') ∧
      ((∃ c ∈ candidates s.board_ opponent_x opponent_y,
          check_win (s.board_.set c.1 c.2 (player_of s)) c.1 c.2 (player_of s) = some true) →
        ∃ pre post, candidates s.board_ opponent_x opponent_y = pre ++ r :: post ∧
          check_win (s.board_.set r.1 r.2 (player_of s)) r.1 r.2 (player_of s) = some true ∧
          ∀ c ∈ pre,
            check_win (s.board_.set c.1 c.2 (player_of s)) c.1 c.2 (player_of s) = some false) ∧
      (candidates s.board_ opponent_x opponent_y ≠ [] →
        (∀ c ∈ candidates s.board_ opponent_x opponent_y,
          check_win (s.board_.set c.1 c.2 (player_of s)) c.1 c.2 (player_of s) = some false) →
        ∃ score : Int × Int → Int,
          (∀ c ∈ candidates s.board_ opponent_x opponent_y, ∃ s'',
            minimax late 0 INT_MIN INT_MAX false (player_of s) (opponent_of s)
              { s with board_ := s.board_.set c.1 c.2 (player_of s) } = some (score c, s'')) ∧
          ∃ pre post, candidates s.board_ opponent_x opponent_y = pre ++ r :: post ∧
            (∀ c ∈ pre, score c < score r) ∧ ∀ c ∈ post, score c ≤ score r) := by
  by_cases hnil : candidates s.board_ opponent_x opponent_y = []
  · obtain ⟨r, s', h, _⟩ := find_best_move_outcome late opponent_x opponent_y is_first_move s
    refine ⟨r, s', h, ?_, fun hne => absurd hnil hne⟩
    rintro ⟨c, hc, _⟩
    rw [hnil] at hc
    cases hc
  · obtain ⟨b', hblock⟩ := hblock
    rw [find_blocking_move_eq, Option.some.injEq, Prod.mk.injEq] at hblock
    have h1 : ¬ ((is_first_move && s.is_black_turn) = true) := by
      rw [Bool.and_eq_true]
      exact hopen
    have hemp : ¬ ((candidates s.board_ opponent_x opponent_y).isEmpty = true) := by
      rw [List.isEmpty_iff]
      exact hnil
    obtain ⟨R, flag, s', hloop, hb, hA, hB⟩ := candidate_loop_spec late hlate (player_of s)
      (opponent_of s) (player_of_ne_empty s) s.board_ s.evaluation_cache
      (candidates s.board_ opponent_x opponent_y) (candidates_empty _ _ _)
      (nodup_candidates _ _ _) INT_MIN (-1, -1) s rfl (fun _ _ => rfl)
    have hres : find_best_move late opponent_x opponent_y is_first_move s
        = some (finish_search (R, flag, s')) := by
      rw [find_best_move_eq, if_neg h1, hblock.1, windowed_search_eq,
        best_moves_of_eq_candidates _ _ _ hx hy, if_neg hemp, hloop]
      rfl
    have hscore : ∀ c ∈ candidates s.board_ opponent_x opponent_y, ∃ s'',
        minimax late 0 INT_MIN INT_MAX false (player_of s) (opponent_of s)
          { s with board_ := s.board_.set c.1 c.2 (player_of s) }
          = some (leaf_value s.evaluation_cache (s.board_.set c.1 c.2 (player_of s))
            (opponent_of s), s'') := by
      intro c _
      obtain ⟨t', hv, _⟩ := minimax_leaf late INT_MIN INT_MAX (player_of s) (opponent_of s)
        { s with board_ := s.board_.set c.1 c.2 (player_of s) } (hlate _)
      exact ⟨t', hv⟩
    by_cases hwin : ∃ c ∈ candidates s.board_ opponent_x opponent_y,
        wins (s.board_.set c.1 c.2 (player_of s)) c.1 c.2 (player_of s) = true
    · obtain ⟨hf, pre, post, hsplit, hR, hpre⟩ := hA hwin
      have hfin : finish_search (R, flag, s') = (R, s') := by
        unfold finish_search
        rw [if_pos hf]
      refine ⟨R, s', by rw [hres, hfin], ?_, ?_⟩
      · intro _
        refine ⟨pre, post, hsplit, (check_win_true_iff _ _ _ _).2 hR, fun c hc => ?_⟩
        exact (check_win_false_iff _ _ _ _).2 (hpre c hc)
      · intro _ hall
        obtain ⟨c, hc, hcw⟩ := hwin
        have := (check_win_false_iff _ _ _ _).1 (hall c hc)
        rw [hcw] at this
        cases this
    · have hall : ∀ c ∈ candidates s.board_ opponent_x opponent_y,
          wins (s.board_.set c.1 c.2 (player_of s)) c.1 c.2 (player_of s) = false := by
        intro c hc
        rw [Bool.eq_false_iff]
        exact fun h => hwin ⟨c, hc, h⟩
      obtain ⟨hf, hcase⟩ := hB hall
      have hright : ∃ pre post, candidates s.board_ opponent_x opponent_y = pre ++ R :: post ∧
          INT_MIN < leaf_value s.evaluation_cache (s.board_.set R.1 R.2 (player_of s))
            (opponent_of s) ∧
          (∀ c ∈ pre, leaf_value s.evaluation_cache (s.board_.set c.1 c.2 (player_of s))
              (opponent_of s)
            < leaf_value s.evaluation_cache (s.board_.set R.1 R.2 (player_of s))
              (opponent_of s)) ∧
          ∀ c ∈ post, leaf_value s.evaluation_cache (s.board_.set c.1 c.2 (player_of s))
              (opponent_of s)
            ≤ leaf_value s.evaluation_cache (s.board_.set R.1 R.2 (player_of s))
              (opponent_of s) := by
        rcases hcase with ⟨_, hle⟩ | h
        · obtain ⟨c, hc⟩ := List.exists_mem_of_ne_nil _ hnil
          have h1 := hle c hc
          have h2 := leaf_value_lower s.evaluation_cache
            (s.board_.set c.1 c.2 (player_of s)) (opponent_of s) hcache
          exact absurd h1 (not_le.2 h2)
        · exact h
      obtain ⟨pre, post, hsplit, _, hpre, hpost⟩ := hright
      have hRmem : R ∈ candidates s.board_ opponent_x opponent_y := by
        rw [hsplit]; simp
      have hRe : is_empty s.board_ R = true := candidates_empty _ _ _ R hRmem
      have hRr : in_range R.1 R.2 := in_range_of_is_empty hRe
      have hfin : finish_search (R, flag, s') = (R, s') := by
        have hflag : ¬ (flag = true) := by rw [hf]; exact Bool.false_ne_true
        have hvalid : ¬ (R.1 = -1 ∨ R.2 = -1 ∨ is_empty s'.board_ R = false) := by
          rw [hb, hRe]
          unfold in_range at hRr
          simp only [Bool.true_eq_false, or_false]
          omega
        unfold finish_search final_choice
        simp only [if_neg hflag, if_neg hvalid]
      refine ⟨R, s', by rw [hres, hfin], ?_, ?_⟩
      · rintro ⟨c, hc, hcw⟩
        have := (check_win_true_iff _ _ _ _).1 hcw
        rw [hall c hc] at this
        cases this
      · intro _ _
        exact ⟨fun c => leaf_value s.evaluation_cache (s.board_.set c.1 c.2 (player_of s))
          (opponent_of s), hscore, pre, post, hsplit, hpre, hpost⟩

/-- Witness of C9.  First: White to move with White stones on `(0,1) .. (0,4)` and no Black
stone, opponent's move given as `(0, 2)`: the engine returns a candidate that wins at once.
Second: White to move on the all-Empty board, opponent's move given as `(15, 15)`: no
candidate wins and the engine returns the first candidate of maximal score. -/
theorem find_best_move_windowed_choice_witness :
    (∃ r s', find_best_move never_late 0 2 false (fresh_state four_board false) = some (r, s') ∧
      check_win (four_board.set r.1 r.2 'W') r.1 r.2 'W' = some true) ∧
    (∃ r s', find_best_move never_late 15 15 false (fresh_state empty_board false)
        = some (r, s') ∧
      ∃ score : Int × Int → Int, ∃ pre post, candidates empty_board 15 15 = pre ++ r :: post ∧
        (∀ c ∈ pre, score c < score r) ∧ ∀ c ∈ post, score c ≤ score r) := by
  constructor
  · obtain ⟨r, s', h, hA, _⟩ :=
      find_best_move_windowed_choice never_late (fun _ => rfl) 0 2 (by decide) (by decide) false
        (fresh_state four_board false) (by decide)
        ⟨four_board, by
          rw [find_blocking_move_eq]
          have hnone : all_cells.find? (completes four_board 'B') = none :=
            (find?_completes_none four_board 'B').2
              (completes_false_of_no_stone four_board 'B' four_board_no_black)
          exact congrArg (fun o => some (o, four_board)) hnone⟩
        (fun _ _ hv => by cases hv)
    obtain ⟨_, _, _, hwin, _⟩ := hA ⟨(0, 0), mem_candidates_four_board, by decide⟩
    exact ⟨r, s', h, hwin⟩
  · obtain ⟨r, s', h, _, hB⟩ :=
      find_best_move_windowed_choice never_late (fun _ => rfl) 15 15 (by decide) (by decide)
        false (fresh_state empty_board false) (by decide)
        ⟨empty_board, by
          rw [find_blocking_move_eq]
          have hnone : all_cells.find? (completes empty_board 'B') = none :=
            (find?_completes_none empty_board 'B').2
              (completes_false_of_no_stone empty_board 'B'
                (empty_board_no_stone 'B' (by decide)))
          exact congrArg (fun o => some (o, empty_board)) hnone⟩
        (fun _ _ hv => by cases hv)
    obtain ⟨score, _, pre, post, hsplit, hpre, hpost⟩ :=
      hB (List.ne_nil_of_mem mem_candidates_empty_board)
        (fun c _ => (check_win_false_iff _ _ _ _).2 (wins_empty_board_false 'W' (by decide) c))
    exact ⟨r, s', h, score, pre, post, hsplit, hpre, hpost⟩

/-- C10: when the clock reading at entry does not exceed the deadline, `depth ≥ 0` and some
Empty cell completes a run of at least 5 for the side to move (`player` when maximizing,
`opponent` otherwise), `minimax` returns `1000000 - depth` when maximizing and
`-1000000 + depth` when minimizing, having read the clock once and touched neither board nor
cache (no recursive call); and it returns 0 whenever `depth < 0`. -/
theorem minimax_immediate_win (late : Nat → Bool) (depth alpha beta : Int) (maximizing : Bool)
    (player opponent : Char) (s : RenjuBot) :
    (0 ≤ depth → late s.clock_reads = false →
      (∃ x y, CompletesRun s.board_ (if maximizing then player else opponent) x y) →
      minimax late depth alpha beta maximizing player opponent s
        = some (if maximizing then 1000000 - depth else -1000000 + depth, tick s)) ∧
    (depth < 0 →
      ∃ s', minimax late depth alpha beta maximizing player opponent s = some (0, s')) := by
  constructor
  · rintro hd hlate ⟨x, y, hrun⟩
    have hany : all_cells.any
        (completes s.board_ (if maximizing then player else opponent)) = true := by
      rw [List.any_eq_true]
      have hc := (completes_iff_CompletesRun _ _ x y).2 hrun
      exact ⟨(x, y), (mem_all_cells _).2 (in_range_of_read hrun.1), hc⟩
    have hl : ¬ (late s.clock_reads = true) := by rw [hlate]; exact Bool.false_ne_true
    have hcast : ((depth.toNat : Nat) : Int) = depth := Int.toNat_of_nonneg hd
    unfold minimax
    rw [if_neg (not_lt.2 hd)]
    cases hn : depth.toNat with
    | zero =>
      rw [hn] at hcast
      rw [minimax_nat_zero, if_neg hl, if_pos hany, hcast]
    | succ d =>
      rw [hn] at hcast
      rw [minimax_nat_succ, if_neg hl, if_pos hany, hcast]
  · intro hd
    unfold minimax
    rw [if_pos hd]
    exact ⟨_, rfl⟩

/-- Witness of C10: White, maximizing, can complete five at `(0,0)`; depth 3. -/
theorem minimax_immediate_win_witness :
    minimax never_late 3 INT_MIN INT_MAX true 'W' 'B' (fresh_state four_board false)
      = some (1000000 - 3, tick (fresh_state four_board false)) :=
  (minimax_immediate_win never_late 3 INT_MIN INT_MAX true 'W' 'B'
    (fresh_state four_board false)).1 (by decide) rfl
    ⟨0, 0, (completes_iff_CompletesRun four_board 'W' 0 0).1 (by decide)⟩

/-- C12: for every board and cache state, two successive calls of `evaluate_position` with
no board change in between return the same score; after the first call the cache holds that
score for the board, and the second call returns it leaving the whole state, cache included,
unchanged. -/
theorem evaluate_position_twice (player opponent player' opponent' : Char) (s : RenjuBot) :
    ∃ v s1, evaluate_position player opponent s = some (v, s1) ∧
      s1.board_ = s.board_ ∧
      s1.evaluation_cache (board_to_string s1.board_) = some v ∧
      evaluate_position player' opponent' s1 = some (v, s1) := by
  cases h : s.evaluation_cache (board_to_string s.board_) with
  | some v =>
    exact ⟨v, s, evaluate_position_hit _ _ s v h, rfl, h, evaluate_position_hit _ _ s v h⟩
  | none =>
    exact ⟨static_score s.board_, store_score s (static_score s.board_),
      evaluate_position_miss _ _ s h, rfl, store_score_lookup s _,
      evaluate_position_hit _ _ _ _ (store_score_lookup s _)⟩

/-- C14: for every prior state, the `reset` command (reached when the request did not time
out) answers `ok` and leaves every one of the 31 x 31 cells Empty, the evaluation cache
without any entry, and the turn flag negated. -/
theorem reset_command_clears (late : Nat → Bool) (s : RenjuBot) :
    ∃ s', handle_command late false Command.reset s = some (Response.reply "ok", s') ∧
      (∀ x y, in_range x y → s'.board_.read x y = some '.') ∧
      (∀ k, s'.evaluation_cache k = none) ∧
      s'.is_black_turn = !s.is_black_turn := by
  refine ⟨_, rfl, ?_, fun _ => rfl, rfl⟩
  intro x y hxy
  show empty_board.read x y = some '.'
  rw [read_empty_board, if_pos hxy]

/-- C15: for every board, every valid move `(x, y)` (in bounds, cell Empty) and every colour
`c`, placing `c` at `(x, y)` and then writing Empty there succeeds and yields a board whose
`board_to_string` equals the one before the placement. -/
theorem place_remove_serialization (b : Board) (x y : Int) (c : Char)
    (h : b.read x y = some '.') :
    ∃ b1 b2, b.write x y c = some b1 ∧ b1.write x y '.' = some b2 ∧
      board_to_string b2 = board_to_string b := by
  obtain ⟨h1, h2⟩ := place_undo b x y c ((is_empty_iff b x y).2 h)
  exact ⟨_, _, h1, h2, rfl⟩

/-- Witness of C15: a Black stone placed on the Empty cell `(0,0)` next to four White stones
and removed again. -/
theorem place_remove_serialization_witness :
    four_board.read 0 0 = some '.' ∧
    ∃ b1 b2, four_board.write 0 0 'B' = some b1 ∧ b1.write 0 0 '.' = some b2 ∧
      board_to_string b2 = board_to_string four_board :=
  ⟨by decide, place_remove_serialization four_board 0 0 'B' (by decide)⟩

/-- C18: for every board, depth (any integer), alpha, beta, maximizing flag, colours,
`opponent_x`, `opponent_y`, `is_first_move` and clock, each of `find_blocking_move`,
`minimax` and `find_best_move` returns a result (so no board cell outside
`[0,31) x [0,31)` was read or written on the way) and the board at return equals the board
at entry. -/
theorem speculative_moves_undone (late : Nat → Bool) (s : RenjuBot) (player opponent : Char)
    (depth alpha beta : Int) (maximizing : Bool) (opponent_x opponent_y : Int)
    (is_first_move : Bool) :
    (∃ r b', find_blocking_move s.board_ player opponent = some (r, b') ∧ b' = s.board_) ∧
    (∃ v s', minimax late depth alpha beta maximizing player opponent s = some (v, s') ∧
      s'.board_ = s.board_) ∧
    (∃ r s', find_best_move late opponent_x opponent_y is_first_move s = some (r, s') ∧
      s'.board_ = s.board_) := by
  refine ⟨⟨_, _, find_blocking_move_eq s.board_ player opponent, rfl⟩, ?_, ?_⟩
  · obtain ⟨v, s', h, hb, _⟩ := minimax_frame late depth alpha beta maximizing player opponent s
    exact ⟨v, s', h, hb⟩
  · obtain ⟨r, s', h, hb, _⟩ :=
      find_best_move_outcome late opponent_x opponent_y is_first_move s
    exact ⟨r, s', h, hb⟩

/-- C16: handling the `move` command with opponent coordinates `(x, y)` (the request not
timed out): the answer is the error "Invalid opponent move" exactly when `x = -1` or
`y = -1` or `is_valid_move(x, y)` is false, and then board and turn flag are unchanged;
otherwise the opponent's colour is written at `(x, y)` and, when a move `(nx, ny)` is
reported, that cell was Empty after the opponent's stone was recorded, differs from `(x, y)`,
and now holds the engine's colour. -/
theorem move_command_spec (late : Nat → Bool) (x y : Int) (s : RenjuBot) :
    ∃ r s', handle_command late false (Command.move x y) s = some (r, s') ∧
      (r = Response.error "Invalid opponent move" ↔
        (x = -1 ∨ y = -1 ∨ is_valid_move s.board_ x y = some false)) ∧
      (r = Response.error "Invalid opponent move" →
        s'.board_ = s.board_ ∧ s'.is_black_turn = s.is_black_turn) ∧
      (r ≠ Response.error "Invalid opponent move" →
        ∃ b1, s.board_.write x y (opponent_of s) = some b1 ∧
          s'.is_black_turn = s.is_black_turn ∧
          s'.board_.read x y = some (opponent_of s) ∧
          ∀ nx ny, r = Response.move nx ny →
            b1.read nx ny = some '.' ∧ (nx, ny) ≠ (x, y) ∧
              b1.write nx ny (player_of s) = some s'.board_) := by
  by_cases hrej : x = -1 ∨ y = -1 ∨ is_empty s.board_ (x, y) = false
  · refine ⟨_, _, handle_move_rejected late x y s hrej, ?_, fun _ => ⟨rfl, rfl⟩,
      fun h => absurd rfl h⟩
    refine ⟨fun _ => ?_, fun _ => rfl⟩
    rcases hrej with h | h | h
    · exact Or.inl h
    · exact Or.inr (Or.inl h)
    · exact Or.inr (Or.inr (by rw [is_valid_move_is_empty, h]))
  · have hx : x ≠ -1 := fun h => hrej (Or.inl h)
    have hy : y ≠ -1 := fun h => hrej (Or.inr (Or.inl h))
    have he : is_empty s.board_ (x, y) = true := by
      cases h : is_empty s.board_ (x, y)
      · exact absurd (Or.inr (Or.inr h)) hrej
      · rfl
    have hnot : ¬ (x = -1 ∨ y = -1 ∨ is_valid_move s.board_ x y = some false) := by
      rintro (h | h | h)
      · exact hx h
      · exact hy h
      · rw [is_valid_move_is_empty, he] at h
        cases h
    have hxy : in_range x y := in_range_of_is_empty he
    have hw : s.board_.write x y (opponent_of s) = some (s.board_.set x y (opponent_of s)) :=
      write_of_in_range _ _ hxy
    have hopp : (s.board_.set x y (opponent_of s)).read x y = some (opponent_of s) :=
      read_set_same _ _ hxy
    obtain ⟨n, s1, hfind, hb, ht, hor⟩ := find_best_move_outcome late x y false
      { s with board_ := s.board_.set x y (opponent_of s) }
    simp only at hb ht hor
    have hcmd := handle_move_accepted late x y s he hx hy n s1 hfind hb ht
    rcases hor with hn | ⟨_, hnone⟩
    · rw [if_pos hn] at hcmd
      have hne : n ≠ (x, y) := by
        intro h
        have h1 := read_of_is_empty hn
        rw [h] at h1
        rw [hopp] at h1
        exact opponent_of_ne_empty s (Option.some.inj h1)
      refine ⟨_, _, hcmd, ⟨fun h => (by cases h), fun h => absurd h hnot⟩,
        fun h => (by cases h), fun _ => ⟨_, hw, ht, ?_, ?_⟩⟩
      · show ((s.board_.set x y (opponent_of s)).set n.1 n.2 (player_of s)).read x y = _
        rw [read_set_other, hopp]
        rintro ⟨h1, h2⟩
        exact hne (Prod.ext h1.symm h2.symm)
      · intro nx ny hr
        injection hr with h1 h2
        subst h1 h2
        exact ⟨read_of_is_empty hn, hne, write_of_in_range _ _ (in_range_of_is_empty hn)⟩
    · have hn : ¬ (is_empty (s.board_.set x y (opponent_of s)) n = true) := by
        intro h
        have := (find?_is_empty_none _).1 hnone n.1 n.2
        exact this (read_of_is_empty h)
      rw [if_neg hn, hnone] at hcmd
      have hstr : Response.error "No valid move available"
          ≠ Response.error "Invalid opponent move" := by
        intro h
        injection h with h'
        exact absurd h' (by decide)
      refine ⟨_, _, hcmd, ⟨fun h => absurd h hstr, fun h => absurd h hnot⟩,
        fun h => absurd h hstr, fun _ => ⟨_, hw, ht, ?_, ?_⟩⟩
      · rw [hb, hopp]
      · intro nx ny hr
        cases hr

/-- C13: on a cache miss, and under the cache invariant always, `evaluate_position` returns
the sum over all Empty cells `(x, y)` of `10 - (|x - 15| + |y - 15|)`, plus 5 for each Empty
cell with no occupied cell at Manhattan distance at most 2 (every Empty cell, when the board
holds no stone); the result is the same for every choice of the player and opponent
arguments. -/
theorem evaluate_position_score (player opponent player' opponent' : Char) (s : RenjuBot) :
    (s.evaluation_cache (board_to_string s.board_) = none →
      ∃ s', evaluate_position player opponent s = some (spec_score s.board_, s')) ∧
    (CacheSound s.evaluation_cache →
      ∃ s', evaluate_position player opponent s = some (spec_score s.board_, s')) ∧
    ((∀ x y c, s.board_.read x y = some c → c = '.') →
      ∀ p, stone_within2 s.board_ p = false) ∧
    evaluate_position player' opponent' s = evaluate_position player opponent s := by
  refine ⟨?_, ?_, ?_, ?_⟩
  · intro hmiss
    rw [evaluate_position_miss _ _ s hmiss, static_score_eq_spec]
    exact ⟨_, rfl⟩
  · intro hsound
    cases h : s.evaluation_cache (board_to_string s.board_) with
    | none =>
      rw [evaluate_position_miss _ _ s h, static_score_eq_spec]
      exact ⟨_, rfl⟩
    | some v =>
      rw [evaluate_position_hit _ _ s v h, hsound s.board_ v h, static_score_eq_spec]
      exact ⟨_, rfl⟩
  · intro hno p
    unfold stone_within2
    rw [List.any_eq_false]
    intro q hq
    obtain ⟨c, hc⟩ := read_of_in_range s.board_ ((mem_all_cells q).1 hq)
    have he : is_empty s.board_ q = true := by
      rw [← Prod.mk.eta (p := q), is_empty_iff, hc, hno q.1 q.2 c hc]
    rw [he]
    simp
  · rw [evaluate_position_eq, evaluate_position_eq]

/-- Witness of C13: on the all-Empty 31 x 31 board, with an empty cache, the score is
`-465`. -/
theorem evaluate_position_score_witness :
    ∃ s', evaluate_position 'B' 'W' (fresh_state empty_board true) = some (-465, s') := by
  obtain ⟨s', h⟩ :=
    (evaluate_position_score 'B' 'W' 'B' 'W' (fresh_state empty_board true)).1 rfl
  have hv : spec_score (fresh_state empty_board true).board_ = -465 := spec_score_empty_board
  rw [hv] at h
  exact ⟨s', h⟩

/-- C17: cache soundness.  In every state reachable from the initial state by any sequence
of steps (`evaluate_position`, `minimax`, `find_blocking_move`, `find_best_move`, the
`start`, `move`, `reset` and unknown commands), every cache entry `(k, v)` is such that every
board `b` with `board_to_string b = k` has uncached evaluation `v`; `board_to_string` is
injective on boards; and no step other than a `reset` that is carried out removes or changes
an existing entry. -/
theorem cache_soundness_invariant :
    (∀ s, Reachable s → ∀ (b : Board) (v : Int),
      s.evaluation_cache (board_to_string b) = some v → v = static_score b) ∧
    (∀ b1 b2 : Board, board_to_string b1 = board_to_string b2 → b1 = b2) ∧
    (∀ s s', Step false s s' → ∀ k v,
      s.evaluation_cache k = some v → s'.evaluation_cache k = some v) :=
  ⟨fun s hs => Reachable_sound s hs, board_to_string_injective,
    fun s s' h => (Step_grows s s' h).1⟩

/-- C20: when `find_blocking_move` found no cell at which the opponent wins, then for every
cell `c` (in particular every candidate), on the board with the engine's stone placed at `c`:
no Empty cell makes `check_win` true for the opponent; hence, in any state `t` with that
board, `minimax(0, INT_MIN, INT_MAX, false, player, opponent)` returns 0 when the clock
reading is late and otherwise exactly what `evaluate_position` returns; and, the cache being
sound, it never returns `-1000000`. -/
theorem horizon_win_check_never_fires (late : Nat → Bool) (s : RenjuBot)
    (hblock : ∃ b', find_blocking_move s.board_ (player_of s) (opponent_of s) = some (none, b'))
    (c : Int × Int) (t : RenjuBot) (ht : t.board_ = s.board_.set c.1 c.2 (player_of s)) :
    (∀ x y, ¬ Threat (s.board_.set c.1 c.2 (player_of s)) (opponent_of s) x y) ∧
    minimax late 0 INT_MIN INT_MAX false (player_of s) (opponent_of s) t
      = (if late t.clock_reads = true then some (0, tick t)
          else evaluate_position (player_of s) (opponent_of s) (tick t)) ∧
    (CacheSound t.evaluation_cache → ∀ v t',
      minimax late 0 INT_MIN INT_MAX false (player_of s) (opponent_of s) t = some (v, t') →
      v ≠ -1000000) := by
  obtain ⟨b', hblock⟩ := hblock
  rw [find_blocking_move_eq, Option.some.injEq, Prod.mk.injEq] at hblock
  have hnone := (find?_completes_none _ _).1 hblock.1
  have hno : ∀ q, completes (s.board_.set c.1 c.2 (player_of s)) (opponent_of s) q = false := by
    intro q
    rw [Bool.eq_false_iff]
    intro hq
    have := completes_of_set s.board_ c (player_of s) (opponent_of s)
      (player_of_ne_opponent_of s) (player_of_ne_empty s) q hq
    rw [hnone q] at this
    cases this
  have hany : ¬ (all_cells.any (completes t.board_ (opponent_of s)) = true) := by
    rw [ht, List.any_eq_true]
    rintro ⟨q, _, hq⟩
    rw [hno q] at hq
    cases hq
  have hmm : minimax late 0 INT_MIN INT_MAX false (player_of s) (opponent_of s) t
      = (if late t.clock_reads = true then some (0, tick t)
          else evaluate_position (player_of s) (opponent_of s) (tick t)) := by
    have hd : ¬ ((0 : Int) < 0) := by decide
    have hn : (0 : Int).toNat = 0 := rfl
    unfold minimax
    rw [if_neg hd, hn, minimax_nat_zero]
    simp only [Bool.false_eq_true, if_false, if_neg hany]
  refine ⟨?_, hmm, ?_⟩
  · intro x y hthreat
    have := (completes_iff_Threat _ _ x y).2 hthreat
    rw [hno (x, y)] at this
    cases this
  · intro hsound v t' hv
    rw [hmm] at hv
    split_ifs at hv
    · rw [Option.some.injEq, Prod.mk.injEq] at hv
      rw [← hv.1]
      decide
    · cases hcache : (tick t).evaluation_cache (board_to_string (tick t).board_) with
      | some w =>
        rw [evaluate_position_hit _ _ _ w hcache, Option.some.injEq, Prod.mk.injEq] at hv
        have hw := hsound (tick t).board_ w hcache
        have hge := static_score_ge (tick t).board_
        rw [← hv.1, hw]
        omega
      | none =>
        rw [evaluate_position_miss _ _ _ hcache, Option.some.injEq, Prod.mk.injEq] at hv
        have hge := static_score_ge (tick t).board_
        rw [← hv.1]
        omega

/-- Witness of C20: White to move with White stones on `(0,1) .. (0,4)` and no Black stone;
the candidate `(0,0)`. -/
theorem horizon_win_check_never_fires_witness :
    (∀ x y, ¬ Threat (four_board.set 0 0 'W') 'B' x y) ∧
    minimax never_late 0 INT_MIN INT_MAX false 'W' 'B'
        (fresh_state (four_board.set 0 0 'W') false)
      = evaluate_position 'W' 'B' (tick (fresh_state (four_board.set 0 0 'W') false)) ∧
    (CacheSound (fresh_state (four_board.set 0 0 'W') false).evaluation_cache → ∀ v t',
      minimax never_late 0 INT_MIN INT_MAX false 'W' 'B'
        (fresh_state (four_board.set 0 0 'W') false) = some (v, t') →
      v ≠ -1000000) :=
  horizon_win_check_never_fires never_late (fresh_state four_board false)
    ⟨four_board, by
      rw [find_blocking_move_eq]
      have hnone : all_cells.find? (completes four_board 'B') = none :=
        (find?_completes_none four_board 'B').2
          (completes_false_of_no_stone four_board 'B' four_board_no_black)
      exact congrArg (fun o => some (o, four_board)) hnone⟩
    (0, 0) (fresh_state (four_board.set 0 0 'W') false) rfl

/-- C19: alpha-beta pruning does not change the root value.  When the deadline is never
exceeded, for every board, turn flag, cache whose stored scores are `int` values, every depth
that is an `int` value (in particular every depth `≥ 0`), both values of `maximizing` and all
colours, `minimax(depth, INT_MIN, INT_MAX, maximizing, player, opponent)` returns, and it
returns the same value as the unpruned minimax, which is `minimax` with the cutoff
`if (beta <= alpha) break;` deleted. -/
theorem alpha_beta_root_value (late : Nat → Bool) (hlate : ∀ k, late k = false)
    (depth : Int) (hdepth : depth ≤ INT_MAX) (maximizing : Bool) (player opponent : Char)
    (s : RenjuBot)
    (hcache : ∀ k v, s.evaluation_cache k = some v → INT_MIN ≤ v ∧ v ≤ INT_MAX) :
    ∃ v s1 s2,
      minimax late depth INT_MIN INT_MAX maximizing player opponent s = some (v, s1) ∧
      minimax_unpruned late depth INT_MIN INT_MAX maximizing player opponent s
        = some (v, s2) := by
  unfold minimax minimax_unpruned
  by_cases hd : depth < 0
  · rw [if_pos hd, if_pos hd]
    exact ⟨0, _, _, rfl, rfl⟩
  · rw [if_neg hd, if_neg hd]
    have hn : ((depth.toNat : Nat) : Int) ≤ INT_MAX := by
      rw [Int.toNat_of_nonneg (not_lt.1 hd)]
      exact hdepth
    obtain ⟨v, s1, h1, _, _, hb⟩ := minimax_nat_bounds late hlate s.evaluation_cache
      player opponent depth.toNat INT_MIN INT_MAX maximizing s (le_refl _) (by decide)
      (le_refl _) (SameScores_refl _)
    obtain ⟨s2, h2, _, _⟩ := minimax_unpruned_nat_value late hlate s.evaluation_cache
      player opponent depth.toNat INT_MIN INT_MAX maximizing s (SameScores_refl _)
    obtain ⟨r1, r2⟩ := game_value_range s.evaluation_cache hcache player opponent
      depth.toNat hn maximizing s.board_
    unfold Bounds at hb
    obtain ⟨b1, b2, b3⟩ := hb
    have hv : game_value s.evaluation_cache player opponent depth.toNat maximizing s.board_
        = v := by
      generalize game_value s.evaluation_cache player opponent depth.toNat maximizing
        s.board_ = V at *
      by_cases c1 : v ≤ INT_MIN
      · have := b1 c1
        omega
      · by_cases c2 : v < INT_MAX
        · exact b2 (not_le.1 c1) c2
        · have := b3 (not_lt.1 c2)
          omega
    rw [hv] at h2
    exact ⟨v, s1, s2, h1, h2⟩

/-- Witness of C19: Black to move on the empty board with an empty cache, searched to
depth 1 with a clock that is never late. -/
theorem alpha_beta_root_value_witness :
    ∃ v s1 s2,
      minimax never_late 1 INT_MIN INT_MAX true 'B' 'W' (fresh_state empty_board true)
        = some (v, s1) ∧
      minimax_unpruned never_late 1 INT_MIN INT_MAX true 'B' 'W'
        (fresh_state empty_board true) = some (v, s2) :=
  alpha_beta_root_value never_late (fun _ => rfl) 1 (by decide) true 'B' 'W'
    (fresh_state empty_board true) (fun _ _ h => by cases h)

end Renju
